import Mathlib

/-!
# Verification of the seqlock cuckoo hash table core

A shallow embedding of `src/include/hash_maps/cuckoo/cuckoohash_map.hpp`
(namespace `seqlock_lib::cuckoo`, class `cuckoohash_map`), specialised to
`Key = T = Nat` with `KeyEqual = equality` and a user-supplied hash function,
and restricted to the single-threaded ("quiescent") semantics: locks are held
only inside one operation, so the epoch/lock bits of the seqlock word are
elided and only the `migrated` flag and the per-stripe element counter are
kept.  The seqlock itself, the bucket container (`setKV`/`eraseKV`) and
`cuckoohash_util.hpp` are not under `src/`; where their behaviour matters it
is modelled from the spec, as indicated in doc comments.

Machine integers are modelled as `Nat` with explicit `% 2 ^ 64` at the points
where the C++ computation wraps (the multiplication inside `alt_index`, the
truncation of the user hash to `size_t`).  Fallible steps (out-of-range
accesses, which are UB in C++, and the `assert`s of the source) are modelled
as `Option`/`Except` failures, and C++ exceptions are errors carrying the
table state at the throw point.  Loops are given explicit fuel.
-/

set_option autoImplicit false

namespace SeqCuckoo

/-! ## Constants of the source -/

/-- `kMaxNumLocksPow = 16` (cuckoohash_map.hpp). -/
def kMaxNumLocksPow : Nat := 16

/-- `kMaxNumLocks = 1 << kMaxNumLocksPow`. -/
def kMaxNumLocks : Nat := 2 ^ kMaxNumLocksPow

/-- `MAX_BFS_PATH_LEN = 5`. -/
def MAX_BFS_PATH_LEN : Nat := 5

/-- The MurmurHash2 constant `0xc6a4a7935bd1e995` used by `alt_index`. -/
def murmurC : Nat := 0xc6a4a7935bd1e995

/-- `2 ^ 64`, the modulus of `size_type` (= `uint64_t`) arithmetic. -/
def w64 : Nat := 2 ^ 64

/-! ## Pure hashing functions (`hashsize`, `hashmask`, `partial_key`,
`index_hash`, `alt_index`, `lock_ind`) -/

/-- `hashsize(hp) = 1 << hp`: number of buckets for a hashpower. -/
def hashsize (hp : Nat) : Nat := 2 ^ hp

/-- `hashmask(hp) = hashsize(hp) - 1`. -/
def hashmask (hp : Nat) : Nat := hashsize hp - 1

/-- `partial_key` of the source (the name avoids a reserved word): folds the
64-bit hash by XOR to 32, then 16, then 8 bits.  Each `static_cast` to a
narrower unsigned type is an explicit `% 2 ^ width`. -/
def ptag_key (hash : Nat) : Nat :=
  let hash_64bit : Nat := hash % w64
  let hash_32bit : Nat := (hash_64bit % 2 ^ 32) ^^^ ((hash_64bit >>> 32) % 2 ^ 32)
  let hash_16bit : Nat := (hash_32bit % 2 ^ 16) ^^^ ((hash_32bit >>> 16) % 2 ^ 16)
  let hash_8bit : Nat := (hash_16bit % 2 ^ 8) ^^^ ((hash_16bit >>> 8) % 2 ^ 8)
  hash_8bit

/-- `index_hash(hp, hv) = hv & hashmask(hp)`: the primary bucket. -/
def index_hash (hp hv : Nat) : Nat := hv &&& hashmask hp

/-- `alt_index(hp, partial, index)`: the other candidate bucket.  The
`nonzero_tag * 0xc6a4a7935bd1e995` product is 64-bit arithmetic, hence the
`% 2 ^ 64`. -/
def alt_index (hp ptag index : Nat) : Nat :=
  (index ^^^ (((ptag + 1) * murmurC) % w64)) &&& hashmask hp

/-- `lock_ind(bucket_ind) = bucket_ind & (kMaxNumLocks - 1)`. -/
def lock_ind (bucket_ind : Nat) : Nat := bucket_ind &&& (kMaxNumLocks - 1)

/-- XOR of the low `n` bytes of `h` (little-endian), the mathematical
description of "XOR-folding": `xorBytes h 8` is the XOR of the eight bytes of
the 64-bit value `h`. -/
def xorBytes (h : Nat) : Nat → Nat
  | 0 => 0
  | n + 1 => (h % 2 ^ 8) ^^^ xorBytes (h >>> 8) n

/-! ### C3: `alt_index` is an involution -/

theorem testBit_eq_false_of_lt_pow {x n j : Nat} (hx : x < 2 ^ n) (hj : n ≤ j) :
    x.testBit j = false := by
  apply Nat.testBit_lt_two_pow
  exact lt_of_lt_of_le hx (Nat.pow_le_pow_right (by norm_num) hj)

/-- C3.  For every hashpower `hp`, partial tag `p` and bucket index
`i < 2 ^ hp`, `alt_index hp p (alt_index hp p i) = i`: the alternate-index map
is an involution on valid bucket indices. -/
theorem alt_index_involution (hp p i : Nat) (h : i < 2 ^ hp) :
    alt_index hp p (alt_index hp p i) = i := by
  unfold alt_index hashmask hashsize
  apply Nat.eq_of_testBit_eq
  intro j
  rcases Nat.lt_or_ge j hp with hj | hj
  · simp [Nat.testBit_and, Nat.testBit_xor, Nat.testBit_two_pow_sub_one, hj,
      Bool.xor_assoc]
  · simp [Nat.testBit_and, Nat.testBit_xor, Nat.testBit_two_pow_sub_one,
      Nat.not_lt.2 hj, testBit_eq_false_of_lt_pow h hj]

/-- Witness for C3 at a concrete input. -/
theorem alt_index_involution_witness :
    (37 : Nat) < 2 ^ 6 ∧ alt_index 6 211 (alt_index 6 211 37) = 37 :=
  ⟨by decide, alt_index_involution 6 211 37 (by decide)⟩

/-! ### C4: `partial_key` is the XOR-fold of the hash bytes and depends only
on the hash -/

theorem testBit_mod_pow {x n j : Nat} :
    (x % 2 ^ n).testBit j = (decide (j < n) && x.testBit j) := by
  rcases Nat.lt_or_ge j n with h | h
  · simp [Nat.testBit_mod_two_pow, h]
  · simp [Nat.testBit_mod_two_pow, Nat.not_lt.2 h]

/-- C4.  `partial_key` equals the XOR of the eight bytes of the hash
truncated to 64 bits; in particular it is a function of the hash alone (it
takes no hashpower and no table argument, and upper bits beyond 64 do not
influence it). -/
theorem ptag_key_eq_xorBytes (h : Nat) : ptag_key h = xorBytes (h % w64) 8 := by
  unfold ptag_key
  apply Nat.eq_of_testBit_eq
  intro j
  generalize h % w64 = x
  rcases Nat.lt_or_ge j 8 with hj | hj
  · have c1 : j < 8 := hj
    have c2 : j < 16 := by omega
    have c3 : 8 + j < 16 := by omega
    have c4 : j < 32 := by omega
    have c5 : 8 + j < 32 := by omega
    have c6 : 16 + j < 32 := by omega
    have c7 : 24 + j < 32 := by omega
    simp only [xorBytes, Nat.testBit_xor, testBit_mod_pow, Nat.testBit_shiftRight,
      Nat.zero_testBit, ← Nat.add_assoc, Nat.reduceAdd, c1, c2, c3, c4, c5, c6, c7,
      decide_eq_true_eq, decide_True, Bool.true_and, Bool.xor_false]
    generalize x.testBit j = b0
    generalize x.testBit (8 + j) = b1
    generalize x.testBit (16 + j) = b2
    generalize x.testBit (24 + j) = b3
    generalize x.testBit (32 + j) = b4
    generalize x.testBit (40 + j) = b5
    generalize x.testBit (48 + j) = b6
    generalize x.testBit (56 + j) = b7
    revert b0 b1 b2 b3 b4 b5 b6 b7
    decide
  · have hj8 : ¬ (j < 8) := Nat.not_lt.2 hj
    simp only [xorBytes, Nat.testBit_xor, testBit_mod_pow, Nat.testBit_shiftRight,
      Nat.zero_testBit, hj8, decide_False, Bool.false_and, Bool.xor_false,
      Bool.false_xor]

/-! ## Data model

A bucket is a fixed array of `SLOT_PER_BUCKET` slots; per slot the source
keeps an occupancy bit, a one-byte tag and raw storage for the pair.  We model
a slot as `Option Slot` (`none` = unoccupied).  A stripe (`seqlock`) is
modelled by its `migrated` flag and element counter; the epoch and lock bits
only matter under concurrency and are elided in this single-threaded
embedding (seqlock.hpp is not under `src/`; the counter/migrated content is
modelled from the spec, §3 "Stripe (seqlock word)"). -/

/-- One occupied slot: the stored tag byte, key and mapped value. -/
structure Slot where
  ptag : Nat
  key : Nat
  val : Nat
deriving DecidableEq

/-- A bucket: list of `SLOT_PER_BUCKET` optional slots. -/
abbrev Bucket := List (Option Slot)

/-- A stripe: `migrated` flag and (signed) element counter. -/
structure Lock where
  migrated : Bool
  counter : Int
deriving DecidableEq

/-- The table state: hashpower, buckets, stripes and the two policy fields
the claims mention.  `buckets_.hashpower()` is stored as `hp`. -/
structure Table where
  hp : Nat
  buckets : List Bucket
  locks : List Lock
  minLoadFactor : ℚ
  maxHashpower : Option Nat
deriving DecidableEq

/-- Static configuration of one template instantiation: the user hash
function, the `is_simple()` compile-time flag, and `SLOT_PER_BUCKET`. -/
structure Cfg where
  hashFn : Nat → Nat
  isSimple : Bool
  S : Nat

/-- `hash_value` of the source: hash plus partial tag. -/
structure HashValue where
  hash : Nat
  ptag : Nat
deriving DecidableEq

/-- `hashed_key`: hash the key (truncated to `size_t`) and derive the tag. -/
def hashed_key (cfg : Cfg) (k : Nat) : HashValue :=
  let h := cfg.hashFn k % w64
  ⟨h, ptag_key h⟩

/-- `hashed_key_only_hash`. -/
def hashed_key_only_hash (cfg : Cfg) (k : Nat) : Nat := cfg.hashFn k % w64

/-! ## State primitives

Out-of-range accesses are UB in the C++ and are modelled as `none`;
`setKV` requires the target slot to be unoccupied and `eraseKV` requires it
to be occupied.  Modelled from the spec: `cuckoo_bucket_container::setKV` /
`eraseKV` (the container header is not under `src/`; `bucket_container.hpp`
shows `eraseKV` asserts occupancy, and §3 of the spec states pairs are
constructed in place into unoccupied storage). -/

def getB (t : Table) (i : Nat) : Option Bucket := t.buckets[i]?

def getSlot (b : Bucket) (s : Nat) : Option (Option Slot) := b[s]?

def setBucket (t : Table) (i : Nat) (b : Bucket) : Option Table :=
  if i < t.buckets.length then some { t with buckets := t.buckets.set i b } else none

/-- Construct the pair `(k, v)` with tag `p` at slot `s` of bucket `i`. -/
def setKV (t : Table) (i s p k v : Nat) : Option Table :=
  match getB t i with
  | none => none
  | some b =>
    match getSlot b s with
    | some none => setBucket t i (b.set s (some ⟨p, k, v⟩))
    | _ => none

/-- Destroy the pair at slot `s` of bucket `i` and clear its occupancy. -/
def eraseKV (t : Table) (i s : Nat) : Option Table :=
  match getB t i with
  | none => none
  | some b =>
    match getSlot b s with
    | some (some _) => setBucket t i (b.set s none)
    | _ => none

/-- Assign a new mapped value through the reference handed to a user functor
(`fn(pos.bucket_->mapped(pos.slot))`). -/
def setMapped (t : Table) (i s v : Nat) : Option Table :=
  match getB t i with
  | none => none
  | some b =>
    match getSlot b s with
    | some (some sl) => setBucket t i (b.set s (some { sl with val := v }))
    | _ => none

/-- Read the mapped value at an occupied slot. -/
def readVal (t : Table) (i s : Nat) : Option Nat :=
  match getB t i with
  | none => none
  | some b =>
    match getSlot b s with
    | some (some sl) => some sl.val
    | _ => none

def getLock (t : Table) (l : Nat) : Option Lock := t.locks[l]?

/-- `++lock.elem_counter()` / `--lock.elem_counter()`. -/
def bumpCounter (t : Table) (l : Nat) (d : Int) : Option Table :=
  match getLock t l with
  | none => none
  | some lk => some { t with locks := t.locks.set l { lk with counter := lk.counter + d } }

/-- `lock.set_migrated(m)`. -/
def setMigrated (t : Table) (l : Nat) (m : Bool) : Option Table :=
  match getLock t l with
  | none => none
  | some lk => some { t with locks := t.locks.set l { lk with migrated := m } }

/-! ## Sizes and counters -/

/-- Number of occupied slots of one bucket. -/
def bucketOcc (b : Bucket) : Nat := (b.filterMap id).length

/-- Number of occupied slots of the table. -/
def occupiedCount (t : Table) : Nat := (t.buckets.map bucketOcc).sum

/-- `size()`: the sum of all stripe element counters... -/
def sumCounters (t : Table) : Int := t.locks.foldl (fun a lk => a + lk.counter) 0

/-- ...cast back to `size_type` (the source asserts the sum is nonnegative). -/
def size (t : Table) : Nat := (sumCounters t).toNat

/-- `capacity() = bucket_count() * slot_per_bucket()`. -/
def capacity (cfg : Cfg) (t : Table) : Nat := t.buckets.length * cfg.S

/-- `load_factor() = size() / capacity()` (the double division is modelled
exactly, as a rational). -/
def load_factor (cfg : Cfg) (t : Table) : ℚ :=
  (size t : ℚ) / (capacity cfg t : ℚ)

/-- The multiset of live slots (tag, key, value) of the table, used to state
preservation of membership. -/
def pairsList (t : Table) : List Slot := (t.buckets.map (fun b => b.filterMap id)).flatten

/-! ## Bucket scans (`try_read_from_bucket`, `try_find_insert_bucket`,
`cuckoo_find`) -/

/-- The slot-hit test of both scans: occupied, tag filter passes
(`is_simple() || partial == b.partial(i)`), and the keys are equal. -/
def slotMatches (cfg : Cfg) (p k : Nat) (s : Option Slot) : Bool :=
  match s with
  | none => false
  | some sl => (cfg.isSimple || p == sl.ptag) && sl.key == k

/-- The loop of `try_read_from_bucket`, iterating over the slots in order
(the source loops `i` from `0` to `slot_per_bucket() - 1`; we recurse over
the bucket's slot list, which has that length for well-formed buckets). -/
def try_read_go (cfg : Cfg) (p k : Nat) : List (Option Slot) → Nat → Option Nat
  | [], _ => none
  | s :: rest, i =>
    if slotMatches cfg p k s then some i else try_read_go cfg p k rest (i + 1)

/-- `try_read_from_bucket`: index of the slot holding the key, or `none`
(the source's `-1`). -/
def try_read_from_bucket (cfg : Cfg) (b : Bucket) (p k : Nat) : Option Nat :=
  try_read_go cfg p k b 0

/-- Result of `try_find_insert_bucket`: `dup i` is the source's
`return false` with `slot = i`; `nodup s` is `return true` with `slot` the
last empty slot seen (`none` = `-1`). -/
inductive ScanRes where
  | dup (slot : Nat)
  | nodup (slot : Option Nat)
deriving DecidableEq

/-- The loop of `try_find_insert_bucket`: `acc` is the running `slot`
variable, overwritten by every unoccupied slot encountered. -/
def tfib_go (cfg : Cfg) (p k : Nat) : List (Option Slot) → Nat → Option Nat → ScanRes
  | [], _, acc => .nodup acc
  | s :: rest, i, acc =>
    match s with
    | some sl =>
      if !cfg.isSimple && p != sl.ptag then tfib_go cfg p k rest (i + 1) acc
      else if sl.key == k then .dup i
      else tfib_go cfg p k rest (i + 1) acc
    | none => tfib_go cfg p k rest (i + 1) (some i)

/-- `try_find_insert_bucket`. -/
def try_find_insert_bucket (cfg : Cfg) (b : Bucket) (p k : Nat) : ScanRes :=
  tfib_go cfg p k b 0 none

/-- `cuckoo_find`: scan bucket `i1` then bucket `i2`.  Outer `none` is an
out-of-range bucket access; the inner option is the found position. -/
def cuckoo_find (cfg : Cfg) (t : Table) (k p i1 i2 : Nat) :
    Option (Option (Nat × Nat)) :=
  match getB t i1 with
  | none => none
  | some b1 =>
    match try_read_from_bucket cfg b1 p k with
    | some s => some (some (i1, s))
    | none =>
      match getB t i2 with
      | none => none
      | some b2 =>
        match try_read_from_bucket cfg b2 p k with
        | some s => some (some (i2, s))
        | none => some none

/-- The largest index of an unoccupied slot of a bucket (later slots
preferred): the position `try_find_insert_bucket`'s running `slot` variable
ends at when no duplicate is found. -/
def lastEmptyIdx : Bucket → Option Nat
  | [] => none
  | s :: rest =>
    match lastEmptyIdx rest with
    | some j => some (j + 1)
    | none => if s = none then some 0 else none

/-! ### Scan lemmas -/

theorem try_read_go_eq_none {cfg : Cfg} {p k : Nat} {l : List (Option Slot)} {i : Nat} :
    try_read_go cfg p k l i = none ↔ ∀ s ∈ l, slotMatches cfg p k s = false := by
  induction l generalizing i with
  | nil => simp [try_read_go]
  | cons s rest ih =>
    by_cases h : slotMatches cfg p k s = true
    · simp [try_read_go, h]
    · simp only [Bool.not_eq_true] at h
      simp [try_read_go, h, ih]

theorem try_read_go_first {cfg : Cfg} {p k : Nat} {l : List (Option Slot)} {j : Nat}
    {s : Option Slot} (hget : l[j]? = some s) (hm : slotMatches cfg p k s = true)
    (hfirst : ∀ j' < j, ∀ s', l[j']? = some s' → slotMatches cfg p k s' = false) :
    ∀ i, try_read_go cfg p k l i = some (i + j) := by
  induction l generalizing j with
  | nil => simp at hget
  | cons a rest ih =>
    intro i
    cases j with
    | zero =>
      simp only [List.getElem?_cons_zero, Option.some_inj] at hget
      subst hget
      simp [try_read_go, hm]
    | succ j' =>
      have ha : slotMatches cfg p k a = false := by
        exact hfirst 0 (Nat.succ_pos _) a (by simp)
      simp only [List.getElem?_cons_succ] at hget
      have := ih hget (fun j'' hj'' s' hs' =>
        hfirst (j'' + 1) (by omega) s' (by simpa using hs')) (i + 1)
      simp only [try_read_go, ha]
      rw [if_neg (by simp [ha])]
      rw [this]
      congr 1
      omega

/-- If the tag filter lets a slot through, the skip condition of
`try_find_insert_bucket` is false. -/
theorem tag_cond_false {cfg : Cfg} {p q : Nat} (h : (cfg.isSimple || p == q) = true) :
    (!cfg.isSimple && (p != q)) = false := by
  cases hs : cfg.isSimple <;> simp_all [bne]

theorem tfib_go_nodup_noMatch {cfg : Cfg} {p k : Nat} {l : List (Option Slot)} :
    ∀ {i : Nat} {acc r : Option Nat}, tfib_go cfg p k l i acc = .nodup r →
    ∀ s ∈ l, slotMatches cfg p k s = false := by
  induction l with
  | nil => intro i acc r _ s hs; simp at hs
  | cons a rest ih =>
    intro i acc r h s hs
    cases a with
    | none =>
      simp only [tfib_go] at h
      rcases List.mem_cons.1 hs with rfl | hs
      · rfl
      · exact ih h s hs
    | some sl =>
      simp only [tfib_go] at h
      by_cases htag : (!cfg.isSimple && (p != sl.ptag)) = true
      · rw [if_pos htag] at h
        rcases List.mem_cons.1 hs with rfl | hs
        · obtain ⟨h1, h2⟩ := Bool.and_eq_true_iff.1 htag
          simp only [slotMatches]
          rw [Bool.not_eq_true'] at h1
          rw [h1]
          rw [bne_iff_ne] at h2
          rw [beq_false_of_ne h2]
          rfl
        · exact ih h s hs
      · rw [if_neg htag] at h
        by_cases hkey : (sl.key == k) = true
        · rw [if_pos hkey] at h
          simp at h
        · rw [if_neg hkey] at h
          rcases List.mem_cons.1 hs with rfl | hs
          · simp only [slotMatches]
            rw [Bool.not_eq_true] at hkey
            rw [hkey, Bool.and_false]
          · exact ih h s hs

/-- On a bucket with no hit for the key, `try_find_insert_bucket`'s loop
returns `nodup` with the running slot set to the last unoccupied index. -/
theorem tfib_go_noMatch {cfg : Cfg} {p k : Nat} {l : List (Option Slot)}
    (h : ∀ s ∈ l, slotMatches cfg p k s = false) :
    ∀ i acc, tfib_go cfg p k l i acc =
      .nodup (match lastEmptyIdx l with
              | some j => some (i + j)
              | none => acc) := by
  induction l with
  | nil => intro i acc; rfl
  | cons a rest ih =>
    intro i acc
    have hrest : ∀ s ∈ rest, slotMatches cfg p k s = false :=
      fun s hs => h s (List.mem_cons_of_mem _ hs)
    cases a with
    | none =>
      simp only [tfib_go]
      rw [ih hrest (i + 1) (some i)]
      simp only [lastEmptyIdx]
      cases hle : lastEmptyIdx rest with
      | none => simp
      | some j =>
        simp only []
        have e : i + 1 + j = i + (j + 1) := by omega
        rw [e]
    | some sl =>
      have ha : slotMatches cfg p k (some sl) = false := h _ (List.mem_cons_self _ _)
      simp only [slotMatches] at ha
      have step : tfib_go cfg p k (some sl :: rest) i acc = tfib_go cfg p k rest (i + 1) acc := by
        simp only [tfib_go]
        by_cases htag : (!cfg.isSimple && (p != sl.ptag)) = true
        · rw [if_pos htag]
        · rw [if_neg htag]
          have hkey : (sl.key == k) = false := by
            rcases Bool.and_eq_false_iff.1 ha with h1 | h1
            · exfalso
              apply htag
              rw [Bool.and_eq_true_iff]
              rcases Bool.or_eq_false_iff.1 h1 with ⟨h2, h3⟩
              constructor
              · rw [Bool.not_eq_true']; exact h2
              · rw [bne_iff_ne]; exact ne_of_beq_false h3
            · exact h1
          rw [if_neg (by simp [hkey])]
      rw [step, ih hrest (i + 1) acc]
      simp only [lastEmptyIdx]
      cases hle : lastEmptyIdx rest with
      | none => simp
      | some j =>
        simp only []
        have e : i + 1 + j = i + (j + 1) := by omega
        rw [e]

/-- If slot `j` is the first hit for the key, `try_find_insert_bucket`'s
loop reports a duplicate there. -/
theorem tfib_go_first_dup {cfg : Cfg} {p k : Nat} {l : List (Option Slot)} :
    ∀ {j : Nat} {s : Option Slot}, l[j]? = some s → slotMatches cfg p k s = true →
    (∀ j' < j, ∀ s', l[j']? = some s' → slotMatches cfg p k s' = false) →
    ∀ i acc, tfib_go cfg p k l i acc = .dup (i + j) := by
  induction l with
  | nil => intro j s hget; simp at hget
  | cons a rest ih =>
    intro j s hget hm hfirst i acc
    cases j with
    | zero =>
      simp only [List.getElem?_cons_zero, Option.some_inj] at hget
      subst hget
      cases a with
      | none => simp [slotMatches] at hm
      | some sl =>
        simp only [slotMatches, Bool.and_eq_true_iff] at hm
        obtain ⟨h1, h2⟩ := hm
        simp only [tfib_go]
        rw [if_neg (by rw [tag_cond_false h1]; simp)]
        rw [if_pos h2, Nat.add_zero]
    | succ j' =>
      have ha : slotMatches cfg p k a = false := hfirst 0 (Nat.succ_pos _) a (by simp)
      simp only [List.getElem?_cons_succ] at hget
      have tail := ih hget hm
        (fun j'' hj'' s' hs' => hfirst (j'' + 1) (by omega) s' (by simpa using hs'))
      have harr : i + (j' + 1) = (i + 1) + j' := by omega
      cases a with
      | none =>
        simp only [tfib_go]
        rw [tail (i + 1) (some i), harr]
      | some sl =>
        simp only [tfib_go]
        by_cases htag : (!cfg.isSimple && (p != sl.ptag)) = true
        · rw [if_pos htag, tail (i + 1) acc, harr]
        · rw [if_neg htag]
          have hkey : (sl.key == k) = false := by
            simp only [slotMatches] at ha
            rcases Bool.and_eq_false_iff.1 ha with h1 | h1
            · exfalso
              apply htag
              rw [Bool.and_eq_true_iff]
              rcases Bool.or_eq_false_iff.1 h1 with ⟨h2, h3⟩
              exact ⟨by rw [Bool.not_eq_true']; exact h2, by rw [bne_iff_ne]; exact ne_of_beq_false h3⟩
            · exact h1
          rw [if_neg (by simp [hkey]), tail (i + 1) acc, harr]

/-- The last-empty index really is an unoccupied slot. -/
theorem lastEmptyIdx_get {b : Bucket} :
    ∀ {j : Nat}, lastEmptyIdx b = some j → b[j]? = some none := by
  induction b with
  | nil => intro j h; simp [lastEmptyIdx] at h
  | cons a rest ih =>
    intro j h
    simp only [lastEmptyIdx] at h
    cases hle : lastEmptyIdx rest with
    | some j' =>
      rw [hle] at h
      simp only [Option.some_inj] at h
      subst h
      simp only [List.getElem?_cons_succ]
      exact ih hle
    | none =>
      rw [hle] at h
      by_cases ha : a = none
      · rw [if_pos ha] at h
        simp only [Option.some_inj] at h
        subst h
        simp [ha]
      · rw [if_neg ha] at h
        cases h

/-! ## Errors

C++ exceptions are modelled as errors carrying the table state at the throw
point.  `assertFail` additionally covers failed source `assert`s and
out-of-range accesses (UB in C++). -/

inductive Err where
  | loadFactorTooLow
  | maxHashpowerExceeded
  | keyNotFound
  | invalidArgument
  | hashpowerChanged
  | outOfFuel
  | assertFail
deriving DecidableEq

/-- Result of a fallible table computation. -/
abbrev TRes (α : Type) := Except (Err × Table) (α × Table)

/-! ## Migration (`need_to_move_elem`, `move_bucket`, `migrate_lock`,
`lock_and_rehash`) -/

/-- `need_to_move_elem`. -/
def need_to_move_elem (hv : HashValue) (old_hp new_hp old_ind new_ind : Nat) : Bool :=
  let old_ihash := index_hash old_hp hv.hash
  let old_ahash := alt_index old_hp hv.ptag old_ihash
  let new_ihash := index_hash new_hp hv.hash
  let new_ahash := alt_index new_hp hv.ptag new_ihash
  (old_ind == old_ihash && new_ihash == new_ind) ||
  (old_ind == old_ahash && new_ahash == new_ind)

/-- The slot loop of `move_bucket`: for each occupied slot of bucket
`old_ind` that `need_to_move_elem` classifies as moving, construct the pair
at the next free position (`new_bucket_slot`) of bucket
`old_ind + hashsize old_hp`, destroy the old slot, and (in the
`cuckoo_fast_double` call site, `adjust = true`) transfer one element count
from the old bucket's stripe to the new bucket's stripe; the `migrate_lock`
call site (`adjust = false`) leaves counters alone.  `rem` counts the
remaining iterations of `old_bucket_slot < slot_per_bucket()`. -/
def move_bucket_go (cfg : Cfg) (adjust : Bool) (old_hp old_ind : Nat) :
    Nat → Nat → Nat → Table → Option Table
  | 0, _, _, t => some t
  | rem + 1, s, nslot, t =>
    match getB t old_ind with
    | none => none
    | some b =>
      match getSlot b s with
      | none => none
      | some none => move_bucket_go cfg adjust old_hp old_ind rem (s + 1) nslot t
      | some (some sl) =>
        if need_to_move_elem (hashed_key cfg sl.key) old_hp (old_hp + 1)
            old_ind (old_ind + hashsize old_hp) then
          match setKV t (old_ind + hashsize old_hp) nslot sl.ptag sl.key sl.val with
          | none => none
          | some t1 =>
            match eraseKV t1 old_ind s with
            | none => none
            | some t2 =>
              if adjust then
                match bumpCounter t2 old_ind (-1) with
                | none => none
                | some t3 =>
                  match bumpCounter t3 (old_ind + hashsize old_hp) 1 with
                  | none => none
                  | some t4 => move_bucket_go cfg adjust old_hp old_ind rem (s + 1) (nslot + 1) t4
              else move_bucket_go cfg adjust old_hp old_ind rem (s + 1) (nslot + 1) t2
        else move_bucket_go cfg adjust old_hp old_ind rem (s + 1) nslot t

/-- `move_bucket(old_hp, old_bucket_ind, ...)`. -/
def move_bucket (cfg : Cfg) (adjust : Bool) (old_hp old_ind : Nat) (t : Table) : Option Table :=
  move_bucket_go cfg adjust old_hp old_ind cfg.S 0 0 t

/-- The bucket loop of `migrate_lock`: `bucket_ind` steps through
`l, l + kMaxNumLocks, ...` below `buckets_.size() >> 1`. -/
def migrate_go (cfg : Cfg) (old_hp half : Nat) (ind : Nat) (t : Table) : Option Table :=
  if ind < half then
    match move_bucket cfg false old_hp ind t with
    | none => none
    | some t' => migrate_go cfg old_hp half (ind + kMaxNumLocks) t'
  else some t
termination_by half - ind
decreasing_by simp only [kMaxNumLocks, kMaxNumLocksPow]; omega

/-- `migrate_lock(l)`: rehash, under the new hashpower, every old-half
bucket covered by stripe `l` (the source asserts the lock array is at full
size here). -/
def migrate_lock (cfg : Cfg) (t : Table) (l : Nat) : Option Table :=
  if t.locks.length = kMaxNumLocks then
    migrate_go cfg (t.hp - 1) (t.buckets.length >>> 1) l t
  else none

/-- `lock_and_rehash(l)`: take the stripe (a no-op in this single-threaded
model) and migrate it if its `migrated` flag is clear. -/
def lock_and_rehash (cfg : Cfg) (t : Table) (l : Nat) : Option Table :=
  match getLock t l with
  | none => none
  | some lk =>
    if lk.migrated then some t
    else
      match migrate_lock cfg t l with
      | none => none
      | some t' => setMigrated t' l true

/-! ## Lock managers (`lock_one`, `lock_two`, `lock_three`,
`snapshot_and_lock_two`) -/

/-- `lock_one(hp, i)` (normal mode): lock-and-rehash the stripe of `i`, then
`check_hashpower`. -/
def lock_one (cfg : Cfg) (hp i : Nat) (t : Table) : Except (Err × Table) Table :=
  match lock_and_rehash cfg t (lock_ind i) with
  | none => .error (.assertFail, t)
  | some t' =>
    if t'.hp = hp then .ok t' else .error (.hashpowerChanged, t')

/-- The `TwoBuckets` lock manager: the two bucket indices plus the stripe
index of its `lock1` member (the stripe whose element counter
`add_to_bucket` / `del_from_bucket` adjust). -/
structure TwoBuckets where
  i1 : Nat
  i2 : Nat
  lock1 : Nat
deriving DecidableEq

/-- `lock_two(hp, i1, i2)`: acquire the two stripes in ascending stripe
order (one acquisition if they coincide); `lock1` is the lower stripe. -/
def lock_two (cfg : Cfg) (hp i1 i2 : Nat) (t : Table) :
    Except (Err × Table) (TwoBuckets × Table) :=
  let lo := min (lock_ind i1) (lock_ind i2)
  let hi := max (lock_ind i1) (lock_ind i2)
  match lock_and_rehash cfg t lo with
  | none => .error (.assertFail, t)
  | some t1 =>
    if t1.hp = hp then
      if lo ≠ hi then
        match lock_and_rehash cfg t1 hi with
        | none => .error (.assertFail, t1)
        | some t2 => .ok (⟨i1, i2, lo⟩, t2)
      else .ok (⟨i1, i2, lo⟩, t1)
    else .error (.hashpowerChanged, t1)

/-- `lock_three(hp, {i1, i2, i3})`: acquire the three stripes in ascending
order, skipping duplicates; the returned `TwoBuckets` has `lock1` pointing
at `i1`'s stripe (the sort of the source is stable, so the first of equal
stripe indices keeps the live lock pointer). -/
def lock_three (cfg : Cfg) (hp i1 i2 i3 : Nat) (t : Table) :
    Except (Err × Table) (TwoBuckets × Table) :=
  let l1 := lock_ind i1
  let l2 := lock_ind i2
  let l3 := lock_ind i3
  let s0 := min l1 (min l2 l3)
  let s2 := max l1 (max l2 l3)
  let s1 := l1 + l2 + l3 - s0 - s2
  match lock_and_rehash cfg t s0 with
  | none => .error (.assertFail, t)
  | some t1 =>
    if t1.hp = hp then
      match (if s1 ≠ s0 then lock_and_rehash cfg t1 s1 else some t1) with
      | none => .error (.assertFail, t1)
      | some t2 =>
        match (if s2 ≠ s1 then lock_and_rehash cfg t2 s2 else some t2) with
        | none => .error (.assertFail, t2)
        | some t3 => .ok (⟨i1, i2, l1⟩, t3)
    else .error (.hashpowerChanged, t1)

/-- `snapshot_and_lock_two`: read the hashpower, compute both candidate
buckets, lock them; retry from scratch on `hashpower_changed`. -/
def snapshot_and_lock_two (cfg : Cfg) :
    Nat → HashValue → Table → Except (Err × Table) (TwoBuckets × Table)
  | 0, _, t => .error (.outOfFuel, t)
  | fuel + 1, hv, t =>
    let hp := t.hp
    let i1 := index_hash hp hv.hash
    let i2 := alt_index hp hv.ptag i1
    match lock_two cfg hp i1 i2 t with
    | .ok r => .ok r
    | .error (.hashpowerChanged, t') => snapshot_and_lock_two cfg fuel hv t'
    | .error e => .error e

/-! ## Optimistic read (`read_and_rehash`, `read_value`) -/

/-- `read_and_rehash(l)`: between operations of a single thread the lock bit
is clear, so the only retry cause kept is a pending migration, which is
performed under the (elided) write lock; `false` = caller must retry
(the source returns `nullptr`). -/
def read_and_rehash (cfg : Cfg) (t : Table) (l : Nat) : Option (Bool × Table) :=
  match getLock t l with
  | none => none
  | some lk =>
    if lk.migrated then some (true, t)
    else
      match migrate_lock cfg t l with
      | none => none
      | some t' =>
        match setMigrated t' l true with
        | none => none
        | some t'' => some (false, t'')

/-- The read-and-validate body of `read_value` once both epochs are
snapshotted: scan the two buckets, copy the value; the epoch re-validation
of the source always succeeds with no concurrent writer and is elided. -/
def read_value_body (cfg : Cfg) (k : Nat) (hv : HashValue) (i1 i2 : Nat)
    (t : Table) : TRes (Option Nat) :=
  match cuckoo_find cfg t k hv.ptag i1 i2 with
  | none => .error (.assertFail, t)
  | some none => .ok (none, t)
  | some (some (bi, s)) =>
    match readVal t bi s with
    | none => .error (.assertFail, t)
    | some v => .ok (some v, t)

/-- The retry loop of `read_value`. -/
def read_value_go (cfg : Cfg) (k : Nat) (hv : HashValue) :
    Nat → Table → TRes (Option Nat)
  | 0, t => .error (.outOfFuel, t)
  | fuel + 1, t =>
    let hp := t.hp
    let i1 := index_hash hp hv.hash
    let i2 := alt_index hp hv.ptag i1
    let l1 := lock_ind i1
    let l2 := lock_ind i2
    match read_and_rehash cfg t l1 with
    | none => .error (.assertFail, t)
    | some (false, t') => read_value_go cfg k hv fuel t'
    | some (true, t') =>
      if t'.hp ≠ hp then read_value_go cfg k hv fuel t'
      else if l1 ≠ l2 then
        match read_and_rehash cfg t' l2 with
        | none => .error (.assertFail, t')
        | some (false, t'') => read_value_go cfg k hv fuel t''
        | some (true, t'') => read_value_body cfg k hv i1 i2 t''
      else read_value_body cfg k hv i1 i2 t'

/-- `read_value(key)`. -/
def read_value (cfg : Cfg) (fuel k : Nat) (t : Table) : TRes (Option Nat) :=
  read_value_go cfg k (hashed_key cfg k) fuel t

/-! ## BFS cuckoo-path search (`b_slot`, `b_queue`, `slot_search`) -/

/-- `b_slot`: last bucket of a BFS path, compressed slot sequence
(`pathcode`, a `uint16_t`), and depth.  Failure (`depth = -1`) is an
`Option.none` at the use site. -/
structure BSlot where
  bucket : Nat
  pathcode : Nat
  depth : Nat
deriving DecidableEq

/-- Truncation of a pathcode computation to `uint16_t`. -/
def mkPathcode (p : Nat) : Nat := p % 2 ^ 16

/-- `MAX_CUCKOO_COUNT`: the static BFS queue capacity
`2 * (S^L - 1)/(S - 1)` (geometric sum; `2 * L` when `S = 1`). -/
def maxCuckooCount (cfg : Cfg) : Nat :=
  2 * (if cfg.S == 1 then MAX_BFS_PATH_LEN
       else (cfg.S ^ MAX_BFS_PATH_LEN - 1) / (cfg.S - 1))

/-- `b_queue`: since `first_`/`last_` only grow and slots are never
overwritten, the storage array is the list of all entries ever enqueued and
`last_` is its length.  `assertOk` records that the `assert(!full())`
guarding every enqueue held (in the source the array write would otherwise
be out of bounds). -/
structure BQueue where
  slots : List BSlot
  first : Nat
  assertOk : Bool
deriving DecidableEq

def bq_empty : BQueue := ⟨[], 0, true⟩

/-- `enqueue`: append, recording whether the queue was full. -/
def enqueue (cfg : Cfg) (q : BQueue) (x : BSlot) : BQueue :=
  { slots := q.slots ++ [x], first := q.first,
    assertOk := q.assertOk && decide (q.slots.length < maxCuckooCount cfg) }

/-- `dequeue` (asserts non-emptiness). -/
def dequeue (q : BQueue) : Option (BSlot × BQueue) :=
  match q.slots[q.first]? with
  | none => none
  | some x => some (x, { q with first := q.first + 1 })

def bq_isEmpty (q : BQueue) : Bool := q.first == q.slots.length

/-- The inner slot loop of `slot_search`: try the `slot_per_bucket()` slots
of the dequeued bucket starting at `pathcode % slot_per_bucket()`; an empty
slot terminates the search, an occupied one spawns a child `b_slot` when the
depth bound allows.  `rem` counts remaining iterations. -/
def slot_search_slots (cfg : Cfg) (hp : Nat) (x : BSlot) (b : Bucket) :
    Nat → BQueue → Option (Option BSlot × BQueue)
  | 0, q => some (none, q)
  | rem + 1, q =>
    let i := cfg.S - (rem + 1)
    let slot := (x.pathcode % cfg.S + i) % cfg.S
    match getSlot b slot with
    | none => none
    | some none =>
      some (some { x with pathcode := mkPathcode (x.pathcode * cfg.S + slot) }, q)
    | some (some sl) =>
      if x.depth < MAX_BFS_PATH_LEN - 1 then
        slot_search_slots cfg hp x b rem
          (enqueue cfg q ⟨alt_index hp sl.ptag x.bucket,
                          mkPathcode (x.pathcode * cfg.S + slot), x.depth + 1⟩)
      else slot_search_slots cfg hp x b rem q

/-- Result of `slot_search`: the Except part mirrors the function's value
and exceptions; the final queue is carried alongside so that the queue-bound
property can be stated. -/
structure SSOut where
  res : Except (Err × Table) (Option BSlot × Table)
  q : BQueue

/-- The BFS loop of `slot_search`. -/
def slot_search_go (cfg : Cfg) (hp : Nat) :
    Nat → BQueue → Table → SSOut
  | 0, q, t => ⟨.error (.outOfFuel, t), q⟩
  | fuel + 1, q, t =>
    if bq_isEmpty q then ⟨.ok (none, t), q⟩
    else
      match dequeue q with
      | none => ⟨.error (.assertFail, t), q⟩
      | some (x, q1) =>
        match lock_one cfg hp x.bucket t with
        | .error e => ⟨.error e, q1⟩
        | .ok t1 =>
          match getB t1 x.bucket with
          | none => ⟨.error (.assertFail, t1), q1⟩
          | some b =>
            match slot_search_slots cfg hp x b cfg.S q1 with
            | none => ⟨.error (.assertFail, t1), q1⟩
            | some (some found, q2) => ⟨.ok (some found, t1), q2⟩
            | some (none, q2) => slot_search_go cfg hp fuel q2 t1

/-- `slot_search(hp, i1, i2)`: BFS from the two starting buckets. -/
def slot_search (cfg : Cfg) (hp i1 i2 fuel : Nat) (t : Table) : SSOut :=
  slot_search_go cfg hp fuel
    (enqueue cfg (enqueue cfg bq_empty ⟨i1, 0, 0⟩) ⟨i2, 1, 0⟩) t

/-! ## Cuckoo path decode and replay (`cuckoopath_search`,
`cuckoopath_move`, `run_cuckoo`) -/

/-- `CuckooRecord`. -/
structure PathRec where
  bucket : Nat
  slot : Nat
  hv : HashValue
deriving DecidableEq

/-- Decoding the slots of a pathcode, most significant digit first:
`decodeSlots S code (d+1)` is the list `cuckoo_path[0..d].slot` together
with the residual code (which identifies the starting bucket). -/
def decodeSlots (S : Nat) : Nat → Nat → List Nat × Nat
  | code, 0 => ([], code)
  | code, n + 1 =>
    let r := decodeSlots S (code / S) n
    (r.1 ++ [code % S], r.2)

/-- The `i = 1..depth` loop of `cuckoopath_search`: walk the decoded slots,
computing each bucket as the alternate of its predecessor and recording the
occupant's hash, terminating early at an empty slot.  The candidacy
`assert` on the previous record is modelled as a check. -/
def cps_rest (cfg : Cfg) (hp : Nat) :
    List Nat → List PathRec → PathRec → Nat → Table →
    Except (Err × Table) ((Nat × List PathRec) × Table)
  | [], acc, _, i, t => .ok ((i - 1, acc), t)
  | s :: rest, acc, prev, i, t =>
    if prev.bucket = index_hash hp prev.hv.hash ∨
       prev.bucket = alt_index hp prev.hv.ptag (index_hash hp prev.hv.hash) then
      let curB := alt_index hp prev.hv.ptag prev.bucket
      match lock_one cfg hp curB t with
      | .error e => .error e
      | .ok t1 =>
        match getB t1 curB with
        | none => .error (.assertFail, t1)
        | some b =>
          match getSlot b s with
          | none => .error (.assertFail, t1)
          | some none => .ok ((i, acc ++ [⟨curB, s, ⟨0, 0⟩⟩]), t1)
          | some (some sl) =>
            cps_rest cfg hp rest (acc ++ [⟨curB, s, hashed_key cfg sl.key⟩])
              ⟨curB, s, hashed_key cfg sl.key⟩ (i + 1) t1
    else .error (.assertFail, t)

/-- `cuckoopath_search`: run the BFS, decode the path, and fill in buckets
and occupant hashes; `none` is the source's `-1` (no path found). -/
def cuckoopath_search (cfg : Cfg) (hp i1 i2 fuel : Nat) (t : Table) :
    Except (Err × Table) (Option (Nat × List PathRec) × Table) :=
  match (slot_search cfg hp i1 i2 fuel t).res with
  | .error e => .error e
  | .ok (none, t1) => .ok (none, t1)
  | .ok (some x, t1) =>
    let dec := decodeSlots cfg.S x.pathcode (x.depth + 1)
    match dec.1 with
    | [] => .error (.assertFail, t1)
    | s0 :: srest =>
      if dec.2 = 0 ∨ dec.2 = 1 then
        let fb := if dec.2 = 0 then i1 else i2
        match lock_one cfg hp fb t1 with
        | .error e => .error e
        | .ok t2 =>
          match getB t2 fb with
          | none => .error (.assertFail, t2)
          | some b =>
            match getSlot b s0 with
            | none => .error (.assertFail, t2)
            | some none => .ok (some (0, [⟨fb, s0, ⟨0, 0⟩⟩]), t2)
            | some (some sl) =>
              match cps_rest cfg hp srest [⟨fb, s0, hashed_key cfg sl.key⟩]
                  ⟨fb, s0, hashed_key cfg sl.key⟩ 1 t1 with
              | .error e => .error e
              | .ok (r, t3) => .ok (some r, t3)
      else .error (.assertFail, t1)

/-- The `while (depth > 0)` loop of `cuckoopath_move`: at each step lock the
two buckets of the move (all three of `{b.i1, b.i2, to.bucket}` at the last
step), validate that the destination slot is still free, the source slot
still occupied and the occupant's hash unchanged, then move-construct the
pair at the destination and destroy the source. -/
def cuckoopath_move_go (cfg : Cfg) (hp : Nat) (path : List PathRec) :
    Nat → TwoBuckets → Table → Except (Err × Table) ((Bool × TwoBuckets) × Table)
  | 0, bb, t => .ok ((true, bb), t)
  | d + 1, bb, t =>
    match path[d]?, path[d + 1]? with
    | some fromR, some toR =>
      match (if d + 1 = 1 then lock_three cfg hp bb.i1 bb.i2 toR.bucket t
             else lock_two cfg hp fromR.bucket toR.bucket t) with
      | .error e => .error e
      | .ok (twob, t1) =>
        match getB t1 fromR.bucket, getB t1 toR.bucket with
        | some fb, some tb =>
          match getSlot fb fromR.slot, getSlot tb toR.slot with
          | some fslot, some tslot =>
            match tslot, fslot with
            | some _, _ => .ok ((false, bb), t1)
            | none, none => .ok ((false, bb), t1)
            | none, some sl =>
              if hashed_key_only_hash cfg sl.key ≠ fromR.hv.hash then
                .ok ((false, bb), t1)
              else
                match setKV t1 toR.bucket toR.slot sl.ptag sl.key sl.val with
                | none => .error (.assertFail, t1)
                | some t2 =>
                  match eraseKV t2 fromR.bucket fromR.slot with
                  | none => .error (.assertFail, t2)
                  | some t3 =>
                    cuckoopath_move_go cfg hp path d
                      (if d + 1 = 1 then twob else bb) t3
          | _, _ => .error (.assertFail, t1)
        | _, _ => .error (.assertFail, t1)
    | _, _ => .error (.assertFail, t)

/-- `cuckoopath_move`: the `depth == 0` fast case re-locks the two candidate
buckets and re-checks that the found slot is still empty; otherwise replay
from the far end. -/
def cuckoopath_move (cfg : Cfg) (hp : Nat) (path : List PathRec) (depth : Nat)
    (bb : TwoBuckets) (t : Table) : Except (Err × Table) ((Bool × TwoBuckets) × Table) :=
  if depth = 0 then
    match path[0]? with
    | none => .error (.assertFail, t)
    | some r0 =>
      if r0.bucket = bb.i1 ∨ r0.bucket = bb.i2 then
        match lock_two cfg hp bb.i1 bb.i2 t with
        | .error e => .error e
        | .ok (twob, t1) =>
          match getB t1 r0.bucket with
          | none => .error (.assertFail, t1)
          | some b =>
            match getSlot b r0.slot with
            | none => .error (.assertFail, t1)
            | some none => .ok ((true, twob), t1)
            | some (some _) => .ok ((false, twob), t1)
      else .error (.assertFail, t)
  else cuckoopath_move_go cfg hp path depth bb t

/-- Result of `run_cuckoo`. -/
inductive RCRes where
  | ok (ib is : Nat) (bb : TwoBuckets)
  | tableFull
  | underExpansion
deriving DecidableEq

/-- The search/replay loop of `run_cuckoo`. -/
def run_cuckoo_go (cfg : Cfg) (hp : Nat) (bb : TwoBuckets) :
    Nat → Table → Except (Err × Table) (Option (Nat × Nat × TwoBuckets) × Table)
  | 0, t => .error (.outOfFuel, t)
  | fuel + 1, t =>
    match cuckoopath_search cfg hp bb.i1 bb.i2 fuel t with
    | .error e => .error e
    | .ok (none, t1) => .ok (none, t1)
    | .ok (some (d, path), t1) =>
      match cuckoopath_move cfg hp path d bb t1 with
      | .error e => .error e
      | .ok ((true, bb'), t2) =>
        match path[0]? with
        | none => .error (.assertFail, t2)
        | some r0 =>
          if r0.bucket = bb'.i1 ∨ r0.bucket = bb'.i2 then
            .ok (some (r0.bucket, r0.slot, bb'), t2)
          else .error (.assertFail, t2)
      | .ok ((false, _), t2) => run_cuckoo_go cfg hp bb fuel t2

/-- `run_cuckoo`: release the candidate stripes (no-op here), loop
search+replay, and catch `hashpower_changed` as `failure_under_expansion`. -/
def run_cuckoo (cfg : Cfg) (fuel : Nat) (bb : TwoBuckets) (t : Table) :
    Except (Err × Table) (RCRes × Table) :=
  match run_cuckoo_go cfg t.hp bb fuel t with
  | .error (.hashpowerChanged, t') => .ok (.underExpansion, t')
  | .error e => .error e
  | .ok (none, t') => .ok (.tableFull, t')
  | .ok (some (ib, is, bb'), t') => .ok (.ok ib is bb', t')

/-! ## `cuckoo_insert` -/

/-- The status-and-position part of a `table_position`. -/
inductive InsRes where
  | ok (index slot : Nat)
  | dup (index slot : Nat)
  | tableFull
  | underExpansion
deriving DecidableEq

/-- `cuckoo_insert`: scan both candidate buckets for a duplicate, noting an
empty slot in each; use bucket 1's slot, then bucket 2's; otherwise run the
cuckoo machinery, re-checking for a concurrently inserted duplicate before
handing back the freed slot.  The source's `assert`s (freed slot empty,
freed bucket is a candidate) are modelled as checks. -/
def cuckoo_insert (cfg : Cfg) (fuel : Nat) (hv : HashValue) (bb : TwoBuckets)
    (k : Nat) (t : Table) : Except (Err × Table) ((InsRes × TwoBuckets) × Table) :=
  match getB t bb.i1 with
  | none => .error (.assertFail, t)
  | some b1 =>
    match try_find_insert_bucket cfg b1 hv.ptag k with
    | .dup s => .ok ((.dup bb.i1 s, bb), t)
    | .nodup res1 =>
      match getB t bb.i2 with
      | none => .error (.assertFail, t)
      | some b2 =>
        match try_find_insert_bucket cfg b2 hv.ptag k with
        | .dup s => .ok ((.dup bb.i2 s, bb), t)
        | .nodup res2 =>
          match res1 with
          | some s => .ok ((.ok bb.i1 s, bb), t)
          | none =>
            match res2 with
            | some s => .ok ((.ok bb.i2 s, bb), t)
            | none =>
              match run_cuckoo cfg fuel bb t with
              | .error e => .error e
              | .ok (.underExpansion, t1) => .ok ((.underExpansion, bb), t1)
              | .ok (.tableFull, t1) => .ok ((.tableFull, bb), t1)
              | .ok (.ok ib is bb', t1) =>
                match getB t1 ib with
                | none => .error (.assertFail, t1)
                | some fb =>
                  match getSlot fb is with
                  | some none =>
                    if ib = index_hash t1.hp hv.hash ∨
                       ib = alt_index t1.hp hv.ptag (index_hash t1.hp hv.hash) then
                      match cuckoo_find cfg t1 k hv.ptag bb'.i1 bb'.i2 with
                      | none => .error (.assertFail, t1)
                      | some (some (di, ds)) => .ok ((.dup di ds, bb'), t1)
                      | some none => .ok ((.ok ib is, bb'), t1)
                    else .error (.assertFail, t1)
                  | _ => .error (.assertFail, t1)

/-! ## Resize (`check_resize_validity`, `maybe_resize_locks`,
`cuckoo_fast_double`) and rehash helpers -/

/-- An all-empty bucket (`SLOT_PER_BUCKET` default-constructed slots). -/
def emptyBucket (cfg : Cfg) : Bucket := List.replicate cfg.S none

/-- The worker loop of `rehash_with_workers` run sequentially:
`lock_and_rehash` every stripe index in `[i, i + rem)`. -/
def rehash_range (cfg : Cfg) : Nat → Nat → Table → Option Table
  | _, 0, t => some t
  | i, rem + 1, t =>
    match lock_and_rehash cfg t i with
    | none => none
    | some t' => rehash_range cfg (i + 1) rem t'

/-- `rehash_with_workers`: complete every outstanding stripe migration. -/
def rehash_with_workers (cfg : Cfg) (t : Table) : Option Table :=
  rehash_range cfg 0 t.locks.length t

/-- `rehash_all(current_hp)`. -/
def rehash_all (cfg : Cfg) (current_hp : Nat) (t : Table) : Option Table :=
  if current_hp > kMaxNumLocksPow then rehash_with_workers cfg t else some t

/-- `maybe_resize_locks`: below the stripe-count cap, double the lock array.
Modelled from the spec: `lock_container::double_size` is not under `src/`;
fresh stripes start migrated with a zero element counter (§3, §4.5). -/
def maybe_resize_locks (t : Table) : Table :=
  if t.hp ≥ kMaxNumLocksPow then t
  else { t with locks := t.locks ++ List.replicate t.locks.length ⟨true, 0⟩ }

/-- `buckets_.double_size()`: append `hashsize(hp)` empty buckets and bump
the stored hashpower. -/
def double_size (cfg : Cfg) (t : Table) : Table :=
  { t with buckets := t.buckets ++ List.replicate t.buckets.length (emptyBucket cfg),
           hp := t.hp + 1 }

/-- `check_resize_validity<AUTO_RESIZE>(orig_hp, new_hp)` result. -/
inductive CRVRes where
  | ok
  | underExpansion
deriving DecidableEq

/-- `check_resize_validity`: the max-hashpower cap throws first; then, for
automatic resizes only, a load factor below the floor throws; a changed
hashpower reports `failure_under_expansion`. -/
def check_resize_validity (auto : Bool) (orig_hp new_hp : Nat) (cfg : Cfg)
    (t : Table) : Except (Err × Table) (CRVRes × Table) :=
  if (match t.maxHashpower with
      | some mhp => decide (new_hp > mhp)
      | none => false) then .error (.maxHashpowerExceeded, t)
  else if auto && decide (load_factor cfg t < t.minLoadFactor) then
    .error (.loadFactorTooLow, t)
  else if t.hp ≠ orig_hp then .ok (.underExpansion, t)
  else .ok (.ok, t)

/-- The small-table eager migration loop of `cuckoo_fast_double`: move every
old bucket, transferring element counts between the stripes of the old and
new bucket. -/
def fd_eager (cfg : Cfg) (current_hp : Nat) : Nat → Nat → Table → Option Table
  | _, 0, t => some t
  | ind, rem + 1, t =>
    match move_bucket cfg true current_hp ind t with
    | none => none
    | some t' => fd_eager cfg current_hp (ind + 1) rem t'

/-- `cuckoo_fast_double<normal_mode, AUTO_RESIZE>(current_hp)`: take all
stripes (no-op here), validate, finish outstanding migrations, grow locks
and buckets, then migrate eagerly (small tables) or mark every stripe
unmigrated (large tables).  `Nat` pairs are nothrow-move-constructible, so
the `cuckoo_fast_double_throwable` branch is dead in this instantiation. -/
def cuckoo_fast_double (cfg : Cfg) (auto : Bool) (current_hp : Nat) (t : Table) :
    Except (Err × Table) (CRVRes × Table) :=
  match check_resize_validity auto current_hp (current_hp + 1) cfg t with
  | .error e => .error e
  | .ok (.underExpansion, t0) => .ok (.underExpansion, t0)
  | .ok (.ok, t0) =>
    match rehash_all cfg current_hp t0 with
    | none => .error (.assertFail, t0)
    | some t1 =>
      let t2 := double_size cfg (maybe_resize_locks t1)
      if current_hp < kMaxNumLocksPow then
        match fd_eager cfg current_hp 0 (hashsize current_hp) t2 with
        | none => .error (.assertFail, t2)
        | some t3 => .ok (.ok, t3)
      else
        .ok (.ok, { t2 with
          locks := t2.locks.map (fun lk => { lk with migrated := false }) })

/-! ## `cuckoo_insert_loop` and the write-path operations -/

/-- `cuckoo_insert_loop`: retry `cuckoo_insert`, expanding on `TABLE_FULL`
and re-snapshotting the candidate stripes after any expansion. -/
def cuckoo_insert_loop (cfg : Cfg) (hv : HashValue) (k : Nat) :
    Nat → TwoBuckets → Table → Except (Err × Table) ((InsRes × TwoBuckets) × Table)
  | 0, _, t => .error (.outOfFuel, t)
  | fuel + 1, bb, t =>
    let hp := t.hp
    match cuckoo_insert cfg fuel hv bb k t with
    | .error e => .error e
    | .ok ((.ok i s, bb2), t1) => .ok ((.ok i s, bb2), t1)
    | .ok ((.dup i s, bb2), t1) => .ok ((.dup i s, bb2), t1)
    | .ok ((.tableFull, _), t1) =>
      match cuckoo_fast_double cfg true hp t1 with
      | .error e => .error e
      | .ok (_, t2) =>
        match snapshot_and_lock_two cfg fuel hv t2 with
        | .error e => .error e
        | .ok (bb2, t3) => cuckoo_insert_loop cfg hv k fuel bb2 t3
    | .ok ((.underExpansion, _), t1) =>
      match snapshot_and_lock_two cfg fuel hv t1 with
      | .error e => .error e
      | .ok (bb2, t2) => cuckoo_insert_loop cfg hv k fuel bb2 t2

/-- `add_to_bucket(lock, bucket, slot, partial, key, val)`: construct the
pair and bump the given stripe's element counter. -/
def add_to_bucket (t : Table) (lk index slot p k v : Nat) : Option Table :=
  match setKV t index slot p k v with
  | none => none
  | some t1 => bumpCounter t1 lk 1

/-- `del_from_bucket(lock, bucket, slot)`. -/
def del_from_bucket (t : Table) (lk index slot : Nat) : Option Table :=
  match eraseKV t index slot with
  | none => none
  | some t1 => bumpCounter t1 lk (-1)

/-- `uprase_fn(key, fn, val)`: the functor receives the mapped value and
returns the updated value together with the erase decision (`true` =
erase).  On a fresh slot the pair is constructed and `b.lock1`'s counter
incremented; on a duplicate the functor runs on the value in place. -/
def uprase_fn (cfg : Cfg) (fuel k : Nat) (fn : Nat → Nat × Bool) (v : Nat)
    (t : Table) : TRes Bool :=
  let hv := hashed_key cfg k
  match snapshot_and_lock_two cfg fuel hv t with
  | .error e => .error e
  | .ok (bb, t1) =>
    match cuckoo_insert_loop cfg hv k fuel bb t1 with
    | .error e => .error e
    | .ok ((.ok index slot, bb2), t2) =>
      match add_to_bucket t2 bb2.lock1 index slot hv.ptag k v with
      | none => .error (.assertFail, t2)
      | some t3 => .ok (true, t3)
    | .ok ((.dup index slot, bb2), t2) =>
      match readVal t2 index slot with
      | none => .error (.assertFail, t2)
      | some cur =>
        match setMapped t2 index slot (fn cur).1 with
        | none => .error (.assertFail, t2)
        | some t3 =>
          if (fn cur).2 then
            match del_from_bucket t3 bb2.lock1 index slot with
            | none => .error (.assertFail, t3)
            | some t4 => .ok (false, t4)
          else .ok (false, t3)
    | .ok ((.tableFull, _), t2) => .error (.assertFail, t2)
    | .ok ((.underExpansion, _), t2) => .error (.assertFail, t2)

/-- `upsert(key, fn, val) = uprase_fn(key, [fn](v){ fn(v); return false; },
val)`. -/
def upsert (cfg : Cfg) (fuel k : Nat) (fn : Nat → Nat) (v : Nat) (t : Table) :
    TRes Bool :=
  uprase_fn cfg fuel k (fun x => (fn x, false)) v t

/-- `insert(key, val)` = `upsert` with a functor that does nothing. -/
def insert (cfg : Cfg) (fuel k v : Nat) (t : Table) : TRes Bool :=
  upsert cfg fuel k (fun x => x) v t

/-- `insert_or_assign(key, val)` = `upsert` with `[&val](m){ m = val; }`. -/
def insert_or_assign (cfg : Cfg) (fuel k v : Nat) (t : Table) : TRes Bool :=
  upsert cfg fuel k (fun _ => v) v t

/-- `update_fn(key, fn)`: lock, `cuckoo_find`, apply the functor to the
mapped value; presence as a boolean (an absent key unlocks without bumping
the epoch and returns `false`, raising nothing). -/
def update_fn (cfg : Cfg) (fuel k : Nat) (fn : Nat → Nat) (t : Table) : TRes Bool :=
  let hv := hashed_key cfg k
  match snapshot_and_lock_two cfg fuel hv t with
  | .error e => .error e
  | .ok (bb, t1) =>
    match cuckoo_find cfg t1 k hv.ptag bb.i1 bb.i2 with
    | none => .error (.assertFail, t1)
    | some (some (index, slot)) =>
      match readVal t1 index slot with
      | none => .error (.assertFail, t1)
      | some cur =>
        match setMapped t1 index slot (fn cur) with
        | none => .error (.assertFail, t1)
        | some t2 => .ok (true, t2)
    | some none => .ok (false, t1)

/-- `update(key, val)` = `update_fn` with an assigning functor. -/
def update (cfg : Cfg) (fuel k v : Nat) (t : Table) : TRes Bool :=
  update_fn cfg fuel k (fun _ => v) t

/-- `erase_fn(key, fn)`: the functor decides erasure (`true` = erase); the
model's functor reads the value but does not mutate it, which is all the
erase functors used by the claims do. -/
def erase_fn (cfg : Cfg) (fuel k : Nat) (fn : Nat → Bool) (t : Table) : TRes Bool :=
  let hv := hashed_key cfg k
  match snapshot_and_lock_two cfg fuel hv t with
  | .error e => .error e
  | .ok (bb, t1) =>
    match cuckoo_find cfg t1 k hv.ptag bb.i1 bb.i2 with
    | none => .error (.assertFail, t1)
    | some (some (index, slot)) =>
      match readVal t1 index slot with
      | none => .error (.assertFail, t1)
      | some cur =>
        if fn cur then
          match del_from_bucket t1 bb.lock1 index slot with
          | none => .error (.assertFail, t1)
          | some t2 => .ok (true, t2)
        else .ok (true, t1)
    | some none => .ok (false, t1)

/-- `erase(key)` = `erase_fn` with `[](v){ return true; }`. -/
def erase (cfg : Cfg) (fuel k : Nat) (t : Table) : TRes Bool :=
  erase_fn cfg fuel k (fun _ => true) t

/-! ## Read-side operations -/

/-- `find_fn(key, fn)`: optimistic read; the functor only sees a copy of the
value and cannot touch the table, so it is dropped from the model. -/
def find_fn (cfg : Cfg) (fuel k : Nat) (t : Table) : TRes Bool :=
  match read_value cfg fuel k t with
  | .error e => .error e
  | .ok (vopt, t') => .ok (vopt.isSome, t')

/-- `contains(key)` = `find_fn` with a functor that does nothing. -/
def contains (cfg : Cfg) (fuel k : Nat) (t : Table) : TRes Bool :=
  find_fn cfg fuel k t

/-- The `find(key, val&)` overload = `find_fn` with a copying functor. -/
def find_copy (cfg : Cfg) (fuel k : Nat) (t : Table) : TRes Bool :=
  find_fn cfg fuel k t

/-- The value-returning `find(key)`: throws `std::out_of_range` ("key not
found in table") when absent. -/
def find_value (cfg : Cfg) (fuel k : Nat) (t : Table) : TRes Nat :=
  match read_value cfg fuel k t with
  | .error e => .error e
  | .ok (some v, t') => .ok (v, t')
  | .ok (none, t') => .error (.keyNotFound, t')

/-! ## `clear`, construction, `rehash`, `reserve`, policy setters -/

/-- `cuckoo_clear`: destroy all pairs, zero all counters, set migrated. -/
def cuckoo_clear (t : Table) : Table :=
  { t with buckets := t.buckets.map (fun b => b.map (fun _ => none)),
           locks := t.locks.map (fun _ => ⟨true, 0⟩) }

/-- `clear()` (`lock_all` is a no-op in this model). -/
def clear (t : Table) : Table := cuckoo_clear t

/-- Modelled from the spec: `reserve_calc_for_slots` (cuckoohash_util.hpp is
not under `src/`); §6: `hashpower = ceil(log2(initial_capacity / S))`, with
a minimum of 2.  `rc_go` searches for the smallest such hashpower. -/
def rc_go (cfg : Cfg) (n : Nat) : Nat → Nat → Nat
  | hp, 0 => hp
  | hp, fuel + 1 => if n ≤ hashsize hp * cfg.S then hp else rc_go cfg n (hp + 1) fuel

def reserve_calc (cfg : Cfg) (n : Nat) : Nat := rc_go cfg n 2 n

/-- The constructor `cuckoohash_map(n)`: `hashsize(reserve_calc(n))` empty
buckets and `hashsize(min(reserve_calc(n), kMaxNumLocksPow))` stripes.
Modelled from the spec where headers are missing: fresh stripes are
migrated with zero counters (§3); the default minimum load factor is taken
as `0` (the spec gives no default and §4.5 says explicit resizes bypass the
floor), and `maximum_hashpower` defaults to `NO_MAXIMUM_HASHPOWER`
(`none`). -/
def initTable (cfg : Cfg) (n : Nat) : Table :=
  let hp := reserve_calc cfg n
  { hp := hp
  , buckets := List.replicate (hashsize hp) (emptyBucket cfg)
  , locks := List.replicate (hashsize (min hp kMaxNumLocksPow)) ⟨true, 0⟩
  , minLoadFactor := 0
  , maxHashpower := none }

/-- The element-copy loop of `cuckoo_change_capacity`: insert every live
pair of the old table into the fresh map, in bucket-then-slot order. -/
def rebuild_go (cfg : Cfg) (fuel : Nat) : List Slot → Table → Except Err Table
  | [], m => .ok m
  | sl :: rest, m =>
    match insert cfg fuel sl.key sl.val m with
    | .error (e, _) => .error e
    | .ok (_, m') => rebuild_go cfg fuel rest m'

/-- `cuckoo_change_capacity<normal_mode, AUTO_RESIZE=false>(new_hp)`: take
all stripes, validate (manual resize: no load-factor gate), finish
migrations, rebuild into a fresh map and swap in its buckets and stripes. -/
def cuckoo_change_capacity (cfg : Cfg) (fuel new_hp : Nat) (t : Table) :
    Except (Err × Table) (CRVRes × Table) :=
  match check_resize_validity false t.hp new_hp cfg t with
  | .error e => .error e
  | .ok (.underExpansion, t0) => .ok (.underExpansion, t0)
  | .ok (.ok, t0) =>
    match rehash_all cfg t0.hp t0 with
    | none => .error (.assertFail, t0)
    | some t1 =>
      match rebuild_go cfg fuel (pairsList t1)
          (initTable cfg (hashsize new_hp * cfg.S)) with
      | .error e => .error (e, t1)
      | .ok m =>
        .ok (.ok, { t1 with hp := m.hp, buckets := m.buckets, locks := m.locks })

/-- `rehash(n)` (`cuckoo_rehash<normal_mode>`). -/
def cuckoo_rehash (cfg : Cfg) (fuel n : Nat) (t : Table) : TRes Bool :=
  if n = t.hp then .ok (false, t)
  else
    match cuckoo_change_capacity cfg fuel n t with
    | .error e => .error e
    | .ok (.ok, t1) => .ok (true, t1)
    | .ok (.underExpansion, t1) => .ok (false, t1)

/-- `reserve(n)` (`cuckoo_reserve<normal_mode>`). -/
def cuckoo_reserve (cfg : Cfg) (fuel n : Nat) (t : Table) : TRes Bool :=
  if reserve_calc cfg n = t.hp then .ok (false, t)
  else
    match cuckoo_change_capacity cfg fuel (reserve_calc cfg n) t with
    | .error e => .error e
    | .ok (.ok, t1) => .ok (true, t1)
    | .ok (.underExpansion, t1) => .ok (false, t1)

/-- The `minimum_load_factor(mlf)` setter: `std::invalid_argument` below
`0.0` or above `1.0`, stored otherwise (doubles modelled as rationals; both
comparisons are exact). -/
def minimum_load_factor (mlf : ℚ) (t : Table) : TRes Unit :=
  if mlf < 0 then .error (.invalidArgument, t)
  else if mlf > 1 then .error (.invalidArgument, t)
  else .ok ((), { t with minLoadFactor := mlf })

/-! ## Bookkeeping helpers: pair multisets, counter sums, primitive effects -/

/-- Whether stripe `l` exists and is migrated. -/
def migOn (t : Table) (l : Nat) : Bool :=
  match getLock t l with
  | some lk => lk.migrated
  | none => false

/-- Explicit list-to-multiset conversion (the coercion as a function). -/
def msOf {α : Type} (l : List α) : Multiset α := (l : Multiset α)

/-- The live pairs of the table as a multiset. -/
def pairsMS (t : Table) : Multiset Slot := msOf (pairsList t)

theorem foldl_add_counter (l : List Lock) :
    ∀ a : Int, l.foldl (fun x lk => x + lk.counter) a = a + (l.map Lock.counter).sum := by
  induction l with
  | nil => intro a; simp
  | cons lk rest ih =>
    intro a
    simp only [List.foldl_cons, List.map_cons, List.sum_cons, ih]
    ring

theorem sumCounters_eq_map_sum (t : Table) :
    sumCounters t = (t.locks.map Lock.counter).sum := by
  simp [sumCounters, foldl_add_counter]

theorem sum_map_set {α β : Type} [AddCommMonoid β] (f : α → β) :
    ∀ (L : List α) (i : Nat) (x b : α), L[i]? = some b →
    ((L.set i x).map f).sum + f b = (L.map f).sum + f x := by
  intro L
  induction L with
  | nil => intro i x b h; simp at h
  | cons a rest ih =>
    intro i x b h
    cases i with
    | zero =>
      simp only [List.getElem?_cons_zero, Option.some_inj] at h
      subst h
      simp only [List.set_cons_zero, List.map_cons, List.sum_cons]
      abel
    | succ i' =>
      simp only [List.getElem?_cons_succ] at h
      simp only [List.set_cons_succ, List.map_cons, List.sum_cons]
      rw [add_assoc, ih i' x b h, ← add_assoc]

theorem msOf_append {α : Type} (l1 l2 : List α) :
    msOf (l1 ++ l2) = msOf l1 + msOf l2 :=
  (Multiset.coe_add l1 l2).symm

theorem coe_flatten {α : Type} :
    ∀ L : List (List α), msOf L.flatten = (L.map msOf).sum := by
  intro L
  induction L with
  | nil => rfl
  | cons a rest ih =>
    rw [List.flatten_cons, List.map_cons, List.sum_cons, ← ih]
    exact msOf_append a rest.flatten

theorem pairsMS_eq_sum (t : Table) :
    pairsMS t = (t.buckets.map (fun b => msOf (b.filterMap id))).sum := by
  rw [pairsMS, pairsList, coe_flatten, List.map_map]
  rfl

theorem card_msOf {α : Type} (l : List α) : (msOf l).card = l.length :=
  Multiset.coe_card l

theorem occupiedCount_eq_card (t : Table) :
    occupiedCount t = (pairsMS t).card := by
  rw [pairsMS, card_msOf, pairsList]
  unfold occupiedCount
  induction t.buckets with
  | nil => rfl
  | cons b rest ih =>
    simp only [List.map_cons, List.sum_cons, List.flatten_cons,
      List.length_append, ih, bucketOcc]

theorem msOf_nil {α : Type} : msOf ([] : List α) = 0 := rfl

theorem msOf_cons {α : Type} (a : α) (l : List α) : msOf (a :: l) = {a} + msOf l := by
  rw [show msOf (a :: l) = a ::ₘ msOf l from rfl, ← Multiset.singleton_add]

/-- Replacing the content `o` of slot `s` of a bucket by `o'` exchanges `o`
for `o'` in the bucket's pair multiset. -/
theorem filterMap_set_swap {b : Bucket} :
    ∀ {s : Nat} {o : Option Slot} (o' : Option Slot), b[s]? = some o →
    msOf ((b.set s o').filterMap id) + msOf o.toList
      = msOf (b.filterMap id) + msOf o'.toList := by
  induction b with
  | nil => intro s o o' h; simp at h
  | cons a rest ih =>
    intro s o o' h
    cases s with
    | zero =>
      simp only [List.getElem?_cons_zero, Option.some_inj] at h
      subst h
      cases a <;> cases o' <;>
          simp only [List.set_cons_zero, List.filterMap_cons, id_eq,
            Option.toList_some, Option.toList_none, msOf_cons, msOf_nil] <;>
        abel
    | succ s' =>
      simp only [List.getElem?_cons_succ] at h
      cases a with
      | none =>
        simp only [List.set_cons_succ, List.filterMap_cons, id_eq]
        exact ih o' h
      | some sl =>
        simp only [List.set_cons_succ, List.filterMap_cons, id_eq, msOf_cons]
        rw [add_assoc, ih o' h, ← add_assoc]

/-! ### Shape lemmas for the state primitives -/

theorem setBucket_eq {t : Table} {i : Nat} {b : Bucket} {t' : Table}
    (h : setBucket t i b = some t') :
    i < t.buckets.length ∧ t' = { t with buckets := t.buckets.set i b } := by
  unfold setBucket at h
  by_cases hi : i < t.buckets.length
  · rw [if_pos hi] at h
    exact ⟨hi, (Option.some_inj.1 h).symm⟩
  · rw [if_neg hi] at h
    cases h

theorem setKV_eq {t : Table} {i s p k v : Nat} {t' : Table}
    (h : setKV t i s p k v = some t') :
    ∃ b, getB t i = some b ∧ getSlot b s = some none ∧ i < t.buckets.length ∧
      t' = { t with buckets := t.buckets.set i (b.set s (some ⟨p, k, v⟩)) } := by
  unfold setKV at h
  split at h
  · cases h
  next b hb =>
    split at h
    next hs =>
      obtain ⟨hi, ht⟩ := setBucket_eq h
      exact ⟨b, hb, hs, hi, ht⟩
    next => cases h

theorem eraseKV_eq {t : Table} {i s : Nat} {t' : Table}
    (h : eraseKV t i s = some t') :
    ∃ b sl, getB t i = some b ∧ getSlot b s = some (some sl) ∧
      i < t.buckets.length ∧
      t' = { t with buckets := t.buckets.set i (b.set s none) } := by
  unfold eraseKV at h
  split at h
  · cases h
  next b hb =>
    split at h
    next sl hs =>
      obtain ⟨hi, ht⟩ := setBucket_eq h
      exact ⟨b, sl, hb, hs, hi, ht⟩
    next => cases h

theorem setMapped_eq {t : Table} {i s v : Nat} {t' : Table}
    (h : setMapped t i s v = some t') :
    ∃ b sl, getB t i = some b ∧ getSlot b s = some (some sl) ∧
      i < t.buckets.length ∧
      t' = { t with buckets := t.buckets.set i (b.set s (some { sl with val := v })) } := by
  unfold setMapped at h
  split at h
  · cases h
  next b hb =>
    split at h
    next sl hs =>
      obtain ⟨hi, ht⟩ := setBucket_eq h
      exact ⟨b, sl, hb, hs, hi, ht⟩
    next => cases h

theorem bumpCounter_eq {t : Table} {l : Nat} {d : Int} {t' : Table}
    (h : bumpCounter t l d = some t') :
    ∃ lk, getLock t l = some lk ∧
      t' = { t with locks := t.locks.set l { lk with counter := lk.counter + d } } := by
  unfold bumpCounter at h
  split at h
  · cases h
  next lk hl =>
    exact ⟨lk, hl, (Option.some_inj.1 h).symm⟩

theorem setMigrated_eq {t : Table} {l : Nat} {m : Bool} {t' : Table}
    (h : setMigrated t l m = some t') :
    ∃ lk, getLock t l = some lk ∧
      t' = { t with locks := t.locks.set l { lk with migrated := m } } := by
  unfold setMigrated at h
  split at h
  · cases h
  next lk hl =>
    exact ⟨lk, hl, (Option.some_inj.1 h).symm⟩

/-! ### Slot-level accessors after a write -/

/-- The content of slot `s` of bucket `i` (`none` = out of range). -/
def slotAt (t : Table) (i s : Nat) : Option (Option Slot) :=
  match getB t i with
  | some b => getSlot b s
  | none => none

theorem getB_set {t : Table} {i : Nat} {b' : Bucket} (hi : i < t.buckets.length) (j : Nat) :
    getB { t with buckets := t.buckets.set i b' } j
      = if j = i then some b' else getB t j := by
  unfold getB
  by_cases he : j = i
  · subst he
    rw [if_pos rfl]
    exact List.getElem?_set_self hi
  · rw [if_neg he]
    exact List.getElem?_set_ne (fun hh => he hh.symm)

theorem getSlot_set {b : Bucket} {s : Nat} {o : Option Slot} {o₀ : Option Slot}
    (hs : getSlot b s = some o₀) (s' : Nat) :
    getSlot (b.set s o) s' = if s' = s then some o else getSlot b s' := by
  unfold getSlot at hs ⊢
  by_cases he : s' = s
  · subst he
    rw [if_pos rfl]
    exact List.getElem?_set_self (List.getElem?_eq_some.1 hs).1
  · rw [if_neg he]
    exact List.getElem?_set_ne (fun hh => he hh.symm)

theorem slotAt_of_getB {t : Table} {i : Nat} {b : Bucket} (hb : getB t i = some b)
    (s : Nat) : slotAt t i s = getSlot b s := by
  unfold slotAt
  rw [hb]

theorem slotAt_of_getB_none {t : Table} {i : Nat} (hb : getB t i = none)
    (s : Nat) : slotAt t i s = none := by
  unfold slotAt
  rw [hb]

theorem slotAt_setKV {t : Table} {i s p k v : Nat} {t' : Table}
    (h : setKV t i s p k v = some t') (j s' : Nat) :
    slotAt t' j s' = if j = i ∧ s' = s then some (some ⟨p, k, v⟩)
                     else slotAt t j s' := by
  obtain ⟨b, hb, hs, hi, ht⟩ := setKV_eq h
  have hbs := @getB_set t i (b.set s (some ⟨p, k, v⟩)) hi j
  rw [← ht] at hbs
  by_cases hj : j = i
  · rw [if_pos hj] at hbs
    subst hj
    rw [slotAt_of_getB hbs, getSlot_set hs, slotAt_of_getB hb]
    by_cases hss : s' = s
    · rw [if_pos hss, if_pos ⟨rfl, hss⟩]
    · rw [if_neg hss, if_neg (fun hh => hss hh.2)]
  · rw [if_neg hj] at hbs
    rw [if_neg (fun hh => hj hh.1)]
    unfold slotAt
    rw [hbs]

theorem slotAt_eraseKV {t : Table} {i s : Nat} {t' : Table}
    (h : eraseKV t i s = some t') (j s' : Nat) :
    slotAt t' j s' = if j = i ∧ s' = s then some none else slotAt t j s' := by
  obtain ⟨b, sl, hb, hs, hi, ht⟩ := eraseKV_eq h
  have hbs := @getB_set t i (b.set s none) hi j
  rw [← ht] at hbs
  by_cases hj : j = i
  · rw [if_pos hj] at hbs
    subst hj
    rw [slotAt_of_getB hbs, getSlot_set hs, slotAt_of_getB hb]
    by_cases hss : s' = s
    · rw [if_pos hss, if_pos ⟨rfl, hss⟩]
    · rw [if_neg hss, if_neg (fun hh => hss hh.2)]
  · rw [if_neg hj] at hbs
    rw [if_neg (fun hh => hj hh.1)]
    unfold slotAt
    rw [hbs]

theorem slotAt_buckets_eq {t t' : Table} (h : t'.buckets = t.buckets) (j s' : Nat) :
    slotAt t' j s' = slotAt t j s' := by
  unfold slotAt getB
  rw [h]

/-! ### Effect lemmas: pair multisets and counter sums -/

/-- pairsMS after replacing one bucket. -/
theorem pairsMS_set_bucket {t : Table} {i : Nat} {b b' : Bucket}
    (h : getB t i = some b) :
    pairsMS { t with buckets := t.buckets.set i b' } + msOf (b.filterMap id)
      = pairsMS t + msOf (b'.filterMap id) := by
  have := sum_map_set (fun bk : Bucket => msOf (bk.filterMap id)) t.buckets i b' b h
  simpa [pairsMS_eq_sum] using this

theorem sumCounters_set_lock {t : Table} {l : Nat} {lk lk' : Lock}
    (h : getLock t l = some lk) :
    sumCounters { t with locks := t.locks.set l lk' } + lk.counter
      = sumCounters t + lk'.counter := by
  have := sum_map_set Lock.counter t.locks l lk' lk h
  simpa [sumCounters_eq_map_sum] using this

theorem setKV_pairs {t : Table} {i s p k v : Nat} {t' : Table}
    (h : setKV t i s p k v = some t') :
    pairsMS t' = pairsMS t + {(⟨p, k, v⟩ : Slot)} := by
  obtain ⟨b, hb, hs, _, ht⟩ := setKV_eq h
  subst ht
  have hswap := filterMap_set_swap (b := b) (some (⟨p, k, v⟩ : Slot)) hs
  simp only [Option.toList_none, Option.toList_some, msOf_nil, msOf_cons,
    add_zero] at hswap
  have hset := @pairsMS_set_bucket t i b (b.set s (some ⟨p, k, v⟩)) hb
  apply add_right_cancel (b := msOf (b.filterMap id))
  rw [hset, hswap]
  abel

theorem eraseKV_pairs {t : Table} {i s : Nat} {t' : Table}
    (h : eraseKV t i s = some t') :
    ∃ sl, slotAt t i s = some (some sl) ∧ pairsMS t' + {sl} = pairsMS t ∧
      readVal t i s = some sl.val := by
  obtain ⟨b, sl, hb, hs, _, ht⟩ := eraseKV_eq h
  subst ht
  refine ⟨sl, by rw [slotAt_of_getB hb]; exact hs, ?_, ?_⟩
  · have hswap := filterMap_set_swap (b := b) (o := some sl) none hs
    simp only [Option.toList_none, Option.toList_some, msOf_nil, msOf_cons,
      add_zero] at hswap
    have hset := @pairsMS_set_bucket t i b (b.set s none) hb
    apply add_right_cancel (b := msOf (b.filterMap id))
    calc pairsMS { t with buckets := t.buckets.set i (b.set s none) } + {sl}
          + msOf (b.filterMap id)
        = pairsMS { t with buckets := t.buckets.set i (b.set s none) }
          + msOf (b.filterMap id) + {sl} := by abel
      _ = pairsMS t + msOf ((b.set s none).filterMap id) + {sl} := by rw [hset]
      _ = pairsMS t + (msOf ((b.set s none).filterMap id) + {sl}) := by abel
      _ = pairsMS t + msOf (b.filterMap id) := by rw [hswap]
  · simp only [readVal, hb, hs]

theorem setMapped_pairs {t : Table} {i s v : Nat} {t' : Table}
    (h : setMapped t i s v = some t') :
    ∃ sl, pairsMS t' + {sl} = pairsMS t + {{ sl with val := v }} := by
  obtain ⟨b, sl, hb, hs, _, ht⟩ := setMapped_eq h
  subst ht
  refine ⟨sl, ?_⟩
  have hswap := filterMap_set_swap (b := b) (o := some sl)
    (some { sl with val := v }) hs
  simp only [Option.toList_none, Option.toList_some, msOf_nil, msOf_cons,
    add_zero] at hswap
  have hset := @pairsMS_set_bucket t i b (b.set s (some { sl with val := v })) hb
  apply add_right_cancel (b := msOf (b.filterMap id))
  calc pairsMS { t with buckets := t.buckets.set i (b.set s (some { sl with val := v })) }
        + {sl} + msOf (b.filterMap id)
      = pairsMS { t with buckets := t.buckets.set i (b.set s (some { sl with val := v })) }
        + msOf (b.filterMap id) + {sl} := by abel
    _ = pairsMS t + msOf ((b.set s (some { sl with val := v })).filterMap id) + {sl} := by
        rw [hset]
    _ = pairsMS t + (msOf ((b.set s (some { sl with val := v })).filterMap id) + {sl}) := by
        abel
    _ = pairsMS t + (msOf (b.filterMap id) + {{ sl with val := v }}) := by rw [hswap]
    _ = pairsMS t + {{ sl with val := v }} + msOf (b.filterMap id) := by abel

/-! ### The evolution relation

All the locking/searching/moving steps of the write path preserve the
hashpower, the array shapes, the set of migrated stripes, the counter sum,
the pair multiset and the policy fields; `Evol` packages this. -/

structure Evol (t t' : Table) : Prop where
  hp : t'.hp = t.hp
  blen : t'.buckets.length = t.buckets.length
  llen : t'.locks.length = t.locks.length
  mig : ∀ l, migOn t l = true → migOn t' l = true
  sum : sumCounters t' = sumCounters t
  pairs : pairsMS t' = pairsMS t
  mlf : t'.minLoadFactor = t.minLoadFactor
  mhp : t'.maxHashpower = t.maxHashpower

theorem Evol.refl (t : Table) : Evol t t :=
  ⟨rfl, rfl, rfl, fun _ h => h, rfl, rfl, rfl, rfl⟩

theorem Evol.comp {a b c : Table} (h1 : Evol a b) (h2 : Evol b c) : Evol a c :=
  ⟨h2.hp.trans h1.hp, h2.blen.trans h1.blen, h2.llen.trans h1.llen,
   fun l hl => h2.mig l (h1.mig l hl), h2.sum.trans h1.sum,
   h2.pairs.trans h1.pairs, h2.mlf.trans h1.mlf, h2.mhp.trans h1.mhp⟩

theorem getLock_lt {t : Table} {l : Nat} {lk : Lock} (h : getLock t l = some lk) :
    l < t.locks.length := by
  unfold getLock at h
  exact (List.getElem?_eq_some.1 h).1

theorem getB_lt {t : Table} {i : Nat} {b : Bucket} (h : getB t i = some b) :
    i < t.buckets.length := by
  unfold getB at h
  exact (List.getElem?_eq_some.1 h).1

/-- `migOn` is untouched by a lock replacement that keeps the flag. -/
theorem migOn_set_lock {t : Table} {l : Nat} {lk lk' : Lock}
    (hl : getLock t l = some lk) (hm : lk'.migrated = lk.migrated) (l' : Nat) :
    migOn { t with locks := t.locks.set l lk' } l' = migOn t l' := by
  unfold migOn getLock
  by_cases he : l = l'
  · subst he
    rw [List.getElem?_set_self (getLock_lt hl)]
    unfold getLock at hl
    rw [hl]
    exact hm
  · rw [List.getElem?_set_ne he]

theorem bumpCounter_evol {t : Table} {l : Nat} {d : Int} {t' : Table}
    (h : bumpCounter t l d = some t') :
    t'.hp = t.hp ∧ t'.buckets = t.buckets ∧ t'.locks.length = t.locks.length ∧
    (∀ l', migOn t' l' = migOn t l') ∧
    sumCounters t' = sumCounters t + d ∧ pairsMS t' = pairsMS t ∧
    t'.minLoadFactor = t.minLoadFactor ∧ t'.maxHashpower = t.maxHashpower := by
  obtain ⟨lk, hl, ht⟩ := bumpCounter_eq h
  subst ht
  refine ⟨rfl, rfl, by simp,
    fun l' => @migOn_set_lock t l lk { lk with counter := lk.counter + d } hl rfl l',
    ?_, rfl, rfl, rfl⟩
  have h2 := @sumCounters_set_lock t l lk { lk with counter := lk.counter + d } hl
  have h3 : ({ lk with counter := lk.counter + d } : Lock).counter = lk.counter + d := rfl
  rw [h3] at h2
  omega

theorem setMigrated_true_evol {t : Table} {l : Nat} {t' : Table}
    (h : setMigrated t l true = some t') :
    t'.hp = t.hp ∧ t'.buckets = t.buckets ∧ t'.locks.length = t.locks.length ∧
    migOn t' l = true ∧ (∀ l', migOn t l' = true → migOn t' l' = true) ∧
    sumCounters t' = sumCounters t ∧ pairsMS t' = pairsMS t ∧
    t'.minLoadFactor = t.minLoadFactor ∧ t'.maxHashpower = t.maxHashpower := by
  obtain ⟨lk, hl, ht⟩ := setMigrated_eq h
  subst ht
  have hlt := getLock_lt hl
  refine ⟨rfl, rfl, by simp, ?_, ?_, ?_, rfl, rfl, rfl⟩
  · unfold migOn getLock
    rw [List.getElem?_set_self hlt]
  · intro l' hl'
    unfold migOn getLock
    by_cases he : l = l'
    · subst he
      rw [List.getElem?_set_self hlt]
    · rw [List.getElem?_set_ne he]
      exact hl'
  · have h2 := @sumCounters_set_lock t l lk { lk with migrated := true } hl
    have h3 : ({ lk with migrated := true } : Lock).counter = lk.counter := rfl
    rw [h3] at h2
    omega

/-- `setKV` with a matching later `eraseKV` of the same pair: used via its
parts; here, the basic state-shape effects of `setKV`. -/
theorem setKV_shape {t : Table} {i s p k v : Nat} {t' : Table}
    (h : setKV t i s p k v = some t') :
    t'.hp = t.hp ∧ t'.buckets.length = t.buckets.length ∧ t'.locks = t.locks ∧
    t'.minLoadFactor = t.minLoadFactor ∧ t'.maxHashpower = t.maxHashpower := by
  obtain ⟨b, _, _, _, ht⟩ := setKV_eq h
  subst ht
  exact ⟨rfl, by simp, rfl, rfl, rfl⟩

theorem eraseKV_shape {t : Table} {i s : Nat} {t' : Table}
    (h : eraseKV t i s = some t') :
    t'.hp = t.hp ∧ t'.buckets.length = t.buckets.length ∧ t'.locks = t.locks ∧
    t'.minLoadFactor = t.minLoadFactor ∧ t'.maxHashpower = t.maxHashpower := by
  obtain ⟨b, sl, _, _, _, ht⟩ := eraseKV_eq h
  subst ht
  exact ⟨rfl, by simp, rfl, rfl, rfl⟩

theorem setMapped_shape {t : Table} {i s v : Nat} {t' : Table}
    (h : setMapped t i s v = some t') :
    t'.hp = t.hp ∧ t'.buckets.length = t.buckets.length ∧ t'.locks = t.locks ∧
    t'.minLoadFactor = t.minLoadFactor ∧ t'.maxHashpower = t.maxHashpower := by
  obtain ⟨b, sl, _, _, _, ht⟩ := setMapped_eq h
  subst ht
  exact ⟨rfl, by simp, rfl, rfl, rfl⟩

/-- `migOn` and the counter sum only look at the locks. -/
theorem migOn_locks_eq {t t' : Table} (h : t'.locks = t.locks) (l : Nat) :
    migOn t' l = migOn t l := by
  unfold migOn getLock
  rw [h]

theorem sumCounters_locks_eq {t t' : Table} (h : t'.locks = t.locks) :
    sumCounters t' = sumCounters t := by
  unfold sumCounters
  rw [h]

/-! ### Evolution through migration moves -/

/-- One physical move (`setKV` to a fresh slot, then `eraseKV` of the very
pair that was copied) preserves the pair multiset. -/
theorem move_pair_evol {t t1 t2 : Table} {toB ts fromB fs : Nat} {sl : Slot}
    (hread : slotAt t fromB fs = some (some sl))
    (hset : setKV t toB ts sl.ptag sl.key sl.val = some t1)
    (herase : eraseKV t1 fromB fs = some t2)
    (hne : ¬ (fromB = toB ∧ fs = ts)) :
    pairsMS t2 = pairsMS t := by
  have h1 : pairsMS t1 = pairsMS t + {sl} := by
    have h0 := setKV_pairs hset
    simpa using h0
  have hcontent : slotAt t1 fromB fs = some (some sl) := by
    rw [slotAt_setKV hset, if_neg hne]
    exact hread
  obtain ⟨slE, hcE, hpE, _⟩ := eraseKV_pairs herase
  rw [hcontent] at hcE
  have hslE : slE = sl := (Option.some_inj.1 (Option.some_inj.1 hcE)).symm
  subst hslE
  rw [h1] at hpE
  exact add_right_cancel hpE

theorem locks_eq_evol_parts {t t' : Table} (hl : t'.locks = t.locks) :
    t'.locks.length = t.locks.length ∧ (∀ l, migOn t l = true → migOn t' l = true) ∧
    sumCounters t' = sumCounters t := by
  refine ⟨by rw [hl], fun l h => ?_, sumCounters_locks_eq hl⟩
  rw [migOn_locks_eq hl]
  exact h

/-- A `setKV`-then-`eraseKV` move of one slot is an `Evol` step. -/
theorem move_step_evol {t t1 t2 : Table} {toB ts fromB fs : Nat} {sl : Slot}
    (hread : slotAt t fromB fs = some (some sl))
    (hkv : setKV t toB ts sl.ptag sl.key sl.val = some t1)
    (her : eraseKV t1 fromB fs = some t2)
    (hne : ¬ (fromB = toB ∧ fs = ts)) : Evol t t2 := by
  have s1 := setKV_shape hkv
  have s2 := eraseKV_shape her
  have hlocks : t2.locks = t.locks := s2.2.2.1.trans s1.2.2.1
  obtain ⟨hlen, hmig, hsum⟩ := locks_eq_evol_parts hlocks
  exact ⟨s2.1.trans s1.1, s2.2.1.trans s1.2.1, hlen, hmig, hsum,
    move_pair_evol hread hkv her hne, s2.2.2.2.1.trans s1.2.2.2.1,
    s2.2.2.2.2.trans s1.2.2.2.2⟩

/-- The paired counter transfer of the eager resize is an `Evol` step. -/
theorem bump_pair_evol {t t1 t2 : Table} {l1 l2 : Nat}
    (h1 : bumpCounter t l1 (-1) = some t1) (h2 : bumpCounter t1 l2 1 = some t2) :
    Evol t t2 := by
  obtain ⟨e1hp, e1b, e1l, e1m, e1s, e1p, e1f, e1x⟩ := bumpCounter_evol h1
  obtain ⟨e2hp, e2b, e2l, e2m, e2s, e2p, e2f, e2x⟩ := bumpCounter_evol h2
  refine ⟨e2hp.trans e1hp, by rw [e2b, e1b], e2l.trans e1l,
    fun l h => by rw [e2m, e1m]; exact h, by omega, e2p.trans e1p,
    e2f.trans e1f, e2x.trans e1x⟩

theorem move_bucket_go_evol (cfg : Cfg) (adjust : Bool) (old_hp old_ind : Nat) :
    ∀ (rem s nslot : Nat) (t t' : Table),
      move_bucket_go cfg adjust old_hp old_ind rem s nslot t = some t' → Evol t t' := by
  intro rem
  induction rem with
  | zero =>
    intro s nslot t t' h
    cases h
    exact Evol.refl _
  | succ rem ih =>
    intro s nslot t t' h
    unfold move_bucket_go at h
    split at h
    · cases h
    next b hb =>
      split at h
      · cases h
      · exact ih _ _ _ _ h
      next sl hs =>
        split at h
        · -- need_to_move true: set, erase, maybe transfer counters
          split at h
          · cases h
          next t1 hkv =>
            split at h
            · cases h
            next t2 her =>
              have hread : slotAt t old_ind s = some (some sl) := by
                rw [slotAt_of_getB hb]
                exact hs
              have hne : ¬ (old_ind = old_ind + hashsize old_hp ∧ s = nslot) := by
                intro hc
                have hpos : 0 < hashsize old_hp := Nat.pos_pow_of_pos _ (by norm_num)
                omega
              have e12 := move_step_evol hread hkv her hne
              split at h
              · -- adjust = true: two counter bumps then recurse
                split at h
                · cases h
                next t3 hb1 =>
                  split at h
                  · cases h
                  next t4 hb2 =>
                    exact (e12.comp (bump_pair_evol hb1 hb2)).comp (ih _ _ _ _ h)
              · exact e12.comp (ih _ _ _ _ h)
        · exact ih _ _ _ _ h

theorem move_bucket_evol {cfg : Cfg} {adjust : Bool} {old_hp old_ind : Nat}
    {t t' : Table} (h : move_bucket cfg adjust old_hp old_ind t = some t') :
    Evol t t' :=
  move_bucket_go_evol cfg adjust old_hp old_ind cfg.S 0 0 t t' h

theorem migrate_go_evol (cfg : Cfg) (old_hp half : Nat) :
    ∀ (n ind : Nat) (t t' : Table), half - ind ≤ n →
      migrate_go cfg old_hp half ind t = some t' → Evol t t' := by
  intro n
  induction n with
  | zero =>
    intro ind t t' hle h
    unfold migrate_go at h
    rw [if_neg (by omega)] at h
    cases h
    exact Evol.refl _
  | succ n ih =>
    intro ind t t' hle h
    unfold migrate_go at h
    by_cases hlt : ind < half
    · rw [if_pos hlt] at h
      split at h
      · cases h
      next t1 hmv =>
        have hstep : half - (ind + kMaxNumLocks) ≤ n := by
          have : 0 < kMaxNumLocks := by
            rw [kMaxNumLocks, kMaxNumLocksPow]
            norm_num
          omega
        exact (move_bucket_evol hmv).comp (ih _ _ _ hstep h)
    · rw [if_neg hlt] at h
      cases h
      exact Evol.refl _

theorem migrate_lock_evol {cfg : Cfg} {t : Table} {l : Nat} {t' : Table}
    (h : migrate_lock cfg t l = some t') : Evol t t' := by
  unfold migrate_lock at h
  split at h
  · exact migrate_go_evol cfg (t.hp - 1) (t.buckets.length >>> 1)
      (t.buckets.length >>> 1 - l) l t t' (by omega) h
  · cases h

/-- `lock_and_rehash` is an `Evol` step that leaves the stripe migrated. -/
theorem lock_and_rehash_evol {cfg : Cfg} {t : Table} {l : Nat} {t' : Table}
    (h : lock_and_rehash cfg t l = some t') :
    Evol t t' ∧ migOn t' l = true := by
  unfold lock_and_rehash at h
  split at h
  · cases h
  next lk hl =>
    split at h
    next hmig =>
      cases h
      exact ⟨Evol.refl _, by unfold migOn; rw [hl]; exact hmig⟩
    next hmig =>
      split at h
      · cases h
      next t1 hml =>
        have e1 := migrate_lock_evol hml
        obtain ⟨shp, sb, sl2, smg, smono, ssum, spair, sf, sx⟩ := setMigrated_true_evol h
        refine ⟨e1.comp ⟨shp, by rw [sb], sl2, smono, ssum, by rw [pairsMS, pairsList, sb]; rfl, sf, sx⟩, smg⟩

/-! ### Evolution through the lock managers -/

theorem lock_one_ok {cfg : Cfg} {hp i : Nat} {t t' : Table}
    (h : lock_one cfg hp i t = .ok t') :
    Evol t t' ∧ migOn t' (lock_ind i) = true ∧ t'.hp = hp := by
  unfold lock_one at h
  split at h
  · cases h
  next t1 hlar =>
    obtain ⟨e1, m1⟩ := lock_and_rehash_evol hlar
    split at h
    next hhp =>
      cases h
      exact ⟨e1, m1, hhp⟩
    · cases h

theorem lock_one_err {cfg : Cfg} {hp i : Nat} {t : Table} {e : Err} {t' : Table}
    (h : lock_one cfg hp i t = .error (e, t')) :
    Evol t t' ∧ (e = .assertFail ∨ e = .hashpowerChanged) := by
  unfold lock_one at h
  split at h
  · cases h
    exact ⟨Evol.refl _, Or.inl rfl⟩
  next t1 hlar =>
    obtain ⟨e1, _⟩ := lock_and_rehash_evol hlar
    split at h
    · cases h
    · cases h
      exact ⟨e1, Or.inr rfl⟩

theorem lock_two_ok {cfg : Cfg} {hp i1 i2 : Nat} {t : Table} {bb : TwoBuckets}
    {t' : Table} (h : lock_two cfg hp i1 i2 t = .ok (bb, t')) :
    Evol t t' ∧ t'.hp = hp ∧ migOn t' (lock_ind i1) = true ∧
    migOn t' (lock_ind i2) = true ∧
    bb = ⟨i1, i2, min (lock_ind i1) (lock_ind i2)⟩ := by
  simp only [lock_two] at h
  split at h
  · cases h
  next t1 hlo =>
    obtain ⟨e1, m1⟩ := lock_and_rehash_evol hlo
    split at h
    next hhp =>
      split at h
      next hne =>
        split at h
        · cases h
        next t2 hhi =>
          obtain ⟨e2, m2⟩ := lock_and_rehash_evol hhi
          cases h
          have mlo := e2.mig _ m1
          refine ⟨e1.comp e2, e2.hp.trans hhp, ?_, ?_, rfl⟩
          · rcases Nat.le_total (lock_ind i1) (lock_ind i2) with hle | hle
            · rw [Nat.min_eq_left hle] at mlo
              exact mlo
            · rw [Nat.max_eq_left hle] at m2
              exact m2
          · rcases Nat.le_total (lock_ind i1) (lock_ind i2) with hle | hle
            · rw [Nat.max_eq_right hle] at m2
              exact m2
            · rw [Nat.min_eq_right hle] at mlo
              exact mlo
      next hne =>
        cases h
        rw [Decidable.not_not] at hne
        refine ⟨e1, hhp, ?_, ?_, rfl⟩
        · rw [show lock_ind i1 = min (lock_ind i1) (lock_ind i2) by omega]
          exact m1
        · rw [show lock_ind i2 = min (lock_ind i1) (lock_ind i2) by omega]
          exact m1
    · cases h

theorem lock_two_err {cfg : Cfg} {hp i1 i2 : Nat} {t : Table} {e : Err}
    {t' : Table} (h : lock_two cfg hp i1 i2 t = .error (e, t')) :
    Evol t t' ∧ (e = .assertFail ∨ e = .hashpowerChanged) := by
  simp only [lock_two] at h
  split at h
  · cases h
    exact ⟨Evol.refl _, Or.inl rfl⟩
  next t1 hlo =>
    obtain ⟨e1, _⟩ := lock_and_rehash_evol hlo
    split at h
    · split at h
      · split at h
        · cases h
          exact ⟨e1, Or.inl rfl⟩
        · cases h
      · cases h
    · cases h
      exact ⟨e1, Or.inr rfl⟩

/-- The three sorted stripe indices of `lock_three` cover the three inputs. -/
theorem minmax_mem3 (a b c : Nat) :
    (a = min a (min b c) ∨ a = a + b + c - min a (min b c) - max a (max b c) ∨
       a = max a (max b c)) ∧
    (b = min a (min b c) ∨ b = a + b + c - min a (min b c) - max a (max b c) ∨
       b = max a (max b c)) ∧
    (c = min a (min b c) ∨ c = a + b + c - min a (min b c) - max a (max b c) ∨
       c = max a (max b c)) := by
  simp only [Nat.min_def, Nat.max_def]
  split_ifs <;> omega

theorem lock_three_ok {cfg : Cfg} {hp i1 i2 i3 : Nat} {t : Table}
    {bb : TwoBuckets} {t' : Table} (h : lock_three cfg hp i1 i2 i3 t = .ok (bb, t')) :
    Evol t t' ∧ t'.hp = hp ∧ migOn t' (lock_ind i1) = true ∧
    migOn t' (lock_ind i2) = true ∧ bb = ⟨i1, i2, lock_ind i1⟩ := by
  simp only [lock_three] at h
  split at h
  · cases h
  next t1 hs0 =>
    obtain ⟨e1, m1⟩ := lock_and_rehash_evol hs0
    split at h
    next hhp =>
      split at h
      · cases h
      next t2 hs1m =>
        split at h
        · cases h
        next t3 hs2m =>
          cases h
          have step2 : Evol t1 t2 ∧
              migOn t2 (min (lock_ind i1) (min (lock_ind i2) (lock_ind i3))) = true ∧
              migOn t2 (lock_ind i1 + lock_ind i2 + lock_ind i3
                - min (lock_ind i1) (min (lock_ind i2) (lock_ind i3))
                - max (lock_ind i1) (max (lock_ind i2) (lock_ind i3))) = true := by
            split at hs1m
            next hne =>
              obtain ⟨e2, m2⟩ := lock_and_rehash_evol hs1m
              exact ⟨e2, e2.mig _ m1, m2⟩
            next hne =>
              cases hs1m
              rw [Decidable.not_not] at hne
              exact ⟨Evol.refl _, m1, by rw [hne]; exact m1⟩
          obtain ⟨e2, m20, m21⟩ := step2
          have step3 : Evol t2 t' ∧
              migOn t' (min (lock_ind i1) (min (lock_ind i2) (lock_ind i3))) = true ∧
              migOn t' (lock_ind i1 + lock_ind i2 + lock_ind i3
                - min (lock_ind i1) (min (lock_ind i2) (lock_ind i3))
                - max (lock_ind i1) (max (lock_ind i2) (lock_ind i3))) = true ∧
              migOn t' (max (lock_ind i1) (max (lock_ind i2) (lock_ind i3))) = true := by
            split at hs2m
            next hne =>
              obtain ⟨e3, m3⟩ := lock_and_rehash_evol hs2m
              exact ⟨e3, e3.mig _ m20, e3.mig _ m21, m3⟩
            next hne =>
              cases hs2m
              rw [Decidable.not_not] at hne
              exact ⟨Evol.refl _, m20, m21, by rw [hne]; exact m21⟩
          obtain ⟨e3, m30, m31, m32⟩ := step3
          have hmem := minmax_mem3 (lock_ind i1) (lock_ind i2) (lock_ind i3)
          have mig1 : migOn t' (lock_ind i1) = true := by
            rcases hmem.1 with he | he | he <;> rw [he] <;> assumption
          have mig2 : migOn t' (lock_ind i2) = true := by
            rcases hmem.2.1 with he | he | he <;> rw [he] <;> assumption
          exact ⟨(e1.comp e2).comp e3, (e3.hp.trans e2.hp).trans hhp, mig1, mig2, rfl⟩
    · cases h

theorem lock_three_err {cfg : Cfg} {hp i1 i2 i3 : Nat} {t : Table} {e : Err}
    {t' : Table} (h : lock_three cfg hp i1 i2 i3 t = .error (e, t')) :
    Evol t t' ∧ (e = .assertFail ∨ e = .hashpowerChanged) := by
  simp only [lock_three] at h
  split at h
  · cases h
    exact ⟨Evol.refl _, Or.inl rfl⟩
  next t1 hs0 =>
    obtain ⟨e1, _⟩ := lock_and_rehash_evol hs0
    split at h
    next hhp =>
      split at h
      · cases h
        exact ⟨e1, Or.inl rfl⟩
      next t2 hs1m =>
        have e2 : Evol t1 t2 := by
          split at hs1m
          · exact (lock_and_rehash_evol hs1m).1
          · cases hs1m
            exact Evol.refl _
        split at h
        · cases h
          exact ⟨e1.comp e2, Or.inl rfl⟩
        · cases h
    · cases h
      exact ⟨e1, Or.inr rfl⟩

/-- The facts `snapshot_and_lock_two` establishes about its result. -/
def SnapProps (hv : HashValue) (bb : TwoBuckets) (t : Table) : Prop :=
  bb.i1 = index_hash t.hp hv.hash ∧ bb.i2 = alt_index t.hp hv.ptag bb.i1 ∧
  migOn t (lock_ind bb.i1) = true ∧ migOn t (lock_ind bb.i2) = true

theorem snapshot_ok {cfg : Cfg} {hv : HashValue} :
    ∀ {fuel : Nat} {t : Table} {bb : TwoBuckets} {t' : Table},
    snapshot_and_lock_two cfg fuel hv t = .ok (bb, t') →
    Evol t t' ∧ SnapProps hv bb t' := by
  intro fuel
  induction fuel with
  | zero => intro t bb t' h; cases h
  | succ fuel ih =>
    intro t bb t' h
    simp only [snapshot_and_lock_two] at h
    split at h
    next r hlt =>
      cases h
      obtain ⟨e1, hhp, mg1, mg2, hbb⟩ := lock_two_ok hlt
      subst hbb
      exact ⟨e1, by rw [hhp], by rw [hhp], mg1, mg2⟩
    next t2 hlt =>
      obtain ⟨e1, _⟩ := lock_two_err hlt
      obtain ⟨e2, props⟩ := ih h
      exact ⟨e1.comp e2, props⟩
    next e0 t2 hne hlt =>
      cases h

/-! ### Evolution through the cuckoo-path machinery

Errors raised by the search/replay machinery are benign: never a policy
error such as `loadFactorTooLow`.  `PEvol` packages, for a fallible
computation from `t`, evolution on success, benignness of any error, and
evolution to the carried table when the error is `hashpowerChanged` (the
one error the callers resume from). -/

def BenignErr (e : Err) : Prop :=
  e = .assertFail ∨ e = .hashpowerChanged ∨ e = .outOfFuel

def PEvol {α : Type} (t : Table) : Except (Err × Table) (α × Table) → Prop
  | .ok (_, t') => Evol t t'
  | .error (e, t') => BenignErr e ∧ (e = .hashpowerChanged → Evol t t')

theorem benign_af : BenignErr .assertFail := Or.inl rfl

theorem benign_hc : BenignErr .hashpowerChanged := Or.inr (Or.inl rfl)

theorem benign_oof : BenignErr .outOfFuel := Or.inr (Or.inr rfl)

theorem benign_of_lock {e : Err} (h : e = .assertFail ∨ e = .hashpowerChanged) :
    BenignErr e :=
  h.elim Or.inl (fun x => Or.inr (Or.inl x))

theorem pevol_af {α : Type} {t t' : Table} :
    PEvol (α := α) t (.error (.assertFail, t')) :=
  ⟨benign_af, fun h => nomatch h⟩

theorem pevol_oof {α : Type} {t t' : Table} :
    PEvol (α := α) t (.error (.outOfFuel, t')) :=
  ⟨benign_oof, fun h => nomatch h⟩

theorem pevol_err_of {α : Type} {t t' : Table} {e : Err} (h : Evol t t')
    (hb : BenignErr e) : PEvol (α := α) t (.error (e, t')) :=
  ⟨hb, fun _ => h⟩

theorem pevol_comp {α : Type} {t t1 : Table}
    {r : Except (Err × Table) (α × Table)} (h1 : Evol t t1) (h2 : PEvol t1 r) :
    PEvol t r :=
  match r with
  | .ok (_, _) => h1.comp h2
  | .error (_, _) => ⟨h2.1, fun hc => h1.comp (h2.2 hc)⟩

theorem slot_search_go_pe (cfg : Cfg) (hp : Nat) :
    ∀ (fuel : Nat) (q : BQueue) (t : Table),
      PEvol t (slot_search_go cfg hp fuel q t).res := by
  intro fuel
  induction fuel with
  | zero =>
    intro q t
    exact pevol_oof
  | succ fuel ih =>
    intro q t
    unfold slot_search_go
    split
    · exact Evol.refl t
    · split
      · exact pevol_af
      next x q1 hdq =>
        split
        next e he =>
          obtain ⟨e1, t1⟩ := e
          exact pevol_err_of (lock_one_err he).1 (benign_of_lock (lock_one_err he).2)
        next t1 hlo =>
          obtain ⟨E1, _, _⟩ := lock_one_ok hlo
          split
          · exact pevol_err_of E1 benign_af
          next b hb =>
            split
            · exact pevol_err_of E1 benign_af
            next found q2 hss => exact E1
            next q2 hss => exact pevol_comp E1 (ih q2 t1)

theorem cps_rest_pe (cfg : Cfg) (hp : Nat) :
    ∀ (ss : List Nat) (acc : List PathRec) (prev : PathRec) (i : Nat) (t : Table),
      PEvol t (cps_rest cfg hp ss acc prev i t) := by
  intro ss
  induction ss with
  | nil => intro acc prev i t; exact Evol.refl t
  | cons s rest ih =>
    intro acc prev i t
    simp only [cps_rest]
    split
    · split
      next e he =>
        obtain ⟨e1, t1⟩ := e
        exact pevol_err_of (lock_one_err he).1 (benign_of_lock (lock_one_err he).2)
      next t1 hlo =>
        obtain ⟨E1, _, _⟩ := lock_one_ok hlo
        split
        · exact pevol_err_of E1 benign_af
        next b hb =>
          split
          · exact pevol_err_of E1 benign_af
          · exact E1
          next sl hsl => exact pevol_comp E1 (ih _ _ _ t1)
    · exact pevol_af

theorem cuckoopath_search_pe (cfg : Cfg) (hp i1 i2 fuel : Nat) (t : Table) :
    PEvol t (cuckoopath_search cfg hp i1 i2 fuel t) := by
  have hss : PEvol t (slot_search cfg hp i1 i2 fuel t).res :=
    slot_search_go_pe cfg hp fuel _ t
  simp only [cuckoopath_search]
  split
  next e heq =>
    obtain ⟨e1, t1⟩ := e
    rw [heq] at hss
    exact hss
  next t1 heq =>
    rw [heq] at hss
    exact hss
  next x t1 heq =>
    rw [heq] at hss
    have E1 : Evol t t1 := hss
    split
    · exact pevol_err_of E1 benign_af
    next s0 srest hdec =>
      split
      · split
        next e he =>
          obtain ⟨e1, t2⟩ := e
          exact pevol_err_of (E1.comp (lock_one_err he).1)
            (benign_of_lock (lock_one_err he).2)
        next t2 hlo =>
          have E2 : Evol t t2 := E1.comp (lock_one_ok hlo).1
          split
          · exact pevol_err_of E2 benign_af
          next b hb =>
            split
            · exact pevol_err_of E2 benign_af
            · exact E2
            next sl hsl =>
              have hcp := cps_rest_pe cfg hp srest
                [⟨(if (decodeSlots cfg.S x.pathcode (x.depth + 1)).2 = 0 then i1 else i2),
                   s0, hashed_key cfg sl.key⟩]
                ⟨(if (decodeSlots cfg.S x.pathcode (x.depth + 1)).2 = 0 then i1 else i2),
                  s0, hashed_key cfg sl.key⟩ 1 t1
              split
              next e hcps =>
                obtain ⟨e1, t3⟩ := e
                rw [hcps] at hcp
                exact pevol_comp E1 ⟨hcp.1, hcp.2⟩
              next r t3 hcps =>
                rw [hcps] at hcp
                exact pevol_comp E1 hcp
      · exact pevol_err_of E1 benign_af

theorem cuckoopath_move_go_bb (cfg : Cfg) (hp : Nat) (path : List PathRec) :
    ∀ (d : Nat) (bb : TwoBuckets) (t : Table) (fl : Bool) (bb' : TwoBuckets)
      (t' : Table), cuckoopath_move_go cfg hp path d bb t = .ok ((fl, bb'), t') →
      bb'.i1 = bb.i1 ∧ bb'.i2 = bb.i2 := by
  intro d
  induction d with
  | zero =>
    intro bb t fl bb' t' h
    cases h
    exact ⟨rfl, rfl⟩
  | succ d ih =>
    intro bb t fl bb' t' h
    unfold cuckoopath_move_go at h
    split at h
    next fromR toR =>
      split at h
      · cases h
      next twob t1 hlk =>
        split at h
        next fb tb =>
          split at h
          next fslot tslot =>
            split at h
            · cases h; exact ⟨rfl, rfl⟩
            · cases h; exact ⟨rfl, rfl⟩
            next sl =>
              split at h
              · cases h; exact ⟨rfl, rfl⟩
              · split at h
                · cases h
                next t2 hkv =>
                  split at h
                  · cases h
                  next t3 her =>
                    have hres := ih _ t3 fl bb' t' h
                    by_cases hd : d + 1 = 1
                    · rw [if_pos hd] at hres
                      rw [if_pos hd] at hlk
                      obtain ⟨_, _, _, _, htw⟩ := lock_three_ok hlk
                      rw [htw] at hres
                      exact hres
                    · rw [if_neg hd] at hres
                      exact hres
          next => cases h
        next => cases h
    next => cases h

theorem cuckoopath_move_go_pe (cfg : Cfg) (hp : Nat) (path : List PathRec) :
    ∀ (d : Nat) (bb : TwoBuckets) (t : Table),
      PEvol t (cuckoopath_move_go cfg hp path d bb t) := by
  intro d
  induction d with
  | zero => intro bb t; exact Evol.refl t
  | succ d ih =>
    intro bb t
    unfold cuckoopath_move_go
    split
    next fromR toR hfr hto =>
      split
      next e hlk =>
        obtain ⟨e1, t1⟩ := e
        by_cases hd : d + 1 = 1
        · rw [if_pos hd] at hlk
          exact pevol_err_of (lock_three_err hlk).1 (benign_of_lock (lock_three_err hlk).2)
        · rw [if_neg hd] at hlk
          exact pevol_err_of (lock_two_err hlk).1 (benign_of_lock (lock_two_err hlk).2)
      next twob t1 hlk =>
        have E1 : Evol t t1 := by
          by_cases hd : d + 1 = 1
          · rw [if_pos hd] at hlk
            exact (lock_three_ok hlk).1
          · rw [if_neg hd] at hlk
            exact (lock_two_ok hlk).1
        split
        next fb tb hfb htb =>
          split
          next fslot tslot hfs hts =>
            split
            · exact E1
            · exact E1
            next sl =>
              split
              · exact E1
              · split
                · exact pevol_err_of E1 benign_af
                next t2 hkv =>
                  split
                  · exact pevol_af
                  next t3 her =>
                    have hread : slotAt t1 fromR.bucket fromR.slot = some (some sl) := by
                      rw [slotAt_of_getB hfb]
                      exact hfs
                    have hne : ¬(fromR.bucket = toR.bucket ∧ fromR.slot = toR.slot) := by
                      rintro ⟨hbEq, hsEq⟩
                      rw [hbEq] at hfb
                      rw [hfb] at htb
                      have hfbtb : fb = tb := Option.some_inj.1 htb
                      rw [hfbtb, hsEq] at hfs
                      rw [hfs] at hts
                      cases hts
                    have E2 : Evol t1 t3 := move_step_evol hread hkv her hne
                    exact pevol_comp (E1.comp E2) (ih _ t3)
          next hcat => exact pevol_err_of E1 benign_af
        next hcat => exact pevol_err_of E1 benign_af
    next => exact pevol_af

theorem cuckoopath_move_pe (cfg : Cfg) (hp : Nat) (path : List PathRec)
    (depth : Nat) (bb : TwoBuckets) (t : Table) :
    PEvol t (cuckoopath_move cfg hp path depth bb t) := by
  unfold cuckoopath_move
  split
  · split
    · exact pevol_af
    next r0 =>
      split
      · split
        next e hlk =>
          obtain ⟨e1, t1⟩ := e
          exact pevol_err_of (lock_two_err hlk).1 (benign_of_lock (lock_two_err hlk).2)
        next twob t1 hlk =>
          have E1 : Evol t t1 := (lock_two_ok hlk).1
          split
          · exact pevol_err_of E1 benign_af
          next b hb =>
            split
            · exact pevol_err_of E1 benign_af
            · exact E1
            · exact E1
      · exact pevol_af
  · exact cuckoopath_move_go_pe cfg hp path depth bb t

theorem cuckoopath_move_bb {cfg : Cfg} {hp : Nat} {path : List PathRec}
    {depth : Nat} {bb : TwoBuckets} {t : Table} {fl : Bool} {bb' : TwoBuckets}
    {t' : Table} (h : cuckoopath_move cfg hp path depth bb t = .ok ((fl, bb'), t')) :
    bb'.i1 = bb.i1 ∧ bb'.i2 = bb.i2 := by
  unfold cuckoopath_move at h
  split at h
  · split at h
    · cases h
    next r0 =>
      split at h
      · split at h
        · cases h
        next twob t1 hlk =>
          obtain ⟨_, _, _, _, htw⟩ := lock_two_ok hlk
          split at h
          · cases h
          next b hb =>
            split at h
            · cases h
            · cases h
              rw [htw]
              exact ⟨rfl, rfl⟩
            · cases h
              rw [htw]
              exact ⟨rfl, rfl⟩
      · cases h
  · exact cuckoopath_move_go_bb cfg hp path depth bb t fl bb' t' h

theorem run_cuckoo_go_pe (cfg : Cfg) (hp : Nat) (bb : TwoBuckets) :
    ∀ (fuel : Nat) (t : Table), PEvol t (run_cuckoo_go cfg hp bb fuel t) := by
  intro fuel
  induction fuel with
  | zero => intro t; exact pevol_oof
  | succ fuel ih =>
    intro t
    unfold run_cuckoo_go
    split
    next e heq =>
      obtain ⟨e1, t1⟩ := e
      have hcs := cuckoopath_search_pe cfg hp bb.i1 bb.i2 fuel t
      rw [heq] at hcs
      exact hcs
    next t1 heq =>
      have hcs := cuckoopath_search_pe cfg hp bb.i1 bb.i2 fuel t
      rw [heq] at hcs
      exact hcs
    next d path t1 heq =>
      have hcs := cuckoopath_search_pe cfg hp bb.i1 bb.i2 fuel t
      rw [heq] at hcs
      have E1 : Evol t t1 := hcs
      split
      next e hmv =>
        obtain ⟨e1, t2⟩ := e
        have hm := cuckoopath_move_pe cfg hp path d bb t1
        rw [hmv] at hm
        exact pevol_comp E1 hm
      next bb1 t2 hmv =>
        have hm := cuckoopath_move_pe cfg hp path d bb t1
        rw [hmv] at hm
        have E2 : Evol t t2 := E1.comp hm
        split
        · exact pevol_af
        next r0 =>
          split
          · exact E2
          · exact pevol_af
      next b2 t2 hmv =>
        have hm := cuckoopath_move_pe cfg hp path d bb t1
        rw [hmv] at hm
        exact pevol_comp (E1.comp hm) (ih t2)

theorem run_cuckoo_go_bb (cfg : Cfg) (hp : Nat) (bb : TwoBuckets) :
    ∀ (fuel : Nat) (t : Table) (ib is : Nat) (bb' : TwoBuckets) (t' : Table),
      run_cuckoo_go cfg hp bb fuel t = .ok (some (ib, is, bb'), t') →
      bb'.i1 = bb.i1 ∧ bb'.i2 = bb.i2 := by
  intro fuel
  induction fuel with
  | zero => intro t ib is bb' t' h; cases h
  | succ fuel ih =>
    intro t ib is bb' t' h
    unfold run_cuckoo_go at h
    split at h
    · cases h
    · cases h
    next d path t1 heq =>
      split at h
      · cases h
      next bb1 t2 hmv =>
        split at h
        · cases h
        next r0 =>
          split at h
          · cases h
            exact cuckoopath_move_bb hmv
          · cases h
      next b2 t2 hmv => exact ih t2 ib is bb' t' h

theorem run_cuckoo_pe {cfg : Cfg} {fuel : Nat} {bb : TwoBuckets} {t : Table} :
    PEvol t (run_cuckoo cfg fuel bb t) ∧
    (∀ ib is bb' t', run_cuckoo cfg fuel bb t = .ok (.ok ib is bb', t') →
      bb'.i1 = bb.i1 ∧ bb'.i2 = bb.i2) := by
  have hg := run_cuckoo_go_pe cfg t.hp bb fuel t
  constructor
  · unfold run_cuckoo
    split
    next t1 heq =>
      rw [heq] at hg
      exact hg.2 rfl
    next e hno heq =>
      obtain ⟨e1, t1⟩ := e
      rw [heq] at hg
      exact hg
    next t1 heq =>
      rw [heq] at hg
      exact hg
    next ib is bb1 t1 heq =>
      rw [heq] at hg
      exact hg
  · intro ib is bb' t' h
    unfold run_cuckoo at h
    split at h
    · cases h
    · cases h
    · cases h
    next ib1 is1 bb1 t1 heq =>
      cases h
      exact run_cuckoo_go_bb cfg t.hp bb fuel t ib is bb' t' heq

/-! ### `cuckoo_insert`: evolution and success characterisation -/

theorem cuckoo_find_none_elim {cfg : Cfg} {t : Table} {k p i1 i2 : Nat}
    (h : cuckoo_find cfg t k p i1 i2 = some none) :
    ∃ b1 b2, getB t i1 = some b1 ∧ getB t i2 = some b2 ∧
      try_read_from_bucket cfg b1 p k = none ∧
      try_read_from_bucket cfg b2 p k = none := by
  unfold cuckoo_find at h
  split at h
  · cases h
  next b1 hb1 =>
    split at h
    · cases h
    next hr1 =>
      split at h
      · cases h
      next b2 hb2 =>
        split at h
        · cases h
        next hr2 => exact ⟨b1, b2, hb1, hb2, hr1, hr2⟩

theorem cuckoo_find_none_intro {cfg : Cfg} {t : Table} {k p i1 i2 : Nat}
    {b1 b2 : Bucket} (h1 : getB t i1 = some b1) (h2 : getB t i2 = some b2)
    (r1 : try_read_from_bucket cfg b1 p k = none)
    (r2 : try_read_from_bucket cfg b2 p k = none) :
    cuckoo_find cfg t k p i1 i2 = some none := by
  unfold cuckoo_find
  simp only [h1, r1, h2, r2]

theorem tfib_nodup_elim {cfg : Cfg} {b : Bucket} {p k : Nat} {r : Option Nat}
    (h : try_find_insert_bucket cfg b p k = .nodup r) :
    (∀ s ∈ b, slotMatches cfg p k s = false) ∧ r = lastEmptyIdx b := by
  have hnm : ∀ s ∈ b, slotMatches cfg p k s = false := tfib_go_nodup_noMatch h
  refine ⟨hnm, ?_⟩
  have hgo := tfib_go_noMatch hnm 0 none
  unfold try_find_insert_bucket at h
  rw [hgo] at h
  cases hle : lastEmptyIdx b with
  | none =>
    rw [hle] at h
    cases h
    rfl
  | some j =>
    rw [hle] at h
    cases h
    simp

theorem cuckoo_insert_pe {cfg : Cfg} {fuel : Nat} {hv : HashValue}
    {bb : TwoBuckets} {k : Nat} {t : Table} :
    PEvol t (cuckoo_insert cfg fuel hv bb k t) := by
  unfold cuckoo_insert
  split
  · exact pevol_af
  next b1 hb1 =>
    split
    next s0 htf1 => exact Evol.refl t
    next res1 htf1 =>
      split
      · exact pevol_af
      next b2 hb2 =>
        split
        next s0 htf2 => exact Evol.refl t
        next res2 htf2 =>
          split
          next s0 hres1 => exact Evol.refl t
          next hres1 =>
            split
            next s0 hres2 => exact Evol.refl t
            next hres2 =>
              have hrc := (@run_cuckoo_pe cfg fuel bb t).1
              split
              next e heq =>
                obtain ⟨e1, t1⟩ := e
                rw [heq] at hrc
                exact hrc
              next t1 heq =>
                rw [heq] at hrc
                exact hrc
              next t1 heq =>
                rw [heq] at hrc
                exact hrc
              next ib is1 bb' t1 heq =>
                rw [heq] at hrc
                have E1 : Evol t t1 := hrc
                split
                · exact pevol_af
                next fb hfb =>
                  split
                  next hslot =>
                    split
                    next hcand =>
                      split
                      · exact pevol_af
                      next di ds hcf => exact E1
                      next hcf => exact E1
                    next => exact pevol_af
                  next => exact pevol_af

theorem cuckoo_insert_ok_char {cfg : Cfg} {fuel : Nat} {hv : HashValue}
    {bb : TwoBuckets} {k : Nat} {t : Table} {i s : Nat} {bb2 : TwoBuckets}
    {t1 : Table}
    (h : cuckoo_insert cfg fuel hv bb k t = .ok ((.ok i s, bb2), t1))
    (hsp : SnapProps hv bb t) :
    Evol t t1 ∧ SnapProps hv bb2 t1 ∧ bb2.i1 = bb.i1 ∧ bb2.i2 = bb.i2 ∧
    slotAt t1 i s = some none ∧ (i = bb2.i1 ∨ i = bb2.i2) ∧
    cuckoo_find cfg t1 k hv.ptag bb2.i1 bb2.i2 = some none := by
  unfold cuckoo_insert at h
  split at h
  · cases h
  next b1 hb1 =>
    split at h
    next s0 htf1 => cases h
    next res1 htf1 =>
      split at h
      · cases h
      next b2 hb2 =>
        split at h
        next s0 htf2 => cases h
        next res2 htf2 =>
          split at h
          next s0 hres1 =>
            cases h
            obtain ⟨hnm1, hlast1⟩ := tfib_nodup_elim htf1
            obtain ⟨hnm2, hlast2⟩ := tfib_nodup_elim htf2
            refine ⟨Evol.refl t, hsp, rfl, rfl, ?_, Or.inl rfl, ?_⟩
            · rw [slotAt_of_getB hb1]
              exact lastEmptyIdx_get hlast1.symm
            · exact cuckoo_find_none_intro hb1 hb2 (try_read_go_eq_none.2 hnm1)
                (try_read_go_eq_none.2 hnm2)
          next hres1 =>
            split at h
            next s0 hres2 =>
              cases h
              obtain ⟨hnm1, hlast1⟩ := tfib_nodup_elim htf1
              obtain ⟨hnm2, hlast2⟩ := tfib_nodup_elim htf2
              refine ⟨Evol.refl t, hsp, rfl, rfl, ?_, Or.inr rfl, ?_⟩
              · rw [slotAt_of_getB hb2]
                exact lastEmptyIdx_get hlast2.symm
              · exact cuckoo_find_none_intro hb1 hb2 (try_read_go_eq_none.2 hnm1)
                  (try_read_go_eq_none.2 hnm2)
            next hres2 =>
              split at h
              · cases h
              next t2 hrc => cases h
              next t2 hrc => cases h
              next ib is1 bb' t2 hrc =>
                split at h
                · cases h
                next fb hfb =>
                  split at h
                  next hslot =>
                    split at h
                    next hcand =>
                      split at h
                      · cases h
                      next di ds hcf => cases h
                      next hcf =>
                        cases h
                        obtain ⟨hpe, hbbp⟩ := @run_cuckoo_pe cfg fuel bb t
                        rw [hrc] at hpe
                        have E1 : Evol t t1 := hpe
                        obtain ⟨hb1p, hb2p⟩ := hbbp i s bb2 t1 hrc
                        obtain ⟨hs1, hs2, hs3, hs4⟩ := hsp
                        have hsp2 : SnapProps hv bb2 t1 := by
                          refine ⟨?_, ?_, ?_, ?_⟩
                          · rw [hb1p, E1.hp, hs1]
                          · rw [hb1p, hb2p, E1.hp, hs2]
                          · rw [hb1p]
                            exact E1.mig _ hs3
                          · rw [hb2p]
                            exact E1.mig _ hs4
                        refine ⟨E1, hsp2, hb1p, hb2p, ?_, ?_, hcf⟩
                        · rw [slotAt_of_getB hfb]
                          exact hslot
                        · rcases hcand with hc | hc
                          · exact Or.inl (hc.trans hsp2.1.symm)
                          · refine Or.inr ?_
                            rw [hc, ← hsp2.1]
                            exact hsp2.2.1.symm
                    next hcand => cases h
                  next => cases h

/-! ### What a resize preserves (`Keeps`) and `cuckoo_fast_double` -/

/-- The parts of `Evol` that survive a resize: the counter sum, the pair
multiset and the policy fields (the hashpower and array sizes change). -/
structure Keeps (t t' : Table) : Prop where
  sum : sumCounters t' = sumCounters t
  pairs : pairsMS t' = pairsMS t
  mlf : t'.minLoadFactor = t.minLoadFactor
  mhp : t'.maxHashpower = t.maxHashpower

theorem Keeps.rfl (t : Table) : Keeps t t :=
  ⟨Eq.refl _, Eq.refl _, Eq.refl _, Eq.refl _⟩

theorem Keeps.trans {a b c : Table} (h1 : Keeps a b) (h2 : Keeps b c) : Keeps a c :=
  ⟨h2.sum.trans h1.sum, h2.pairs.trans h1.pairs, h2.mlf.trans h1.mlf,
   h2.mhp.trans h1.mhp⟩

theorem Evol.keeps {t t' : Table} (h : Evol t t') : Keeps t t' :=
  ⟨h.sum, h.pairs, h.mlf, h.mhp⟩

theorem benign_ne_lftl {e : Err} (h : BenignErr e) : e ≠ .loadFactorTooLow := by
  rcases h with rfl | rfl | rfl <;> decide

theorem load_factor_nonneg (cfg : Cfg) (t : Table) : 0 ≤ load_factor cfg t :=
  div_nonneg (Nat.cast_nonneg _) (Nat.cast_nonneg _)

theorem filterMap_id_replicate_none :
    ∀ n : Nat, (List.replicate n (none : Option Slot)).filterMap id = [] := by
  intro n
  induction n with
  | zero => rfl
  | succ n ih => simp [List.replicate_succ, ih]

theorem rehash_range_evol (cfg : Cfg) : ∀ (rem i : Nat) (t t' : Table),
    rehash_range cfg i rem t = some t' → Evol t t' := by
  intro rem
  induction rem with
  | zero =>
    intro i t t' h
    cases h
    exact Evol.refl _
  | succ rem ih =>
    intro i t t' h
    unfold rehash_range at h
    split at h
    · cases h
    next t1 hlr => exact (lock_and_rehash_evol hlr).1.comp (ih (i + 1) t1 t' h)

theorem rehash_all_evol {cfg : Cfg} {chp : Nat} {t t' : Table}
    (h : rehash_all cfg chp t = some t') : Evol t t' := by
  unfold rehash_all at h
  split at h
  · exact rehash_range_evol cfg t.locks.length 0 t t' h
  · cases h
    exact Evol.refl _

theorem maybe_resize_locks_keeps (t : Table) :
    Keeps t (maybe_resize_locks t) ∧ (maybe_resize_locks t).hp = t.hp ∧
    (maybe_resize_locks t).buckets = t.buckets := by
  unfold maybe_resize_locks
  split
  · exact ⟨Keeps.rfl t, rfl, rfl⟩
  · have hsum : sumCounters { t with
        locks := t.locks ++ List.replicate t.locks.length (⟨true, 0⟩ : Lock) }
        = sumCounters t := by
      rw [sumCounters_eq_map_sum, sumCounters_eq_map_sum]
      show ((t.locks ++ List.replicate t.locks.length (⟨true, 0⟩ : Lock)).map
        Lock.counter).sum = (t.locks.map Lock.counter).sum
      rw [List.map_append, List.sum_append, List.map_replicate]
      simp [List.sum_replicate]
    exact ⟨⟨hsum, rfl, rfl, rfl⟩, rfl, rfl⟩

theorem double_size_keeps (cfg : Cfg) (t : Table) : Keeps t (double_size cfg t) := by
  refine ⟨rfl, ?_, rfl, rfl⟩
  rw [pairsMS_eq_sum, pairsMS_eq_sum]
  show ((t.buckets ++ List.replicate t.buckets.length (emptyBucket cfg)).map
    (fun b => msOf (b.filterMap id))).sum = _
  rw [List.map_append, List.sum_append, List.map_replicate,
    show emptyBucket cfg = List.replicate cfg.S none from rfl,
    filterMap_id_replicate_none, msOf_nil]
  simp [List.sum_replicate]

theorem fd_eager_evol (cfg : Cfg) (chp : Nat) : ∀ (rem ind : Nat) (t t' : Table),
    fd_eager cfg chp ind rem t = some t' → Evol t t' := by
  intro rem
  induction rem with
  | zero =>
    intro ind t t' h
    cases h
    exact Evol.refl _
  | succ rem ih =>
    intro ind t t' h
    unfold fd_eager at h
    split at h
    · cases h
    next t1 hmv => exact (move_bucket_evol hmv).comp (ih (ind + 1) t1 t' h)

theorem sumCounters_map_unmigrate (t : Table) :
    sumCounters { t with
      locks := t.locks.map (fun lk => { lk with migrated := false }) }
      = sumCounters t := by
  rw [sumCounters_eq_map_sum, sumCounters_eq_map_sum]
  show ((t.locks.map (fun lk => { lk with migrated := false })).map
    Lock.counter).sum = _
  rw [List.map_map]
  rfl

theorem crv_ok_table {auto : Bool} {oh nh : Nat} {cfg : Cfg} {t : Table}
    {r : CRVRes} {t' : Table}
    (h : check_resize_validity auto oh nh cfg t = .ok (r, t')) : t' = t := by
  unfold check_resize_validity at h
  split at h
  · cases h
  · split at h
    · cases h
    · split at h
      · cases h
        rfl
      · cases h
        rfl

theorem crv_err {auto : Bool} {oh nh : Nat} {cfg : Cfg} {t : Table} {e : Err}
    {t' : Table}
    (h : check_resize_validity auto oh nh cfg t = .error (e, t')) :
    t' = t ∧ (e = .maxHashpowerExceeded ∨
      (e = .loadFactorTooLow ∧ auto = true ∧
        load_factor cfg t < t.minLoadFactor)) := by
  unfold check_resize_validity at h
  split at h
  · cases h
    exact ⟨rfl, Or.inl rfl⟩
  · split at h
    next hg =>
      cases h
      obtain ⟨ha, hlf⟩ := Bool.and_eq_true_iff.1 hg
      exact ⟨rfl, Or.inr ⟨rfl, ha, of_decide_eq_true hlf⟩⟩
    · split at h
      · cases h
      · cases h

theorem fast_double_keeps {cfg : Cfg} {auto : Bool} {chp : Nat} {t : Table} :
    (∀ r t', cuckoo_fast_double cfg auto chp t = .ok (r, t') → Keeps t t') ∧
    (∀ e t', cuckoo_fast_double cfg auto chp t = .error (e, t') →
      e = .assertFail ∨ e = .maxHashpowerExceeded ∨
      (e = .loadFactorTooLow ∧ load_factor cfg t < t.minLoadFactor)) := by
  constructor
  · intro r t' h
    simp only [cuckoo_fast_double] at h
    split at h
    · cases h
    next t0 hcrv =>
      cases h
      rw [crv_ok_table hcrv]
      exact Keeps.rfl t
    next t0 hcrv =>
      have ht0 : t0 = t := crv_ok_table hcrv
      subst ht0
      split at h
      · cases h
      next t1 hra =>
        have K1 : Keeps t0 t1 := (rehash_all_evol hra).keeps
        have K2 : Keeps t1 (maybe_resize_locks t1) := (maybe_resize_locks_keeps t1).1
        have K3 : Keeps (maybe_resize_locks t1)
            (double_size cfg (maybe_resize_locks t1)) :=
          double_size_keeps cfg (maybe_resize_locks t1)
        split at h
        · split at h
          · cases h
          next t3 hfe =>
            cases h
            exact ((K1.trans K2).trans K3).trans
              (fd_eager_evol cfg chp _ 0 _ t' hfe).keeps
        · cases h
          exact ((K1.trans K2).trans K3).trans
            (Keeps.mk (sumCounters_map_unmigrate _) rfl rfl rfl)
  · intro e t' h
    simp only [cuckoo_fast_double] at h
    split at h
    next e0 hcrv =>
      cases h
      exact (crv_err hcrv).2.elim (fun x => Or.inr (Or.inl x))
        (fun x => Or.inr (Or.inr ⟨x.1, x.2.2⟩))
    next t0 hcrv => cases h
    next t0 hcrv =>
      split at h
      · cases h
        exact Or.inl rfl
      next t1 hra =>
        split at h
        · split at h
          · cases h
            exact Or.inl rfl
          next t3 hfe => cases h
        · cases h

theorem snapshot_err {cfg : Cfg} {hv : HashValue} :
    ∀ {fuel : Nat} {t : Table} {e : Err} {t' : Table},
      snapshot_and_lock_two cfg fuel hv t = .error (e, t') → BenignErr e := by
  intro fuel
  induction fuel with
  | zero =>
    intro t e t' h
    cases h
    exact benign_oof
  | succ fuel ih =>
    intro t e t' h
    simp only [snapshot_and_lock_two] at h
    split at h
    · cases h
    next t2 hlt => exact ih h
    next e0 t2 hne hlt =>
      cases h
      exact benign_of_lock (lock_two_err hlt).2

theorem insert_loop_keeps (cfg : Cfg) (hv : HashValue) (k : Nat) :
    ∀ (fuel : Nat) (bb : TwoBuckets) (t : Table),
      (∀ r t', cuckoo_insert_loop cfg hv k fuel bb t = .ok (r, t') → Keeps t t') ∧
      (∀ e t', cuckoo_insert_loop cfg hv k fuel bb t = .error (e, t') →
        t.minLoadFactor = 0 → e ≠ .loadFactorTooLow) := by
  intro fuel
  induction fuel with
  | zero =>
    intro bb t
    refine ⟨fun r t' h => (nomatch h), fun e t' h hm => ?_⟩
    cases h
    decide
  | succ fuel ih =>
    intro bb t
    have hpe := @cuckoo_insert_pe cfg fuel hv bb k t
    constructor
    · intro r t' h
      simp only [cuckoo_insert_loop] at h
      split at h
      · cases h
      next i0 s0 bb2 t1 hins =>
        cases h
        rw [hins] at hpe
        exact Evol.keeps hpe
      next i0 s0 bb2 t1 hins =>
        cases h
        rw [hins] at hpe
        exact Evol.keeps hpe
      next bb0 t1 hins =>
        rw [hins] at hpe
        have K1 : Keeps t t1 := Evol.keeps hpe
        split at h
        · cases h
        next r2 t2 hfd =>
          split at h
          · cases h
          next bb3 t3 hsnap =>
            have K2 : Keeps t1 t2 := fast_double_keeps.1 r2 t2 hfd
            have K3 : Keeps t2 t3 := ((snapshot_ok hsnap).1).keeps
            exact ((K1.trans K2).trans K3).trans ((ih bb3 t3).1 r t' h)
      next bb0 t1 hins =>
        rw [hins] at hpe
        have K1 : Keeps t t1 := Evol.keeps hpe
        split at h
        · cases h
        next bb3 t3 hsnap =>
          have K3 : Keeps t1 t3 := ((snapshot_ok hsnap).1).keeps
          exact (K1.trans K3).trans ((ih bb3 t3).1 r t' h)
    · intro e t' h hm
      simp only [cuckoo_insert_loop] at h
      split at h
      next e0 hins =>
        rw [hins] at hpe
        cases h
        exact benign_ne_lftl hpe.1
      next i0 s0 bb2 t1 hins => cases h
      next i0 s0 bb2 t1 hins => cases h
      next bb0 t1 hins =>
        rw [hins] at hpe
        have K1 : Keeps t t1 := Evol.keeps hpe
        split at h
        next e2 hfd =>
          obtain ⟨e2e, t2⟩ := e2
          cases h
          rcases fast_double_keeps.2 e t' hfd with rfl | rfl | ⟨rfl, hlf⟩
          · decide
          · decide
          · rw [K1.mlf, hm] at hlf
            exact absurd hlf (not_lt.2 (load_factor_nonneg cfg t1))
        next r2 t2 hfd =>
          split at h
          next e3 hsnap =>
            obtain ⟨e3e, t3⟩ := e3
            cases h
            exact benign_ne_lftl (snapshot_err hsnap)
          next bb3 t3 hsnap =>
            have K2 : Keeps t1 t2 := fast_double_keeps.1 r2 t2 hfd
            have K3 : Keeps t2 t3 := ((snapshot_ok hsnap).1).keeps
            refine (ih bb3 t3).2 e t' h ?_
            rw [K3.mlf, K2.mlf, K1.mlf]
            exact hm
      next bb0 t1 hins =>
        rw [hins] at hpe
        have K1 : Keeps t t1 := Evol.keeps hpe
        split at h
        next e3 hsnap =>
          obtain ⟨e3e, t3⟩ := e3
          cases h
          exact benign_ne_lftl (snapshot_err hsnap)
        next bb3 t3 hsnap =>
          have K3 : Keeps t1 t3 := ((snapshot_ok hsnap).1).keeps
          refine (ih bb3 t3).2 e t' h ?_
          rw [K3.mlf, K1.mlf]
          exact hm

/-! ### Effects of the write-path operations -/

theorem add_to_bucket_eff {t : Table} {lk i s p k v : Nat} {t' : Table}
    (h : add_to_bucket t lk i s p k v = some t') :
    t'.hp = t.hp ∧ sumCounters t' = sumCounters t + 1 ∧
    pairsMS t' = pairsMS t + {(⟨p, k, v⟩ : Slot)} ∧
    t'.minLoadFactor = t.minLoadFactor ∧ t'.maxHashpower = t.maxHashpower := by
  unfold add_to_bucket at h
  split at h
  · cases h
  next t1 hkv =>
    obtain ⟨bhp, bb, bll, bmig, bsum, bpair, bmlf, bmhp⟩ := bumpCounter_evol h
    obtain ⟨khp, kbl, klocks, kmlf, kmhp⟩ := setKV_shape hkv
    refine ⟨bhp.trans khp, ?_, ?_, bmlf.trans kmlf, bmhp.trans kmhp⟩
    · rw [bsum, sumCounters_locks_eq klocks]
    · rw [bpair, setKV_pairs hkv]

theorem del_from_bucket_eff {t : Table} {lk i s : Nat} {t' : Table}
    (h : del_from_bucket t lk i s = some t') :
    t'.hp = t.hp ∧ sumCounters t' = sumCounters t - 1 ∧
    (∃ sl, pairsMS t' + {sl} = pairsMS t) ∧
    t'.minLoadFactor = t.minLoadFactor ∧ t'.maxHashpower = t.maxHashpower := by
  unfold del_from_bucket at h
  split at h
  · cases h
  next t1 her =>
    obtain ⟨bhp, bb, bll, bmig, bsum, bpair, bmlf, bmhp⟩ := bumpCounter_evol h
    obtain ⟨ehp, ebl, elocks, emlf, emhp⟩ := eraseKV_shape her
    obtain ⟨sl, hocc, hpair, hval⟩ := eraseKV_pairs her
    refine ⟨bhp.trans ehp, ?_, ⟨sl, ?_⟩, bmlf.trans emlf, bmhp.trans emhp⟩
    · rw [bsum, sumCounters_locks_eq elocks]
      omega
    · rw [bpair]
      exact hpair

theorem setMapped_card {t : Table} {i s v : Nat} {t' : Table}
    (h : setMapped t i s v = some t') :
    Multiset.card (pairsMS t') = Multiset.card (pairsMS t) := by
  obtain ⟨sl, hp3⟩ := setMapped_pairs h
  have h1 := congrArg Multiset.card hp3
  rw [Multiset.card_add, Multiset.card_add, Multiset.card_singleton,
    Multiset.card_singleton] at h1
  omega

theorem uprase_fn_char {cfg : Cfg} {fuel k : Nat} {fn : Nat → Nat × Bool}
    {v : Nat} {t : Table} :
    (∀ b t', uprase_fn cfg fuel k fn v t = .ok (b, t') →
      t'.minLoadFactor = t.minLoadFactor ∧ t'.maxHashpower = t.maxHashpower ∧
      ((b = true ∧ sumCounters t' = sumCounters t + 1 ∧
         Multiset.card (pairsMS t') = Multiset.card (pairsMS t) + 1) ∨
       (b = false ∧ sumCounters t' = sumCounters t ∧
         Multiset.card (pairsMS t') = Multiset.card (pairsMS t)) ∨
       (b = false ∧ sumCounters t' = sumCounters t - 1 ∧
         Multiset.card (pairsMS t') + 1 = Multiset.card (pairsMS t)))) ∧
    (∀ e t', uprase_fn cfg fuel k fn v t = .error (e, t') →
      t.minLoadFactor = 0 → e ≠ .loadFactorTooLow) := by
  constructor
  · intro b t' h
    simp only [uprase_fn] at h
    split at h
    · cases h
    next bb ta hsnap =>
      have Ks : Keeps t ta := ((snapshot_ok hsnap).1).keeps
      split at h
      · cases h
      next i0 s0 bb2 t2 hloop =>
        have Kl : Keeps ta t2 :=
          (insert_loop_keeps cfg (hashed_key cfg k) k fuel bb ta).1 _ t2 hloop
        have K : Keeps t t2 := Ks.trans Kl
        split at h
        · cases h
        next t3 hadd =>
          cases h
          obtain ⟨ahp, asum, apair, amlf, amhp⟩ := add_to_bucket_eff hadd
          refine ⟨amlf.trans K.mlf, amhp.trans K.mhp, Or.inl ⟨rfl, ?_, ?_⟩⟩
          · rw [asum, K.sum]
          · rw [apair, K.pairs, Multiset.card_add, Multiset.card_singleton]
      next i0 s0 bb2 t2 hloop =>
        have Kl : Keeps ta t2 :=
          (insert_loop_keeps cfg (hashed_key cfg k) k fuel bb ta).1 _ t2 hloop
        have K : Keeps t t2 := Ks.trans Kl
        split at h
        · cases h
        next cur hrv =>
          split at h
          · cases h
          next t3 hsm =>
            have hcard3 := setMapped_card hsm
            have hsum3 : sumCounters t3 = sumCounters t2 :=
              sumCounters_locks_eq (setMapped_shape hsm).2.2.1
            have hmlf3 : t3.minLoadFactor = t2.minLoadFactor :=
              (setMapped_shape hsm).2.2.2.1
            have hmhp3 : t3.maxHashpower = t2.maxHashpower :=
              (setMapped_shape hsm).2.2.2.2
            split at h
            · split at h
              · cases h
              next t4 hdel =>
                cases h
                obtain ⟨dhp, dsum, ⟨sl, dpair⟩, dmlf, dmhp⟩ := del_from_bucket_eff hdel
                have hcard4 : Multiset.card (pairsMS t') + 1
                    = Multiset.card (pairsMS t3) := by
                  have h1 := congrArg Multiset.card dpair
                  rw [Multiset.card_add, Multiset.card_singleton] at h1
                  exact h1
                refine ⟨(dmlf.trans hmlf3).trans K.mlf,
                  (dmhp.trans hmhp3).trans K.mhp,
                  Or.inr (Or.inr ⟨rfl, ?_, ?_⟩)⟩
                · rw [dsum, hsum3, K.sum]
                · rw [hcard4, hcard3, K.pairs]
            · cases h
              refine ⟨hmlf3.trans K.mlf, hmhp3.trans K.mhp,
                Or.inr (Or.inl ⟨rfl, ?_, ?_⟩)⟩
              · rw [hsum3, K.sum]
              · rw [hcard3, K.pairs]
      next bb2 t2 hloop => cases h
      next bb2 t2 hloop => cases h
  · intro e t' h hm
    simp only [uprase_fn] at h
    split at h
    next e0 hsnap =>
      cases h
      exact benign_ne_lftl (snapshot_err hsnap)
    next bb ta hsnap =>
      have Ks : Keeps t ta := ((snapshot_ok hsnap).1).keeps
      have hma : ta.minLoadFactor = 0 := by rw [Ks.mlf]; exact hm
      split at h
      next e0 hloop =>
        cases h
        exact (insert_loop_keeps cfg (hashed_key cfg k) k fuel bb ta).2 e t'
          hloop hma
      next i0 s0 bb2 t2 hloop =>
        split at h
        · cases h
          decide
        next t3 hadd => cases h
      next i0 s0 bb2 t2 hloop =>
        split at h
        · cases h
          decide
        next cur hrv =>
          split at h
          · cases h
            decide
          next t3 hsm =>
            split at h
            · split at h
              · cases h
                decide
              next t4 hdel => cases h
            · cases h
      next bb2 t2 hloop =>
        cases h
        decide
      next bb2 t2 hloop =>
        cases h
        decide

/-! ### Read path: evolution -/

theorem read_and_rehash_evol {cfg : Cfg} {t : Table} {l : Nat} {b : Bool}
    {t' : Table} (h : read_and_rehash cfg t l = some (b, t')) : Evol t t' := by
  unfold read_and_rehash at h
  split at h
  · cases h
  next lk hlk =>
    split at h
    · cases h
      exact Evol.refl _
    · split at h
      · cases h
      next t1 hml =>
        split at h
        · cases h
        next t2 hsm =>
          cases h
          have e1 := migrate_lock_evol hml
          obtain ⟨shp, sb, sl2, smg, smono, ssum, spair, sf, sx⟩ :=
            setMigrated_true_evol hsm
          exact e1.comp ⟨shp, by rw [sb], sl2, smono, ssum, spair, sf, sx⟩

theorem read_value_body_ok_table {cfg : Cfg} {k : Nat} {hv : HashValue}
    {i1 i2 : Nat} {t : Table} {r : Option Nat} {t' : Table}
    (h : read_value_body cfg k hv i1 i2 t = .ok (r, t')) : t' = t := by
  unfold read_value_body at h
  split at h
  · cases h
  · cases h
    rfl
  next bi s hcf =>
    split at h
    · cases h
    next vv hrv =>
      cases h
      rfl

theorem read_value_go_ok_evol (cfg : Cfg) (k : Nat) (hv : HashValue) :
    ∀ (fuel : Nat) (t : Table) (r : Option Nat) (t' : Table),
      read_value_go cfg k hv fuel t = .ok (r, t') → Evol t t' := by
  intro fuel
  induction fuel with
  | zero => intro t r t' h; cases h
  | succ fuel ih =>
    intro t r t' h
    simp only [read_value_go] at h
    split at h
    · cases h
    next t1 hrr =>
      exact (read_and_rehash_evol hrr).comp (ih t1 r t' h)
    next t1 hrr =>
      have E1 : Evol t t1 := read_and_rehash_evol hrr
      split at h
      · exact E1.comp (ih t1 r t' h)
      · split at h
        · split at h
          · cases h
          next t2 hrr2 =>
            exact (E1.comp (read_and_rehash_evol hrr2)).comp (ih t2 r t' h)
          next t2 hrr2 =>
            have ht : t' = t2 := read_value_body_ok_table h
            subst ht
            exact E1.comp (read_and_rehash_evol hrr2)
        · have ht : t' = t1 := read_value_body_ok_table h
          subst ht
          exact E1

theorem update_fn_pres {cfg : Cfg} {fuel k : Nat} {fn : Nat → Nat} {t : Table}
    {b : Bool} {t' : Table} (h : update_fn cfg fuel k fn t = .ok (b, t')) :
    sumCounters t' = sumCounters t ∧
    Multiset.card (pairsMS t') = Multiset.card (pairsMS t) := by
  simp only [update_fn] at h
  split at h
  · cases h
  next bb t1 hsnap =>
    have E1 : Evol t t1 := (snapshot_ok hsnap).1
    split at h
    · cases h
    next index slot hcf =>
      split at h
      · cases h
      next cur hrv =>
        split at h
        · cases h
        next t2 hsm =>
          cases h
          refine ⟨?_, ?_⟩
          · rw [sumCounters_locks_eq (setMapped_shape hsm).2.2.1, E1.sum]
          · rw [setMapped_card hsm, E1.pairs]
    next hcf =>
      cases h
      exact ⟨E1.sum, by rw [E1.pairs]⟩

theorem erase_fn_pres {cfg : Cfg} {fuel k : Nat} {fn : Nat → Bool} {t : Table}
    {b : Bool} {t' : Table} (h : erase_fn cfg fuel k fn t = .ok (b, t')) :
    (sumCounters t' = sumCounters t ∧
      Multiset.card (pairsMS t') = Multiset.card (pairsMS t)) ∨
    (sumCounters t' = sumCounters t - 1 ∧
      Multiset.card (pairsMS t') + 1 = Multiset.card (pairsMS t)) := by
  simp only [erase_fn] at h
  split at h
  · cases h
  next bb t1 hsnap =>
    have E1 : Evol t t1 := (snapshot_ok hsnap).1
    split at h
    · cases h
    next index slot hcf =>
      split at h
      · cases h
      next cur hrv =>
        split at h
        · split at h
          · cases h
          next t2 hdel =>
            cases h
            obtain ⟨dhp, dsum, ⟨sl, dpair⟩, _, _⟩ := del_from_bucket_eff hdel
            refine Or.inr ⟨?_, ?_⟩
            · rw [dsum, E1.sum]
            · have h1 := congrArg Multiset.card dpair
              rw [Multiset.card_add, Multiset.card_singleton] at h1
              rw [h1, E1.pairs]
        · cases h
          exact Or.inl ⟨E1.sum, by rw [E1.pairs]⟩
    next hcf =>
      cases h
      exact Or.inl ⟨E1.sum, by rw [E1.pairs]⟩

theorem find_fn_evol {cfg : Cfg} {fuel k : Nat} {t : Table} {b : Bool}
    {t' : Table} (h : find_fn cfg fuel k t = .ok (b, t')) : Evol t t' := by
  unfold find_fn at h
  split at h
  · cases h
  next vopt t1 hrv =>
    cases h
    exact read_value_go_ok_evol cfg k (hashed_key cfg k) fuel t vopt t' hrv

theorem find_value_evol {cfg : Cfg} {fuel k : Nat} {t : Table} {v : Nat}
    {t' : Table} (h : find_value cfg fuel k t = .ok (v, t')) : Evol t t' := by
  unfold find_value at h
  split at h
  · cases h
  next v0 t1 hrv =>
    cases h
    exact read_value_go_ok_evol cfg k (hashed_key cfg k) fuel t _ t' hrv
  next t1 hrv => cases h

/-! ### The size invariant: counter sum = occupied slots -/

/-- `sum(stripes[i].element_count) = number of occupied slots`. -/
def sizeInv (t : Table) : Prop :=
  sumCounters t = (Multiset.card (pairsMS t) : Int)

theorem sizeInv_size {t : Table} (h : sizeInv t) : size t = occupiedCount t := by
  unfold size
  rw [h, occupiedCount_eq_card]
  simp

theorem keeps_sizeInv {t t' : Table} (K : Keeps t t') (h : sizeInv t) :
    sizeInv t' := by
  unfold sizeInv at h ⊢
  rw [K.sum, K.pairs]
  exact h

theorem init_sizeInv (cfg : Cfg) (n : Nat) : sizeInv (initTable cfg n) := by
  unfold sizeInv
  have hs : sumCounters (initTable cfg n) = 0 := by
    rw [sumCounters_eq_map_sum]
    show ((List.replicate _ (⟨true, 0⟩ : Lock)).map Lock.counter).sum = 0
    rw [List.map_replicate]
    simp [List.sum_replicate]
  have hb : pairsMS (initTable cfg n) = 0 := by
    rw [pairsMS_eq_sum]
    show ((List.replicate _ (emptyBucket cfg)).map
      (fun b => msOf (b.filterMap id))).sum = 0
    rw [List.map_replicate, show emptyBucket cfg = List.replicate cfg.S none from rfl,
      filterMap_id_replicate_none, msOf_nil]
    simp [List.sum_replicate]
  rw [hs, hb]
  simp

theorem clear_sizeInv (t : Table) : sizeInv (clear t) := by
  unfold sizeInv
  have hs : sumCounters (clear t) = 0 := by
    rw [sumCounters_eq_map_sum]
    show ((t.locks.map (fun _ => (⟨true, 0⟩ : Lock))).map Lock.counter).sum = 0
    rw [List.map_map]
    refine List.sum_eq_zero ?_
    intro x hx
    rcases List.mem_map.1 hx with ⟨a, _, rfl⟩
    rfl
  have hb : pairsMS (clear t) = 0 := by
    rw [pairsMS_eq_sum]
    show ((t.buckets.map (fun b => b.map (fun _ => none))).map
      (fun b => msOf (b.filterMap id))).sum = 0
    rw [List.map_map]
    refine List.sum_eq_zero ?_
    intro x hx
    rcases List.mem_map.1 hx with ⟨a, _, rfl⟩
    show msOf ((a.map (fun _ => none)).filterMap id) = 0
    rw [List.filterMap_map]
    have hnil : List.filterMap (id ∘ fun _ => (none : Option Slot)) a = [] :=
      List.filterMap_eq_nil_iff.2 (fun x _ => rfl)
    rw [hnil, msOf_nil]
  rw [hs, hb]
  simp

theorem uprase_sizeInv {cfg : Cfg} {fuel k : Nat} {fn : Nat → Nat × Bool}
    {v : Nat} {t : Table} {b : Bool} {t' : Table}
    (h : uprase_fn cfg fuel k fn v t = .ok (b, t')) (hi : sizeInv t) :
    sizeInv t' := by
  obtain ⟨_, _, hc⟩ := (uprase_fn_char).1 b t' h
  unfold sizeInv at hi ⊢
  rcases hc with ⟨_, hs, hcard⟩ | ⟨_, hs, hcard⟩ | ⟨_, hs, hcard⟩ <;>
    rw [hs] <;> omega

theorem update_sizeInv {cfg : Cfg} {fuel k : Nat} {fn : Nat → Nat} {t : Table}
    {b : Bool} {t' : Table} (h : update_fn cfg fuel k fn t = .ok (b, t'))
    (hi : sizeInv t) : sizeInv t' := by
  obtain ⟨hs, hcard⟩ := update_fn_pres h
  unfold sizeInv at hi ⊢
  rw [hs]
  omega

theorem erase_sizeInv {cfg : Cfg} {fuel k : Nat} {fn : Nat → Bool} {t : Table}
    {b : Bool} {t' : Table} (h : erase_fn cfg fuel k fn t = .ok (b, t'))
    (hi : sizeInv t) : sizeInv t' := by
  unfold sizeInv at hi ⊢
  rcases erase_fn_pres h with ⟨hs, hcard⟩ | ⟨hs, hcard⟩ <;> rw [hs] <;> omega

/-! ### Rebuild (`cuckoo_change_capacity`) -/

theorem rebuild_go_props (cfg : Cfg) (fuel : Nat) :
    ∀ (ls : List Slot) (m : Table), m.minLoadFactor = 0 →
      (∀ m', rebuild_go cfg fuel ls m = .ok m' →
        (sizeInv m → sizeInv m') ∧ m'.minLoadFactor = 0) ∧
      (∀ e, rebuild_go cfg fuel ls m = .error e → e ≠ .loadFactorTooLow) := by
  intro ls
  induction ls with
  | nil =>
    intro m hm
    refine ⟨fun m' h => ?_, fun e h => (nomatch h)⟩
    cases h
    exact ⟨fun x => x, hm⟩
  | cons sl rest ih =>
    intro m hm
    constructor
    · intro m' h
      unfold rebuild_go at h
      split at h
      · cases h
      next b1 m1 hins =>
        have hc := (@uprase_fn_char cfg fuel sl.key
          (fun x => ((fun y => y) x, false)) sl.val m).1 b1 m1 hins
        have hm1 : m1.minLoadFactor = 0 := by rw [hc.1]; exact hm
        refine ⟨fun hi => ((ih m1 hm1).1 m' h).1 ?_, ((ih m1 hm1).1 m' h).2⟩
        exact uprase_sizeInv hins hi
    · intro e h
      unfold rebuild_go at h
      split at h
      next e0 t0 hins =>
        cases h
        exact (@uprase_fn_char cfg fuel sl.key
          (fun x => ((fun y => y) x, false)) sl.val m).2 e t0 hins hm
      next b1 m1 hins =>
        have hc := (@uprase_fn_char cfg fuel sl.key
          (fun x => ((fun y => y) x, false)) sl.val m).1 b1 m1 hins
        have hm1 : m1.minLoadFactor = 0 := by rw [hc.1]; exact hm
        exact (ih m1 hm1).2 e h

theorem change_capacity_props {cfg : Cfg} {fuel nh : Nat} {t : Table} :
    (∀ r t', cuckoo_change_capacity cfg fuel nh t = .ok (r, t') →
      sizeInv t → sizeInv t') ∧
    (∀ e t', cuckoo_change_capacity cfg fuel nh t = .error (e, t') →
      e ≠ .loadFactorTooLow) := by
  constructor
  · intro r t' h hi
    unfold cuckoo_change_capacity at h
    split at h
    · cases h
    next t0 hcrv =>
      cases h
      rw [crv_ok_table hcrv]
      exact hi
    next t0 hcrv =>
      have ht0 : t0 = t := crv_ok_table hcrv
      subst ht0
      split at h
      · cases h
      next t1 hra =>
        have hi1 : sizeInv t1 := keeps_sizeInv (rehash_all_evol hra).keeps hi
        split at h
        · cases h
        next m hrb =>
          cases h
          have hminit : (initTable cfg (hashsize nh * cfg.S)).minLoadFactor = 0 := rfl
          have him := ((rebuild_go_props cfg fuel (pairsList t1) _ hminit).1 m hrb).1
            (init_sizeInv cfg _)
          unfold sizeInv at him ⊢
          exact him
  · intro e t' h
    unfold cuckoo_change_capacity at h
    split at h
    next e0 hcrv =>
      cases h
      rcases (crv_err hcrv).2 with rfl | ⟨rfl, hfa, _⟩
      · decide
      · cases hfa
    next t0 hcrv => cases h
    next t0 hcrv =>
      split at h
      · cases h
        decide
      next t1 hra =>
        split at h
        next e1 hrb =>
          cases h
          have hminit : (initTable cfg (hashsize nh * cfg.S)).minLoadFactor = 0 := rfl
          exact (rebuild_go_props cfg fuel (pairsList t') _ hminit).2 e hrb
        next m hrb => cases h

theorem rehash_sizeInv {cfg : Cfg} {fuel n : Nat} {t : Table} {b : Bool}
    {t' : Table} (h : cuckoo_rehash cfg fuel n t = .ok (b, t'))
    (hi : sizeInv t) : sizeInv t' := by
  unfold cuckoo_rehash at h
  split at h
  · cases h
    exact hi
  · split at h
    · cases h
    next t1 hcc =>
      cases h
      exact change_capacity_props.1 _ t' hcc hi
    next t1 hcc =>
      cases h
      exact change_capacity_props.1 _ t' hcc hi

theorem reserve_sizeInv {cfg : Cfg} {fuel n : Nat} {t : Table} {b : Bool}
    {t' : Table} (h : cuckoo_reserve cfg fuel n t = .ok (b, t'))
    (hi : sizeInv t) : sizeInv t' := by
  unfold cuckoo_reserve at h
  split at h
  · cases h
    exact hi
  · split at h
    · cases h
    next t1 hcc =>
      cases h
      exact change_capacity_props.1 _ t' hcc hi
    next t1 hcc =>
      cases h
      exact change_capacity_props.1 _ t' hcc hi

theorem rehash_no_lftl {cfg : Cfg} {fuel n : Nat} {t : Table} {e : Err}
    {t' : Table} (h : cuckoo_rehash cfg fuel n t = .error (e, t')) :
    e ≠ .loadFactorTooLow := by
  unfold cuckoo_rehash at h
  split at h
  · cases h
  · split at h
    next e0 hcc =>
      cases h
      exact change_capacity_props.2 e t' hcc
    · cases h
    · cases h

theorem reserve_no_lftl {cfg : Cfg} {fuel n : Nat} {t : Table} {e : Err}
    {t' : Table} (h : cuckoo_reserve cfg fuel n t = .error (e, t')) :
    e ≠ .loadFactorTooLow := by
  unfold cuckoo_reserve at h
  split at h
  · cases h
  · split at h
    next e0 hcc =>
      cases h
      exact change_capacity_props.2 e t' hcc
    · cases h
    · cases h

theorem mlf_ok_eq {q : ℚ} {t : Table} {u : Unit} {t' : Table}
    (h : minimum_load_factor q t = .ok (u, t')) :
    t' = { t with minLoadFactor := q } := by
  unfold minimum_load_factor at h
  split at h
  · cases h
  · split at h
    · cases h
    · cases h
      rfl

/-! ### Reachable states of a table under successful API calls -/

/-- One successful public operation (the upsert family is `uprase_fn`;
`insert`, `upsert`, `insert_or_assign` are instances of it, `update` of
`update_fn`, `erase` of `erase_fn`, `contains` and `find(k, v&)` of
`find_fn`). -/
inductive Step (cfg : Cfg) : Table → Table → Prop where
  | uprase (fuel k : Nat) (fn : Nat → Nat × Bool) (v : Nat) (b : Bool)
      {t t' : Table} (h : uprase_fn cfg fuel k fn v t = .ok (b, t')) :
      Step cfg t t'
  | update (fuel k : Nat) (fn : Nat → Nat) (b : Bool) {t t' : Table}
      (h : update_fn cfg fuel k fn t = .ok (b, t')) : Step cfg t t'
  | erase (fuel k : Nat) (fn : Nat → Bool) (b : Bool) {t t' : Table}
      (h : erase_fn cfg fuel k fn t = .ok (b, t')) : Step cfg t t'
  | find (fuel k : Nat) (b : Bool) {t t' : Table}
      (h : find_fn cfg fuel k t = .ok (b, t')) : Step cfg t t'
  | findv (fuel k v : Nat) {t t' : Table}
      (h : find_value cfg fuel k t = .ok (v, t')) : Step cfg t t'
  | clr {t : Table} : Step cfg t (clear t)
  | rehash (fuel n : Nat) (b : Bool) {t t' : Table}
      (h : cuckoo_rehash cfg fuel n t = .ok (b, t')) : Step cfg t t'
  | reserve (fuel n : Nat) (b : Bool) {t t' : Table}
      (h : cuckoo_reserve cfg fuel n t = .ok (b, t')) : Step cfg t t'
  | setmlf (q : ℚ) {t t' : Table}
      (h : minimum_load_factor q t = .ok ((), t')) : Step cfg t t'

/-- Tables reachable from a constructor call by successful operations. -/
inductive Reachable (cfg : Cfg) : Table → Prop where
  | init (n : Nat) : Reachable cfg (initTable cfg n)
  | step {t t' : Table} (h : Reachable cfg t) (s : Step cfg t t') :
      Reachable cfg t'

theorem step_sizeInv {cfg : Cfg} {t t' : Table} (s : Step cfg t t')
    (hi : sizeInv t) : sizeInv t' := by
  cases s with
  | uprase fuel k fn v b h => exact uprase_sizeInv h hi
  | update fuel k fn b h => exact update_sizeInv h hi
  | erase fuel k fn b h => exact erase_sizeInv h hi
  | find fuel k b h => exact keeps_sizeInv (find_fn_evol h).keeps hi
  | findv fuel k v h => exact keeps_sizeInv (find_value_evol h).keeps hi
  | clr => exact clear_sizeInv t
  | rehash fuel n b h => exact rehash_sizeInv h hi
  | reserve fuel n b h => exact reserve_sizeInv h hi
  | setmlf q h =>
    rw [mlf_ok_eq h]
    unfold sizeInv at hi ⊢
    exact hi

theorem reachable_sizeInv {cfg : Cfg} {t : Table} (h : Reachable cfg t) :
    sizeInv t := by
  induction h with
  | init n => exact init_sizeInv cfg n
  | step h s ih => exact step_sizeInv s ih

/-! ### Insert/find round trip: post-state of a successful fresh insert -/

theorem insert_loop_ok_char (cfg : Cfg) (hv : HashValue) (k : Nat) :
    ∀ (fuel : Nat) (bb : TwoBuckets) (t : Table) (i s : Nat) (bb2 : TwoBuckets)
      (t2 : Table),
      cuckoo_insert_loop cfg hv k fuel bb t = .ok ((.ok i s, bb2), t2) →
      SnapProps hv bb t →
      SnapProps hv bb2 t2 ∧ slotAt t2 i s = some none ∧
      (i = bb2.i1 ∨ i = bb2.i2) ∧
      cuckoo_find cfg t2 k hv.ptag bb2.i1 bb2.i2 = some none := by
  intro fuel
  induction fuel with
  | zero => intro bb t i s bb2 t2 h hsp; cases h
  | succ fuel ih =>
    intro bb t i s bb2 t2 h hsp
    simp only [cuckoo_insert_loop] at h
    split at h
    · cases h
    next i0 s0 bb0 t1 hins =>
      cases h
      obtain ⟨E1, hsp2, _, _, hempty, hcand, hnm⟩ := cuckoo_insert_ok_char hins hsp
      exact ⟨hsp2, hempty, hcand, hnm⟩
    next i0 s0 bb0 t1 hins => cases h
    next bb0 t1 hins =>
      split at h
      · cases h
      next r2 t3 hfd =>
        split at h
        · cases h
        next bb3 t4 hsnap =>
          exact ih bb3 t4 i s bb2 t2 h (snapshot_ok hsnap).2
    next bb0 t1 hins =>
      split at h
      · cases h
      next bb3 t4 hsnap =>
        exact ih bb3 t4 i s bb2 t2 h (snapshot_ok hsnap).2

theorem list_set_self {α : Type} : ∀ (L : List α) (i : Nat) (x : α),
    L[i]? = some x → L.set i x = L := by
  intro L
  induction L with
  | nil =>
    intro i x h
    simp at h
  | cons a rest ih =>
    intro i x h
    cases i with
    | zero =>
      simp only [List.getElem?_cons_zero, Option.some_inj] at h
      subst h
      rfl
    | succ i =>
      simp only [List.getElem?_cons_succ] at h
      simp [List.set_cons_succ, ih i x h]

theorem getElem?_mem_list {α : Type} : ∀ {L : List α} {i : Nat} {x : α},
    L[i]? = some x → x ∈ L := by
  intro L
  induction L with
  | nil => intro i x h; simp at h
  | cons a rest ih =>
    intro i x h
    cases i with
    | zero =>
      simp only [List.getElem?_cons_zero, Option.some_inj] at h
      subst h
      exact List.mem_cons_self _ _
    | succ i =>
      simp only [List.getElem?_cons_succ] at h
      exact List.mem_cons_of_mem _ (ih h)

theorem migOn_elim {t : Table} {l : Nat} (h : migOn t l = true) :
    ∃ lk, getLock t l = some lk ∧ lk.migrated = true := by
  unfold migOn at h
  split at h
  next lk hlk => exact ⟨lk, hlk, h⟩
  · cases h

theorem lock_and_rehash_of_migrated {cfg : Cfg} {t : Table} {l : Nat}
    (h : migOn t l = true) : lock_and_rehash cfg t l = some t := by
  obtain ⟨lk, hlk, hm⟩ := migOn_elim h
  simp [lock_and_rehash, hlk, hm]

theorem snapshot_of_migrated {cfg : Cfg} {hv : HashValue} {t : Table}
    (h1 : migOn t (lock_ind (index_hash t.hp hv.hash)) = true)
    (h2 : migOn t (lock_ind (alt_index t.hp hv.ptag
      (index_hash t.hp hv.hash))) = true) (fuel : Nat) :
    snapshot_and_lock_two cfg (fuel + 1) hv t =
      .ok (⟨index_hash t.hp hv.hash,
            alt_index t.hp hv.ptag (index_hash t.hp hv.hash),
            min (lock_ind (index_hash t.hp hv.hash))
              (lock_ind (alt_index t.hp hv.ptag (index_hash t.hp hv.hash)))⟩,
           t) := by
  have hlo : lock_and_rehash cfg t
      (min (lock_ind (index_hash t.hp hv.hash))
        (lock_ind (alt_index t.hp hv.ptag (index_hash t.hp hv.hash))))
      = some t := by
    rcases Nat.le_total (lock_ind (index_hash t.hp hv.hash))
      (lock_ind (alt_index t.hp hv.ptag (index_hash t.hp hv.hash))) with hle | hle
    · rw [Nat.min_eq_left hle]
      exact lock_and_rehash_of_migrated h1
    · rw [Nat.min_eq_right hle]
      exact lock_and_rehash_of_migrated h2
  have hhi : lock_and_rehash cfg t
      (max (lock_ind (index_hash t.hp hv.hash))
        (lock_ind (alt_index t.hp hv.ptag (index_hash t.hp hv.hash))))
      = some t := by
    rcases Nat.le_total (lock_ind (index_hash t.hp hv.hash))
      (lock_ind (alt_index t.hp hv.ptag (index_hash t.hp hv.hash))) with hle | hle
    · rw [Nat.max_eq_right hle]
      exact lock_and_rehash_of_migrated h2
    · rw [Nat.max_eq_left hle]
      exact lock_and_rehash_of_migrated h1
  have hlt : lock_two cfg t.hp (index_hash t.hp hv.hash)
      (alt_index t.hp hv.ptag (index_hash t.hp hv.hash)) t =
      .ok (⟨index_hash t.hp hv.hash,
            alt_index t.hp hv.ptag (index_hash t.hp hv.hash),
            min (lock_ind (index_hash t.hp hv.hash))
              (lock_ind (alt_index t.hp hv.ptag (index_hash t.hp hv.hash)))⟩,
           t) := by
    simp only [lock_two, hlo]
    rw [if_pos trivial]
    split
    · rw [hhi]
    · rfl
  simp only [snapshot_and_lock_two, hlt]

theorem readVal_of_slotAt {t : Table} {i s : Nat} {sl : Slot}
    (h : slotAt t i s = some (some sl)) : readVal t i s = some sl.val := by
  unfold slotAt at h
  split at h
  next b hb =>
    unfold readVal
    simp only [hb, h]
  · cases h

theorem setMapped_self {t : Table} {i s : Nat} {sl : Slot}
    (h : slotAt t i s = some (some sl)) : setMapped t i s sl.val = some t := by
  unfold slotAt at h
  split at h
  next b hb =>
    unfold setMapped
    simp only [hb, h]
    have h1 : (some { sl with val := sl.val } : Option Slot) = some sl := rfl
    rw [h1, list_set_self b s (some sl) h]
    unfold setBucket
    rw [if_pos (getB_lt hb), list_set_self t.buckets i b hb]
  · cases h

/-- The state a successful fresh `insert(k, v)` leaves behind: both
candidate stripes migrated, the pair sitting in a candidate bucket, found
by `cuckoo_find`, and the bucket scans reporting it as a duplicate. -/
def PostInsert (cfg : Cfg) (k v : Nat) (t1 : Table) : Prop :=
  migOn t1 (lock_ind (index_hash t1.hp (hashed_key cfg k).hash)) = true ∧
  migOn t1 (lock_ind (alt_index t1.hp (hashed_key cfg k).ptag
    (index_hash t1.hp (hashed_key cfg k).hash))) = true ∧
  ∃ ci s,
    slotAt t1 ci s = some (some ⟨(hashed_key cfg k).ptag, k, v⟩) ∧
    readVal t1 ci s = some v ∧
    cuckoo_find cfg t1 k (hashed_key cfg k).ptag
      (index_hash t1.hp (hashed_key cfg k).hash)
      (alt_index t1.hp (hashed_key cfg k).ptag
        (index_hash t1.hp (hashed_key cfg k).hash)) = some (some (ci, s)) ∧
    (∃ b1, getB t1 (index_hash t1.hp (hashed_key cfg k).hash) = some b1 ∧
      ((ci = index_hash t1.hp (hashed_key cfg k).hash ∧
         try_find_insert_bucket cfg b1 (hashed_key cfg k).ptag k = .dup s) ∨
       (∃ r b2,
         try_find_insert_bucket cfg b1 (hashed_key cfg k).ptag k = .nodup r ∧
         getB t1 (alt_index t1.hp (hashed_key cfg k).ptag
           (index_hash t1.hp (hashed_key cfg k).hash)) = some b2 ∧
         ci = alt_index t1.hp (hashed_key cfg k).ptag
           (index_hash t1.hp (hashed_key cfg k).hash) ∧
         try_find_insert_bucket cfg b2 (hashed_key cfg k).ptag k = .dup s)))

theorem slotMatches_pair (cfg : Cfg) (p k v : Nat) :
    slotMatches cfg p k (some ⟨p, k, v⟩) = true := by
  simp [slotMatches]

theorem tfib_dup_of_unique {cfg : Cfg} {b : Bucket} {p k v s : Nat}
    (hget : getSlot b s = some (some ⟨p, k, v⟩))
    (hfirst : ∀ j < s, ∀ x, b[j]? = some x → slotMatches cfg p k x = false) :
    try_find_insert_bucket cfg b p k = .dup s := by
  have := tfib_go_first_dup (l := b) (j := s) (s := some ⟨p, k, v⟩) hget
    (slotMatches_pair cfg p k v) hfirst 0 none
  unfold try_find_insert_bucket
  rw [this, Nat.zero_add]

theorem try_read_of_unique {cfg : Cfg} {b : Bucket} {p k v s : Nat}
    (hget : getSlot b s = some (some ⟨p, k, v⟩))
    (hfirst : ∀ j < s, ∀ x, b[j]? = some x → slotMatches cfg p k x = false) :
    try_read_from_bucket cfg b p k = some s := by
  have := try_read_go_first (l := b) (j := s) (s := some ⟨p, k, v⟩) hget
    (slotMatches_pair cfg p k v) hfirst 0
  unfold try_read_from_bucket
  rw [this, Nat.zero_add]

theorem insert_true_post {cfg : Cfg} {fuel k v : Nat} {t t1 : Table}
    (hins : insert cfg fuel k v t = .ok (true, t1)) : PostInsert cfg k v t1 := by
  have h : uprase_fn cfg fuel k (fun x => ((fun y => y) x, false)) v t
      = .ok (true, t1) := hins
  simp only [uprase_fn] at h
  split at h
  · cases h
  next bb ta hsnap =>
    obtain ⟨Es, hspa⟩ := snapshot_ok hsnap
    split at h
    · cases h
    next i0 s0 bb2 t2 hloop =>
      split at h
      · cases h
      next t3 hadd =>
        cases h
        obtain ⟨hsp2, hempty, hcand, hnm⟩ :=
          insert_loop_ok_char cfg (hashed_key cfg k) k fuel bb ta i0 s0 bb2 t2
            hloop hspa
        unfold add_to_bucket at hadd
        split at hadd
        · cases hadd
        next tm hkv =>
          obtain ⟨bhp, bbuck, _, bmig, _, _, _, _⟩ := bumpCounter_evol hadd
          obtain ⟨khp, _, klocks, _, _⟩ := setKV_shape hkv
          have hp21 : t1.hp = t2.hp := bhp.trans khp
          have hmig : ∀ l, migOn t1 l = migOn t2 l := fun l =>
            (bmig l).trans (migOn_locks_eq klocks l)
          have hc1 : index_hash t1.hp (hashed_key cfg k).hash = bb2.i1 := by
            rw [hp21, ← hsp2.1]
          have hc2 : alt_index t1.hp (hashed_key cfg k).ptag
              (index_hash t1.hp (hashed_key cfg k).hash) = bb2.i2 := by
            rw [hp21, ← hsp2.1, ← hsp2.2.1]
          obtain ⟨B1, B2, hB1, hB2, hr1, hr2⟩ := cuckoo_find_none_elim hnm
          have hnm1 : ∀ x ∈ B1, slotMatches cfg (hashed_key cfg k).ptag k x
              = false := try_read_go_eq_none.1 hr1
          have hnm2 : ∀ x ∈ B2, slotMatches cfg (hashed_key cfg k).ptag k x
              = false := try_read_go_eq_none.1 hr2
          obtain ⟨bset, hbset, hsset, hilen, htm⟩ := setKV_eq hkv
          have hgb : ∀ j, getB t1 j = getB tm j := fun j => by
            unfold getB
            rw [bbuck]
          have hslA : slotAt t1 i0 s0
              = some (some ⟨(hashed_key cfg k).ptag, k, v⟩) := by
            rw [slotAt_buckets_eq bbuck, slotAt_setKV hkv,
              if_pos ⟨rfl, rfl⟩]
          have hrvA : readVal t1 i0 s0 = some v := readVal_of_slotAt hslA
          refine ⟨?_, ?_, ?_⟩
          · rw [hc1, hmig]
            exact hsp2.2.2.1
          · rw [hc2, hmig]
            exact hsp2.2.2.2
          by_cases hA : i0 = bb2.i1
          · -- placed in bucket 1
            subst hA
            have hbsetB1 : bset = B1 := by
              rw [hbset] at hB1
              exact Option.some_inj.1 hB1
            subst hbsetB1
            have hempty1 : getSlot bset s0 = some none := by
              rw [slotAt_of_getB hbset] at hempty
              exact hempty
            have hgb1 : getB t1 bb2.i1
                = some (bset.set s0 (some ⟨(hashed_key cfg k).ptag, k, v⟩)) := by
              rw [hgb, htm]
              have hgs := @getB_set t2 bb2.i1
                (bset.set s0 (some ⟨(hashed_key cfg k).ptag, k, v⟩))
                hilen bb2.i1
              rw [hgs, if_pos rfl]
            have hgetP : getSlot
                (bset.set s0 (some ⟨(hashed_key cfg k).ptag, k, v⟩)) s0
                = some (some ⟨(hashed_key cfg k).ptag, k, v⟩) := by
              rw [getSlot_set hempty1, if_pos rfl]
            have hfirst1 : ∀ j < s0, ∀ x,
                (bset.set s0 (some ⟨(hashed_key cfg k).ptag, k, v⟩))[j]? = some x →
                slotMatches cfg (hashed_key cfg k).ptag k x = false := by
              intro j hj x hx
              have hne : j ≠ s0 := Nat.ne_of_lt hj
              have hgj : getSlot (bset.set s0
                  (some ⟨(hashed_key cfg k).ptag, k, v⟩)) j = some x := hx
              rw [getSlot_set hempty1, if_neg hne] at hgj
              exact hnm1 x (getElem?_mem_list hgj)
            refine ⟨bb2.i1, s0, hslA, hrvA, ?_, ?_⟩
            · unfold cuckoo_find
              rw [hc1]
              simp only [hgb1, try_read_of_unique hgetP hfirst1]
            · refine ⟨bset.set s0 (some ⟨(hashed_key cfg k).ptag, k, v⟩),
                by rw [hc1]; exact hgb1,
                Or.inl ⟨hc1.symm, tfib_dup_of_unique hgetP hfirst1⟩⟩
          · -- placed in bucket 2
            have hB : i0 = bb2.i2 := by
              rcases hcand with hc | hc
              · exact absurd hc hA
              · exact hc
            subst hB
            have hbsetB2 : bset = B2 := by
              rw [hbset] at hB2
              exact Option.some_inj.1 hB2
            subst hbsetB2
            have hempty2 : getSlot bset s0 = some none := by
              rw [slotAt_of_getB hbset] at hempty
              exact hempty
            have hgb2 : getB t1 bb2.i2
                = some (bset.set s0 (some ⟨(hashed_key cfg k).ptag, k, v⟩)) := by
              rw [hgb, htm]
              have hgs := @getB_set t2 bb2.i2
                (bset.set s0 (some ⟨(hashed_key cfg k).ptag, k, v⟩))
                hilen bb2.i2
              rw [hgs, if_pos rfl]
            have hgb1 : getB t1 bb2.i1 = some B1 := by
              rw [hgb, htm]
              have hgs := @getB_set t2 bb2.i2
                (bset.set s0 (some ⟨(hashed_key cfg k).ptag, k, v⟩))
                hilen bb2.i1
              rw [hgs, if_neg (fun hh => hA hh.symm), hB1]
            have hgetP : getSlot
                (bset.set s0 (some ⟨(hashed_key cfg k).ptag, k, v⟩)) s0
                = some (some ⟨(hashed_key cfg k).ptag, k, v⟩) := by
              rw [getSlot_set hempty2, if_pos rfl]
            have hfirst2 : ∀ j < s0, ∀ x,
                (bset.set s0 (some ⟨(hashed_key cfg k).ptag, k, v⟩))[j]? = some x →
                slotMatches cfg (hashed_key cfg k).ptag k x = false := by
              intro j hj x hx
              have hne : j ≠ s0 := Nat.ne_of_lt hj
              have hgj : getSlot (bset.set s0
                  (some ⟨(hashed_key cfg k).ptag, k, v⟩)) j = some x := hx
              rw [getSlot_set hempty2, if_neg hne] at hgj
              exact hnm2 x (getElem?_mem_list hgj)
            have htf1 : try_find_insert_bucket cfg B1 (hashed_key cfg k).ptag k
                = .nodup (lastEmptyIdx B1) := by
              have hgo := tfib_go_noMatch hnm1 0 none
              unfold try_find_insert_bucket
              rw [hgo]
              cases hle : lastEmptyIdx B1 with
              | none => simp
              | some j => simp
            refine ⟨bb2.i2, s0, hslA, hrvA, ?_, ?_⟩
            · unfold cuckoo_find
              rw [hc2, hc1]
              simp only [hgb1, hr1, hgb2, try_read_of_unique hgetP hfirst2]
            · refine ⟨B1, by rw [hc1]; exact hgb1, Or.inr ?_⟩
              exact ⟨lastEmptyIdx B1, bset.set s0
                (some ⟨(hashed_key cfg k).ptag, k, v⟩), htf1,
                by rw [hc2]; exact hgb2,
                hc2.symm, tfib_dup_of_unique hgetP hfirst2⟩
    next i0 s0 bb2 t2 hloop =>
      exfalso
      split at h
      · cases h
      next cur hrv =>
        split at h
        · cases h
        next t3 hsm =>
          split at h
          · split at h
            · cases h
            next t4 hdel => cases h
          · cases h
    next bb2 t2 hloop => cases h
    next bb2 t2 hloop => cases h

theorem find_value_of_post {cfg : Cfg} {k v : Nat} {t1 : Table}
    (hpost : PostInsert cfg k v t1) (f : Nat) :
    find_value cfg (f + 1) k t1 = .ok (v, t1) := by
  obtain ⟨hm1, hm2, ci, s, hsl, hrv, hcf, _⟩ := hpost
  have hbody : read_value_body cfg k (hashed_key cfg k)
      (index_hash t1.hp (hashed_key cfg k).hash)
      (alt_index t1.hp (hashed_key cfg k).ptag
        (index_hash t1.hp (hashed_key cfg k).hash)) t1 = .ok (some v, t1) := by
    unfold read_value_body
    simp only [hcf, hrv]
  obtain ⟨lk1, hlk1, hmg1⟩ := migOn_elim hm1
  obtain ⟨lk2, hlk2, hmg2⟩ := migOn_elim hm2
  have hrr1 : read_and_rehash cfg t1
      (lock_ind (index_hash t1.hp (hashed_key cfg k).hash)) = some (true, t1) := by
    unfold read_and_rehash
    simp [hlk1, hmg1]
  have hrr2 : read_and_rehash cfg t1
      (lock_ind (alt_index t1.hp (hashed_key cfg k).ptag
        (index_hash t1.hp (hashed_key cfg k).hash))) = some (true, t1) := by
    unfold read_and_rehash
    simp [hlk2, hmg2]
  have hgo : read_value_go cfg k (hashed_key cfg k) (f + 1) t1
      = .ok (some v, t1) := by
    simp only [read_value_go, hrr1]
    rw [if_neg (fun hc => hc rfl)]
    split
    · rw [hrr2]
      exact hbody
    · exact hbody
  unfold find_value read_value
  rw [hgo]

theorem insert_dup_of_post {cfg : Cfg} {k v : Nat} {t1 : Table}
    (hpost : PostInsert cfg k v t1) (f v2 : Nat) :
    insert cfg (f + 1) k v2 t1 = .ok (false, t1) := by
  obtain ⟨hm1, hm2, ci, s, hsl, hrv, hcf, b1, hB1, hplace⟩ := hpost
  show uprase_fn cfg (f + 1) k (fun x => ((fun y => y) x, false)) v2 t1
    = .ok (false, t1)
  have hsnap := @snapshot_of_migrated cfg (hashed_key cfg k) t1 hm1 hm2 f
  have hci : cuckoo_insert cfg f (hashed_key cfg k)
      ⟨index_hash t1.hp (hashed_key cfg k).hash,
       alt_index t1.hp (hashed_key cfg k).ptag
         (index_hash t1.hp (hashed_key cfg k).hash),
       min (lock_ind (index_hash t1.hp (hashed_key cfg k).hash))
         (lock_ind (alt_index t1.hp (hashed_key cfg k).ptag
           (index_hash t1.hp (hashed_key cfg k).hash)))⟩ k t1
      = .ok ((.dup ci s,
          ⟨index_hash t1.hp (hashed_key cfg k).hash,
           alt_index t1.hp (hashed_key cfg k).ptag
             (index_hash t1.hp (hashed_key cfg k).hash),
           min (lock_ind (index_hash t1.hp (hashed_key cfg k).hash))
             (lock_ind (alt_index t1.hp (hashed_key cfg k).ptag
               (index_hash t1.hp (hashed_key cfg k).hash)))⟩), t1) := by
    unfold cuckoo_insert
    rcases hplace with ⟨hciA, htf⟩ | ⟨r, b2, htf1, hB2, hciB, htf2⟩
    · simp only [hB1, htf]
      rw [hciA]
    · simp only [hB1, htf1, hB2, htf2]
      rw [hciB]
  have hloop : cuckoo_insert_loop cfg (hashed_key cfg k) k (f + 1)
      ⟨index_hash t1.hp (hashed_key cfg k).hash,
       alt_index t1.hp (hashed_key cfg k).ptag
         (index_hash t1.hp (hashed_key cfg k).hash),
       min (lock_ind (index_hash t1.hp (hashed_key cfg k).hash))
         (lock_ind (alt_index t1.hp (hashed_key cfg k).ptag
           (index_hash t1.hp (hashed_key cfg k).hash)))⟩ t1
      = .ok ((.dup ci s,
          ⟨index_hash t1.hp (hashed_key cfg k).hash,
           alt_index t1.hp (hashed_key cfg k).ptag
             (index_hash t1.hp (hashed_key cfg k).hash),
           min (lock_ind (index_hash t1.hp (hashed_key cfg k).hash))
             (lock_ind (alt_index t1.hp (hashed_key cfg k).ptag
               (index_hash t1.hp (hashed_key cfg k).hash)))⟩), t1) := by
    simp only [cuckoo_insert_loop, hci]
  have hsm : setMapped t1 ci s v = some t1 :=
    @setMapped_self t1 ci s ⟨(hashed_key cfg k).ptag, k, v⟩ hsl
  simp only [uprase_fn, hsnap, hloop, hrv, hsm]
  rw [if_neg (by simp)]

/-- C1: on a quiescent single-threaded table, after a successful fresh
`insert(k, v)` every `find(k)` returns `v` and leaves the table unchanged,
and a subsequent `insert(k, v2)` returns `false` and leaves the table (and
hence `find(k) = v`) unchanged. -/
theorem insert_find_roundtrip {cfg : Cfg} {fuel k v : Nat} {t t1 : Table}
    (hins : insert cfg fuel k v t = .ok (true, t1)) :
    (∀ f, find_value cfg (f + 1) k t1 = .ok (v, t1)) ∧
    (∀ f v2, insert cfg (f + 1) k v2 t1 = .ok (false, t1)) := by
  have hpost := insert_true_post hins
  exact ⟨fun f => find_value_of_post hpost f,
    fun f v2 => insert_dup_of_post hpost f v2⟩

/-- C2: after any sequence of successful operations from a constructor
call, the stripe counters sum to the number of occupied slots, and
`size()` returns exactly that. -/
theorem counters_occupied_size {cfg : Cfg} {t : Table} (h : Reachable cfg t) :
    sumCounters t = (occupiedCount t : Int) ∧ size t = occupiedCount t := by
  have hi := reachable_sizeInv h
  refine ⟨?_, sizeInv_size hi⟩
  rw [occupiedCount_eq_card]
  exact hi

/-- C7: `upsert` is definitionally `uprase_fn` with an always-false erase
decision, `insert_or_assign` is `upsert` with an assigning functor, and the
returned boolean is `true` exactly when a new key was inserted (the pair
count grew by one). -/
theorem upsert_refines_uprase (cfg : Cfg) :
    (∀ fuel k fn v t, upsert cfg fuel k fn v t
      = uprase_fn cfg fuel k (fun x => (fn x, false)) v t) ∧
    (∀ fuel k v t, insert_or_assign cfg fuel k v t
      = upsert cfg fuel k (fun _ => v) v t) ∧
    (∀ fuel k fn v t b t', uprase_fn cfg fuel k fn v t = .ok (b, t') →
      (b = true ↔ Multiset.card (pairsMS t')
        = Multiset.card (pairsMS t) + 1)) := by
  refine ⟨fun _ _ _ _ _ => rfl, fun _ _ _ _ => rfl, ?_⟩
  intro fuel k fn v t b t' h
  obtain ⟨_, _, hc⟩ := (uprase_fn_char).1 b t' h
  constructor
  · intro hb
    rcases hc with ⟨_, _, hcard⟩ | ⟨hbf, _, _⟩ | ⟨hbf, _, _⟩
    · exact hcard
    · rw [hb] at hbf
      cases hbf
    · rw [hb] at hbf
      cases hbf
  · intro hcd
    rcases hc with ⟨hbt, _, _⟩ | ⟨hbf, _, hcard⟩ | ⟨hbf, _, hcard⟩
    · exact hbt
    · exfalso
      omega
    · exfalso
      omega

/-- C8: when the lookup machinery reports the key absent, only the
value-returning `find` raises (`KeyNotFound`); every boolean/callback
variant returns `false` and raises nothing. -/
theorem absent_key_only_find_throws {cfg : Cfg} {fuel k : Nat} {t : Table}
    {tr t1 : Table} {bb : TwoBuckets}
    (hr : read_value cfg fuel k t = .ok (none, tr))
    (hs : snapshot_and_lock_two cfg fuel (hashed_key cfg k) t = .ok (bb, t1))
    (hf : cuckoo_find cfg t1 k (hashed_key cfg k).ptag bb.i1 bb.i2
      = some none) :
    find_value cfg fuel k t = .error (.keyNotFound, tr) ∧
    find_fn cfg fuel k t = .ok (false, tr) ∧
    contains cfg fuel k t = .ok (false, tr) ∧
    find_copy cfg fuel k t = .ok (false, tr) ∧
    (∀ fn, update_fn cfg fuel k fn t = .ok (false, t1)) ∧
    (∀ v, update cfg fuel k v t = .ok (false, t1)) ∧
    (∀ fn, erase_fn cfg fuel k fn t = .ok (false, t1)) ∧
    erase cfg fuel k t = .ok (false, t1) := by
  have hff : find_fn cfg fuel k t = .ok (false, tr) := by
    simp [find_fn, hr]
  have hup : ∀ fn, update_fn cfg fuel k fn t = .ok (false, t1) := by
    intro fn
    simp only [update_fn, hs, hf]
  have her : ∀ fn, erase_fn cfg fuel k fn t = .ok (false, t1) := by
    intro fn
    simp only [erase_fn, hs, hf]
  exact ⟨by simp [find_value, hr], hff, hff, hff, hup, fun v => hup _,
    her, her _⟩

/-- C10: the `minimum_load_factor` setter rejects arguments outside
`[0, 1]` with `std::invalid_argument`, leaving the stored floor unchanged
(the error carries the unmodified table), and stores any argument inside
the range. -/
theorem minimum_load_factor_validates (mlf : ℚ) (t : Table) :
    ((mlf < 0 ∨ mlf > 1) →
      minimum_load_factor mlf t = .error (.invalidArgument, t)) ∧
    (0 ≤ mlf → mlf ≤ 1 →
      minimum_load_factor mlf t = .ok ((), { t with minLoadFactor := mlf })) := by
  constructor
  · intro h
    unfold minimum_load_factor
    rcases h with h | h
    · rw [if_pos h]
    · rw [if_neg (not_lt.2 (le_trans zero_le_one (le_of_lt h))), if_pos h]
  · intro h0 h1
    unfold minimum_load_factor
    rw [if_neg (not_lt.2 h0), if_neg (not_lt.2 h1)]

/-! ### C5: the scan records the last empty slot -/

theorem lastEmptyIdx_none : ∀ {b : Bucket}, lastEmptyIdx b = none →
    ∀ (j : Nat) (x : Option Slot), b[j]? = some x → x ≠ none := by
  intro b
  induction b with
  | nil =>
    intro h j x hx
    simp at hx
  | cons a rest ih =>
    intro h j x hx
    simp only [lastEmptyIdx] at h
    cases hle : lastEmptyIdx rest with
    | some j0 =>
      rw [hle] at h
      cases h
    | none =>
      rw [hle] at h
      by_cases ha : a = none
      · rw [if_pos ha] at h
        cases h
      · rw [if_neg ha] at h
        cases j with
        | zero =>
          simp only [List.getElem?_cons_zero, Option.some_inj] at hx
          subst hx
          exact ha
        | succ j =>
          simp only [List.getElem?_cons_succ] at hx
          exact ih hle j x hx

theorem lastEmptyIdx_last : ∀ {b : Bucket} {j : Nat}, lastEmptyIdx b = some j →
    ∀ j2, j < j2 → ∀ (x : Option Slot), b[j2]? = some x → x ≠ none := by
  intro b
  induction b with
  | nil =>
    intro j h
    simp [lastEmptyIdx] at h
  | cons a rest ih =>
    intro j h j2 hj2 x hx
    simp only [lastEmptyIdx] at h
    cases hle : lastEmptyIdx rest with
    | some j0 =>
      rw [hle] at h
      cases h
      cases j2 with
      | zero => exact absurd hj2 (by omega)
      | succ j2 =>
        simp only [List.getElem?_cons_succ] at hx
        exact ih hle j2 (by omega) x hx
    | none =>
      rw [hle] at h
      by_cases ha : a = none
      · rw [if_pos ha] at h
        cases h
        cases j2 with
        | zero => exact absurd hj2 (by omega)
        | succ j2 =>
          simp only [List.getElem?_cons_succ] at hx
          exact lastEmptyIdx_none hle j2 x hx
      · rw [if_neg ha] at h
        cases h

/-- C5 (amended): on a duplicate-free bucket the running `slot` variable of
`try_find_insert_bucket` ends at the LAST empty slot (not the first); that
index really is empty with no empty slot after it; and `cuckoo_insert`
constructs the pair at that slot, preferring bucket 1. -/
theorem scan_notes_last_empty (cfg : Cfg) :
    (∀ b p k, (∀ s ∈ b, slotMatches cfg p k s = false) →
      try_find_insert_bucket cfg b p k = .nodup (lastEmptyIdx b)) ∧
    (∀ b : Bucket, ∀ j, lastEmptyIdx b = some j →
      getSlot b j = some none ∧
      (∀ j2, j < j2 → ∀ (x : Option Slot), b[j2]? = some x → x ≠ none)) ∧
    (∀ fuel hv bb k t b1 b2 s r2,
      getB t bb.i1 = some b1 →
      try_find_insert_bucket cfg b1 hv.ptag k = .nodup (some s) →
      getB t bb.i2 = some b2 →
      try_find_insert_bucket cfg b2 hv.ptag k = .nodup r2 →
      cuckoo_insert cfg fuel hv bb k t = .ok ((.ok bb.i1 s, bb), t)) := by
  refine ⟨?_, ?_, ?_⟩
  · intro b p k hnm
    have hgo := tfib_go_noMatch hnm 0 none
    unfold try_find_insert_bucket
    rw [hgo]
    cases hle : lastEmptyIdx b with
    | none => simp
    | some j => simp
  · intro b j hj
    exact ⟨lastEmptyIdx_get hj, lastEmptyIdx_last hj⟩
  · intro fuel hv bb k t b1 b2 s r2 hb1 htf1 hb2 htf2
    unfold cuckoo_insert
    simp only [hb1, htf1, hb2, htf2]

/-- C6 (amended): an automatic expansion triggered by `TABLE_FULL` is
gated by the load-factor floor only after the max-hashpower cap has
passed; under the floor it raises `LoadFactorTooLow` at the state the
insert left, which preserves the original table's size, membership and
hashpower; explicit `rehash(n)` and `reserve(n)` never raise
`LoadFactorTooLow`. -/
theorem resize_gating (cfg : Cfg) :
    (∀ fuel hv k bb t bb0 t1,
      cuckoo_insert cfg fuel hv bb k t = .ok ((.tableFull, bb0), t1) →
      (∀ m, t1.maxHashpower = some m → t.hp + 1 ≤ m) →
      load_factor cfg t1 < t1.minLoadFactor →
      cuckoo_insert_loop cfg hv k (fuel + 1) bb t
        = .error (.loadFactorTooLow, t1) ∧ Evol t t1) ∧
    (∀ fuel n t e t', cuckoo_rehash cfg fuel n t = .error (e, t') →
      e ≠ .loadFactorTooLow) ∧
    (∀ fuel n t e t', cuckoo_reserve cfg fuel n t = .error (e, t') →
      e ≠ .loadFactorTooLow) := by
  refine ⟨?_, fun fuel n t e t' h => rehash_no_lftl h,
    fun fuel n t e t' h => reserve_no_lftl h⟩
  intro fuel hv k bb t bb0 t1 hins hmhp hlf
  have hpe := @cuckoo_insert_pe cfg fuel hv bb k t
  rw [hins] at hpe
  have E1 : Evol t t1 := hpe
  have hg1 : (match t1.maxHashpower with
      | some mhp => decide (t.hp + 1 > mhp)
      | none => false) = false := by
    cases hx : t1.maxHashpower with
    | none => rfl
    | some m =>
      exact decide_eq_false_iff_not.2 (by have := hmhp m hx; omega)
  have hg2 : (true && decide (load_factor cfg t1 < t1.minLoadFactor))
      = true := by
    simp [hlf]
  have hcrv : check_resize_validity true t.hp (t.hp + 1) cfg t1
      = .error (.loadFactorTooLow, t1) := by
    unfold check_resize_validity
    rw [if_neg (by rw [hg1]; exact fun hc => nomatch hc), if_pos hg2]
  have hfd : cuckoo_fast_double cfg true t.hp t1
      = .error (.loadFactorTooLow, t1) := by
    unfold cuckoo_fast_double
    rw [hcrv]
  refine ⟨?_, E1⟩
  simp only [cuckoo_insert_loop, hins, hfd]

/-! ### C9: the BFS queue never overflows -/

/-- `gBFS r` bounds the number of future enqueues caused by one pending
entry with `r` remaining depth levels: each of its `S` children costs one
slot plus its own future enqueues. -/
def gBFS (cfg : Cfg) : Nat → Nat
  | 0 => 0
  | r + 1 => cfg.S * (1 + gBFS cfg r)

/-- Weight of a queue entry: its remaining enqueue budget. -/
def bslotW (cfg : Cfg) (x : BSlot) : Nat :=
  gBFS cfg (MAX_BFS_PATH_LEN - 1 - x.depth)

/-- The entries not yet dequeued. -/
def pend (q : BQueue) : List BSlot := q.slots.drop q.first

/-- Total enqueue potential: entries ever enqueued plus the pending
entries' budgets. -/
def bqMeasure (cfg : Cfg) (q : BQueue) : Nat :=
  q.slots.length + ((pend q).map (bslotW cfg)).sum

/-- The BFS queue invariant: every enqueue so far found the queue not
full, the front pointer is in range, every pending entry is within the
depth bound, and the total potential fits the static capacity. -/
def BQInv (cfg : Cfg) (q : BQueue) : Prop :=
  q.assertOk = true ∧ q.first ≤ q.slots.length ∧
  (∀ x ∈ pend q, x.depth ≤ MAX_BFS_PATH_LEN - 1) ∧
  bqMeasure cfg q ≤ maxCuckooCount cfg

theorem maxCuckooCount_eq (cfg : Cfg) (hS : 1 ≤ cfg.S) :
    maxCuckooCount cfg = 2 + 2 * gBFS cfg (MAX_BFS_PATH_LEN - 1) := by
  have hg4 : gBFS cfg (MAX_BFS_PATH_LEN - 1)
      = cfg.S * (1 + cfg.S * (1 + cfg.S * (1 + cfg.S * (1 + 0)))) := rfl
  rcases Nat.lt_or_ge cfg.S 2 with h2 | h2
  · have h1 : cfg.S = 1 := by omega
    rw [hg4, h1]
    unfold maxCuckooCount
    rw [h1]
    simp [MAX_BFS_PATH_LEN]
  · have hne : (cfg.S == 1) = false := by
      simp only [beq_eq_false_iff_ne, ne_eq]
      omega
    unfold maxCuckooCount
    rw [hne]
    simp only [Bool.false_eq_true, if_false]
    obtain ⟨s, hs⟩ : ∃ s, cfg.S = s + 2 := ⟨cfg.S - 2, by omega⟩
    have hdiv : (cfg.S ^ MAX_BFS_PATH_LEN - 1) / (cfg.S - 1)
        = 1 + gBFS cfg (MAX_BFS_PATH_LEN - 1) := by
      have hb : 0 < cfg.S - 1 := by omega
      refine Nat.div_eq_of_eq_mul_left hb ?_
      rw [hg4, hs]
      have h1 : s + 2 - 1 = s + 1 := by omega
      rw [h1]
      have hpos : 1 ≤ (s + 2) ^ MAX_BFS_PATH_LEN :=
        Nat.one_le_pow _ _ (by omega)
      refine (Nat.sub_eq_iff_eq_add hpos).2 ?_
      show (s + 2) ^ 5 = _
      ring
    rw [hdiv]
    ring

theorem drop_append_le {α : Type} :
    ∀ (l1 l2 : List α) (n : Nat), n ≤ l1.length →
      (l1 ++ l2).drop n = l1.drop n ++ l2 := by
  intro l1
  induction l1 with
  | nil =>
    intro l2 n hn
    have h0 : n = 0 := by simpa using hn
    subst h0
    rfl
  | cons a rest ih =>
    intro l2 n hn
    cases n with
    | zero => rfl
    | succ n =>
      simp only [List.cons_append, List.drop_succ_cons]
      exact ih l2 n (by simpa using hn)

theorem enqueue_step {cfg : Cfg} {q : BQueue} {y : BSlot}
    (hok : q.assertOk = true) (hfl : q.first ≤ q.slots.length)
    (hm : bqMeasure cfg q + (1 + bslotW cfg y) ≤ maxCuckooCount cfg) :
    (enqueue cfg q y).assertOk = true ∧
    (enqueue cfg q y).first = q.first ∧
    (enqueue cfg q y).slots.length = q.slots.length + 1 ∧
    pend (enqueue cfg q y) = pend q ++ [y] ∧
    bqMeasure cfg (enqueue cfg q y) = bqMeasure cfg q + (1 + bslotW cfg y) := by
  have hpend : pend (enqueue cfg q y) = pend q ++ [y] := by
    unfold pend enqueue
    exact drop_append_le q.slots [y] q.first hfl
  have hlen : (enqueue cfg q y).slots.length = q.slots.length + 1 := by
    unfold enqueue
    simp
  have hmeas : bqMeasure cfg (enqueue cfg q y)
      = bqMeasure cfg q + (1 + bslotW cfg y) := by
    unfold bqMeasure
    rw [hpend, hlen, List.map_append, List.sum_append]
    simp only [List.map_cons, List.map_nil, List.sum_cons, List.sum_nil]
    omega
  refine ⟨?_, rfl, hlen, hpend, hmeas⟩
  unfold enqueue
  simp only [hok, Bool.true_and]
  refine decide_eq_true ?_
  have hle : q.slots.length ≤ bqMeasure cfg q := Nat.le_add_right _ _
  omega

theorem slot_search_slots_inv (cfg : Cfg) (hp : Nat) (x : BSlot) (b : Bucket) :
    ∀ (rem : Nat) (q : BQueue) (res : Option BSlot) (q2 : BQueue),
      slot_search_slots cfg hp x b rem q = some (res, q2) →
      q.assertOk = true → q.first ≤ q.slots.length →
      (∀ y ∈ pend q, y.depth ≤ MAX_BFS_PATH_LEN - 1) →
      bqMeasure cfg q ≤ maxCuckooCount cfg →
      (x.depth < MAX_BFS_PATH_LEN - 1 →
        bqMeasure cfg q
          + rem * (1 + gBFS cfg (MAX_BFS_PATH_LEN - 1 - (x.depth + 1)))
          ≤ maxCuckooCount cfg) →
      q2.assertOk = true ∧ q2.first = q.first ∧
      q.slots.length ≤ q2.slots.length ∧
      (∀ y ∈ pend q2, y.depth ≤ MAX_BFS_PATH_LEN - 1) ∧
      bqMeasure cfg q2 ≤ maxCuckooCount cfg := by
  intro rem
  induction rem with
  | zero =>
    intro q res q2 h hok hfl hdep hms hbud
    cases h
    exact ⟨hok, rfl, le_refl _, hdep, hms⟩
  | succ rem ih =>
    intro q res q2 h hok hfl hdep hms hbud
    simp only [slot_search_slots] at h
    split at h
    · cases h
    · cases h
      exact ⟨hok, rfl, le_refl _, hdep, hms⟩
    next sl hsl =>
      split at h
      next hd =>
        have hchild : (⟨alt_index hp sl.ptag x.bucket,
            mkPathcode (x.pathcode * cfg.S
              + (x.pathcode % cfg.S + (cfg.S - (rem + 1))) % cfg.S),
            x.depth + 1⟩ : BSlot).depth ≤ MAX_BFS_PATH_LEN - 1 := by
          show x.depth + 1 ≤ MAX_BFS_PATH_LEN - 1
          have hL : MAX_BFS_PATH_LEN = 5 := rfl
          rw [hL] at hd ⊢
          omega
        have hw : bslotW cfg (⟨alt_index hp sl.ptag x.bucket,
            mkPathcode (x.pathcode * cfg.S
              + (x.pathcode % cfg.S + (cfg.S - (rem + 1))) % cfg.S),
            x.depth + 1⟩ : BSlot)
            = gBFS cfg (MAX_BFS_PATH_LEN - 1 - (x.depth + 1)) := rfl
        have hbud1 := hbud hd
        rw [Nat.succ_mul] at hbud1
        have hmq : bqMeasure cfg q
            + (1 + gBFS cfg (MAX_BFS_PATH_LEN - 1 - (x.depth + 1)))
            ≤ maxCuckooCount cfg := by omega
        obtain ⟨eok, efst, elen, epend, emeas⟩ :=
          enqueue_step (y := ⟨alt_index hp sl.ptag x.bucket,
            mkPathcode (x.pathcode * cfg.S
              + (x.pathcode % cfg.S + (cfg.S - (rem + 1))) % cfg.S),
            x.depth + 1⟩) hok hfl (by rw [hw]; exact hmq)
        have hdep1 : ∀ y ∈ pend (enqueue cfg q
            ⟨alt_index hp sl.ptag x.bucket,
             mkPathcode (x.pathcode * cfg.S
               + (x.pathcode % cfg.S + (cfg.S - (rem + 1))) % cfg.S),
             x.depth + 1⟩), y.depth ≤ MAX_BFS_PATH_LEN - 1 := by
          intro y hy
          rw [epend] at hy
          rcases List.mem_append.1 hy with hy | hy
          · exact hdep y hy
          · rcases List.mem_singleton.1 hy with rfl
            exact hchild
        have hms1 : bqMeasure cfg (enqueue cfg q
            ⟨alt_index hp sl.ptag x.bucket,
             mkPathcode (x.pathcode * cfg.S
               + (x.pathcode % cfg.S + (cfg.S - (rem + 1))) % cfg.S),
             x.depth + 1⟩) ≤ maxCuckooCount cfg := by
          rw [emeas, hw]
          exact hmq
        have hbud2 : x.depth < MAX_BFS_PATH_LEN - 1 →
            bqMeasure cfg (enqueue cfg q
              ⟨alt_index hp sl.ptag x.bucket,
               mkPathcode (x.pathcode * cfg.S
                 + (x.pathcode % cfg.S + (cfg.S - (rem + 1))) % cfg.S),
               x.depth + 1⟩)
              + rem * (1 + gBFS cfg (MAX_BFS_PATH_LEN - 1 - (x.depth + 1)))
              ≤ maxCuckooCount cfg := by
          intro _
          rw [emeas, hw]
          omega
        obtain ⟨i1, i2, i3, i4, i5⟩ := ih _ res q2 h eok
          (by rw [efst, elen]; omega) hdep1 hms1 hbud2
        refine ⟨i1, by rw [i2, efst], by omega, i4, i5⟩
      next hd =>
        exact ih q res q2 h hok hfl hdep hms (fun hc => absurd hc hd)

theorem slot_search_go_inv (cfg : Cfg) (hp : Nat) :
    ∀ (fuel : Nat) (q : BQueue) (t : Table), BQInv cfg q →
      BQInv cfg (slot_search_go cfg hp fuel q t).q := by
  intro fuel
  induction fuel with
  | zero => intro q t hq; exact hq
  | succ fuel ih =>
    intro q t hq
    unfold slot_search_go
    split
    · exact hq
    · split
      · exact hq
      next x q1 hdq =>
        obtain ⟨hok, hfl, hdep, hms⟩ := hq
        unfold dequeue at hdq
        split at hdq
        · cases hdq
        next x0 hx =>
          cases hdq
          obtain ⟨hlt, hget⟩ := List.getElem?_eq_some.1 hx
          have hdropeq : q.slots.drop q.first
              = x :: q.slots.drop (q.first + 1) := by
            rw [List.drop_eq_getElem_cons hlt, hget]
          have hxdep : x.depth ≤ MAX_BFS_PATH_LEN - 1 := by
            refine hdep x ?_
            unfold pend
            rw [hdropeq]
            exact List.mem_cons_self _ _
          have hfl1 : q.first + 1 ≤ q.slots.length := hlt
          have hdep1 : ∀ y ∈ q.slots.drop (q.first + 1),
              y.depth ≤ MAX_BFS_PATH_LEN - 1 := by
            intro y hy
            refine hdep y ?_
            unfold pend
            rw [hdropeq]
            exact List.mem_cons_of_mem _ hy
          have hms_split : bqMeasure cfg q
              = (q.slots.length
                  + ((q.slots.drop (q.first + 1)).map (bslotW cfg)).sum)
                + bslotW cfg x := by
            unfold bqMeasure pend
            rw [hdropeq, List.map_cons, List.sum_cons]
            omega
          have hinv1 : BQInv cfg { q with first := q.first + 1 } :=
            ⟨hok, hfl1, hdep1, by
              show q.slots.length
                + ((q.slots.drop (q.first + 1)).map (bslotW cfg)).sum
                ≤ maxCuckooCount cfg
              omega⟩
          split
          · exact hinv1
          next t1 hlo =>
            split
            · exact hinv1
            next b hb =>
              have hbud : x.depth < MAX_BFS_PATH_LEN - 1 →
                  bqMeasure cfg { q with first := q.first + 1 }
                    + cfg.S * (1 + gBFS cfg
                        (MAX_BFS_PATH_LEN - 1 - (x.depth + 1)))
                    ≤ maxCuckooCount cfg := by
                intro hdlt
                have hsw : cfg.S * (1 + gBFS cfg
                    (MAX_BFS_PATH_LEN - 1 - (x.depth + 1)))
                    = bslotW cfg x := by
                  unfold bslotW
                  have hL : MAX_BFS_PATH_LEN = 5 := rfl
                  rw [hL] at hdlt ⊢
                  have he : 5 - 1 - x.depth = (5 - 1 - (x.depth + 1)) + 1 := by
                    omega
                  rw [he]
                  rfl
                rw [hsw]
                show (q.slots.length
                    + ((q.slots.drop (q.first + 1)).map (bslotW cfg)).sum)
                    + bslotW cfg x ≤ maxCuckooCount cfg
                omega
              split
              · exact hinv1
              next found q2 hss =>
                obtain ⟨i1, i2, i3, i4, i5⟩ := slot_search_slots_inv cfg hp x b
                  cfg.S { q with first := q.first + 1 } (some found) q2 hss
                  hok hfl1 hdep1 (by
                    show q.slots.length
                      + ((q.slots.drop (q.first + 1)).map (bslotW cfg)).sum
                      ≤ maxCuckooCount cfg
                    omega) hbud
                have i2a : q2.first = q.first + 1 := i2
                have i3a : q.slots.length ≤ q2.slots.length := i3
                refine ⟨i1, ?_, i4, i5⟩
                show q2.first ≤ q2.slots.length
                omega
              next q2 hss =>
                obtain ⟨i1, i2, i3, i4, i5⟩ := slot_search_slots_inv cfg hp x b
                  cfg.S { q with first := q.first + 1 } none q2 hss
                  hok hfl1 hdep1 (by
                    show q.slots.length
                      + ((q.slots.drop (q.first + 1)).map (bslotW cfg)).sum
                      ≤ maxCuckooCount cfg
                    omega) hbud
                have i2a : q2.first = q.first + 1 := i2
                have i3a : q.slots.length ≤ q2.slots.length := i3
                refine ih q2 t1 ⟨i1, ?_, i4, i5⟩
                omega

/-- C9: a BFS started by `run_cuckoo` from two buckets never enqueues more
than `MAX_CUCKOO_COUNT` entries, so the statically sized queue never
overflows and the `assert(!full())` guarding every enqueue holds; for
`S ≥ 2` the capacity is the spec's `2 * (S^L - 1)/(S - 1)`. -/
theorem bfs_queue_bounded (cfg : Cfg) (hS : 1 ≤ cfg.S) (hp i1 i2 fuel : Nat)
    (t : Table) :
    (slot_search cfg hp i1 i2 fuel t).q.assertOk = true ∧
    (slot_search cfg hp i1 i2 fuel t).q.slots.length ≤ maxCuckooCount cfg ∧
    (2 ≤ cfg.S → maxCuckooCount cfg
      = 2 * ((cfg.S ^ MAX_BFS_PATH_LEN - 1) / (cfg.S - 1))) := by
  have hC := maxCuckooCount_eq cfg hS
  have hq0 : BQInv cfg (enqueue cfg (enqueue cfg bq_empty ⟨i1, 0, 0⟩)
      ⟨i2, 1, 0⟩) := by
    refine ⟨?_, ?_, ?_, ?_⟩
    · show ((true && decide ((0 : Nat) < maxCuckooCount cfg))
        && decide ((1 : Nat) < maxCuckooCount cfg)) = true
      have h2C : 2 ≤ maxCuckooCount cfg := by omega
      simp only [Bool.true_and, Bool.and_eq_true, decide_eq_true_eq]
      omega
    · show (0 : Nat) ≤ 2
      omega
    · intro x hx
      have hx2 : x ∈ [(⟨i1, 0, 0⟩ : BSlot), ⟨i2, 1, 0⟩] := by
        simpa [pend, enqueue, bq_empty] using hx
      rcases List.mem_cons.1 hx2 with rfl | hx2
      · show (0 : Nat) ≤ MAX_BFS_PATH_LEN - 1
        omega
      · rcases List.mem_singleton.1 hx2 with rfl
        show (0 : Nat) ≤ MAX_BFS_PATH_LEN - 1
        omega
    · show 2 + (gBFS cfg (MAX_BFS_PATH_LEN - 1 - 0)
        + (gBFS cfg (MAX_BFS_PATH_LEN - 1 - 0) + 0)) ≤ maxCuckooCount cfg
      simp only [Nat.sub_zero]
      omega
  have hinv := slot_search_go_inv cfg hp fuel _ t hq0
  refine ⟨hinv.1, ?_, ?_⟩
  · have hle : (slot_search cfg hp i1 i2 fuel t).q.slots.length
        ≤ bqMeasure cfg (slot_search cfg hp i1 i2 fuel t).q :=
      Nat.le_add_right _ _
    exact le_trans hle hinv.2.2.2
  · intro h2
    unfold maxCuckooCount
    have hne : (cfg.S == 1) = false := by
      simp only [beq_eq_false_iff_ne, ne_eq]
      omega
    rw [hne]
    simp

/-! ## Concrete instances for the witnesses and counterexamples -/

instance exceptDecEq {α β : Type} [DecidableEq α] [DecidableEq β] :
    DecidableEq (Except α β) := fun x y =>
  match x, y with
  | .error a, .error b =>
    if h : a = b then isTrue (by rw [h])
    else isFalse (fun hc => h (by cases hc; rfl))
  | .error a, .ok b => isFalse (fun hc => nomatch hc)
  | .ok a, .error b => isFalse (fun hc => nomatch hc)
  | .ok a, .ok b =>
    if h : a = b then isTrue (by rw [h])
    else isFalse (fun hc => h (by cases hc; rfl))


/-- A 4-slot-per-bucket instantiation with the identity hash. -/
def cfg0 : Cfg := ⟨fun kk => kk, false, 4⟩

/-- A 1-slot-per-bucket instantiation whose hash sends every key to
bucket 0 (its alternate is bucket 1). -/
def cfgB : Cfg := ⟨fun _ => 0, false, 1⟩

def tbl0 : Table := initTable cfg0 0

def c1t1 : Table :=
  match insert cfg0 6 5 7 tbl0 with
  | .ok (_, t) => t
  | .error (_, t) => t

def c2t1 : Table :=
  match uprase_fn cfg0 6 3 (fun x => (x, false)) 11 tbl0 with
  | .ok (_, t) => t
  | .error (_, t) => t

def c7t1 : Table :=
  match uprase_fn cfg0 6 4 (fun x => (x, false)) 8 tbl0 with
  | .ok (_, t) => t
  | .error (_, t) => t

def c8bb : TwoBuckets :=
  match snapshot_and_lock_two cfg0 4 (hashed_key cfg0 5) tbl0 with
  | .ok (bb, _) => bb
  | .error _ => ⟨0, 0, 0⟩

def c5bucket : Bucket := [none, some ⟨9, 99, 1⟩, none, none]

def c5t : Table :=
  ⟨2, [emptyBucket cfg0, c5bucket, emptyBucket cfg0, emptyBucket cfg0],
   List.replicate 4 ⟨true, 0⟩, 0, none⟩

/-- All keys of `cfgB` collide on buckets `{0, 1}`; both are full, the
load factor is `1/2` and the floor is `1`. -/
def tC6ok : Table :=
  ⟨2, [[some ⟨0, 1, 10⟩], [some ⟨0, 2, 20⟩], [none], [none]],
   [⟨true, 1⟩, ⟨true, 1⟩, ⟨true, 0⟩, ⟨true, 0⟩], 1, none⟩

/-- Same table with a maximum hashpower already at the current value. -/
def tC6mhp : Table :=
  ⟨2, [[some ⟨0, 1, 10⟩], [some ⟨0, 2, 20⟩], [none], [none]],
   [⟨true, 1⟩, ⟨true, 1⟩, ⟨true, 0⟩, ⟨true, 0⟩], 1, some 2⟩

theorem insert_find_roundtrip_witness :
    insert cfg0 6 5 7 tbl0 = .ok (true, c1t1) ∧
    find_value cfg0 3 5 c1t1 = .ok (7, c1t1) ∧
    insert cfg0 3 5 9 c1t1 = .ok (false, c1t1) := by
  have hins : insert cfg0 6 5 7 tbl0 = .ok (true, c1t1) := by decide
  have h := insert_find_roundtrip hins
  exact ⟨hins, h.1 2, h.2 2 9⟩

theorem counters_occupied_size_witness :
    sumCounters c2t1 = (occupiedCount c2t1 : Int) ∧
    size c2t1 = occupiedCount c2t1 := by
  have hs : uprase_fn cfg0 6 3 (fun x => (x, false)) 11 tbl0
      = .ok (true, c2t1) := by decide
  have hr : Reachable cfg0 c2t1 :=
    Reachable.step (Reachable.init 0) (Step.uprase 6 3 _ 11 true hs)
  exact counters_occupied_size hr

theorem scan_notes_last_empty_witness :
    try_find_insert_bucket cfg0 c5bucket 7 5 = .nodup (lastEmptyIdx c5bucket) ∧
    getSlot c5bucket 3 = some none ∧
    cuckoo_insert cfg0 2 ⟨5, 7⟩ ⟨1, 2, 0⟩ 5 c5t
      = .ok ((.ok 1 3, ⟨1, 2, 0⟩), c5t) := by
  have h := scan_notes_last_empty cfg0
  refine ⟨h.1 c5bucket 7 5 (by decide), (h.2.1 c5bucket 3 (by decide)).1, ?_⟩
  exact h.2.2 2 ⟨5, 7⟩ ⟨1, 2, 0⟩ 5 c5t c5bucket (emptyBucket cfg0) 3 (some 3)
    (by decide) (by decide) (by decide) (by decide)

theorem scan_first_empty_counterexample :
    getSlot c5bucket 0 = some none ∧
    try_find_insert_bucket cfg0 c5bucket 7 5 ≠ .nodup (some 0) ∧
    try_find_insert_bucket cfg0 c5bucket 7 5 = .nodup (some 3) ∧
    cuckoo_insert cfg0 2 ⟨5, 7⟩ ⟨1, 2, 0⟩ 5 c5t
      = .ok ((.ok 1 3, ⟨1, 2, 0⟩), c5t) := by decide

theorem c6_low_lf : load_factor cfgB tC6ok < tC6ok.minLoadFactor := by
  have hsz : size tC6ok = 2 := by decide
  have hcap : capacity cfgB tC6ok = 4 := by decide
  unfold load_factor
  rw [hsz, hcap]
  show ((2 : Nat) : ℚ) / ((4 : Nat) : ℚ) < (1 : ℚ)
  norm_num

theorem c6_low_lf2 : load_factor cfgB tC6mhp < tC6mhp.minLoadFactor := by
  have hsz : size tC6mhp = 2 := by decide
  have hcap : capacity cfgB tC6mhp = 4 := by decide
  unfold load_factor
  rw [hsz, hcap]
  show ((2 : Nat) : ℚ) / ((4 : Nat) : ℚ) < (1 : ℚ)
  norm_num

set_option maxRecDepth 100000 in
theorem resize_gating_witness :
    cuckoo_insert_loop cfgB (hashed_key cfgB 3) 3 13 ⟨0, 1, 0⟩ tC6ok
      = .error (.loadFactorTooLow, tC6ok) ∧ Evol tC6ok tC6ok := by
  exact (resize_gating cfgB).1 12 (hashed_key cfgB 3) 3 ⟨0, 1, 0⟩ tC6ok
    ⟨0, 1, 0⟩ tC6ok (by decide) (fun m hm => nomatch hm) c6_low_lf

set_option maxRecDepth 100000 in
theorem resize_gating_counterexample :
    load_factor cfgB tC6mhp < tC6mhp.minLoadFactor ∧
    cuckoo_insert cfgB 12 (hashed_key cfgB 3) ⟨0, 1, 0⟩ 3 tC6mhp
      = .ok ((.tableFull, ⟨0, 1, 0⟩), tC6mhp) ∧
    cuckoo_insert_loop cfgB (hashed_key cfgB 3) 3 13 ⟨0, 1, 0⟩ tC6mhp
      = .error (.maxHashpowerExceeded, tC6mhp) ∧
    Err.maxHashpowerExceeded ≠ Err.loadFactorTooLow :=
  ⟨c6_low_lf2, by decide, by decide, by decide⟩

theorem upsert_refines_uprase_witness :
    upsert cfg0 6 4 (fun x => x + 1) 8 tbl0
      = uprase_fn cfg0 6 4 (fun x => ((fun y => y + 1) x, false)) 8 tbl0 ∧
    insert_or_assign cfg0 6 4 9 tbl0
      = upsert cfg0 6 4 (fun _ => 9) 9 tbl0 ∧
    (true = true ↔ Multiset.card (pairsMS c7t1)
      = Multiset.card (pairsMS tbl0) + 1) := by
  have h := upsert_refines_uprase cfg0
  exact ⟨h.1 6 4 (fun x => x + 1) 8 tbl0, h.2.1 6 4 9 tbl0,
    h.2.2 6 4 (fun x => (x, false)) 8 tbl0 true c7t1 (by decide)⟩

theorem absent_key_only_find_throws_witness :
    find_value cfg0 4 5 tbl0 = .error (.keyNotFound, tbl0) ∧
    contains cfg0 4 5 tbl0 = .ok (false, tbl0) ∧
    update cfg0 4 5 9 tbl0 = .ok (false, tbl0) ∧
    erase cfg0 4 5 tbl0 = .ok (false, tbl0) := by
  have h := @absent_key_only_find_throws cfg0 4 5 tbl0 tbl0 tbl0 c8bb
    (by decide) (by decide) (by decide)
  exact ⟨h.1, h.2.2.1, h.2.2.2.2.2.1 9, h.2.2.2.2.2.2.2⟩

theorem bfs_queue_bounded_witness :
    (slot_search cfg0 2 0 1 5 tbl0).q.assertOk = true ∧
    (slot_search cfg0 2 0 1 5 tbl0).q.slots.length ≤ maxCuckooCount cfg0 ∧
    (2 ≤ cfg0.S → maxCuckooCount cfg0
      = 2 * ((cfg0.S ^ MAX_BFS_PATH_LEN - 1) / (cfg0.S - 1))) :=
  bfs_queue_bounded cfg0 (by decide) 2 0 1 5 tbl0

theorem minimum_load_factor_validates_witness :
    minimum_load_factor 2 tbl0 = .error (.invalidArgument, tbl0) ∧
    minimum_load_factor (1 / 2) tbl0
      = .ok ((), { tbl0 with minLoadFactor := 1 / 2 }) :=
  ⟨(minimum_load_factor_validates 2 tbl0).1 (Or.inr (by norm_num)),
   (minimum_load_factor_validates (1 / 2) tbl0).2 (by norm_num) (by norm_num)⟩

end SeqCuckoo




